import Mathlib

/-!
# KD-tree (`src/KDTree/src/kdtree.cpp`): embedding and verification

Conventions of the embedding.

* The source computes in `double`, and so does the embedding.  The arithmetic is IEEE-754
  binary64 with every operation rounded to nearest (namespace `F64`, see the section on
  the arithmetic below).  A finite `double` `x` is the integer `x * 2 ^ 1074`, so the points
  the searches work on are `Point ℤ` and the distances they compute are integers in the same
  unit.  "Distance" is the value `KDTree::distance` returns, a `double`.
* `insertUtil` and `buildTree` only compare coordinates.  They are embedded over an
  arbitrary linearly ordered commutative ring `α`; at `α := ℤ` they act on the `double`s,
  whose order is the order of their encodings.  The properties of the shape of the tree are
  stated for every `α`.
* A `KDNode*` is a value of the inductive type `KDNode` (`null` is `nullptr`).  The `best`
  pointer of the nearest-neighbour search is only ever dereferenced for its `point`, so it
  is an `Option (Point ℤ)`.
* `std::sort` is not stable, so the order of points with equal keys is not fixed by the
  source.  `buildTree` takes the sort as a parameter; `IsSort` is what the C++ standard
  guarantees of it, and `stdSort` is one instance.
* `std::priority_queue<std::pair<double, KDNode*>>` orders its entries by distance and then
  by node address.  Addresses are a parameter `addr` (address of the node at a tree
  position, root `1`, children `2 * pos` and `2 * pos + 1`); the queue is the list of its
  entries, largest first.
* Undefined behaviour that the source can reach is a `Fault`.
* Out-of-range `coords[i]` is undefined in the source and reads `0` here; `depth % 0` is
  undefined in the source and is `depth` here.  The theorems state the length and
  `dimensions ≥ 1` hypotheses under which the source is defined.
* The `int` counters `depth` and `currentDimension` are natural numbers: they are bounded
  by the height of the tree and never reach `2^31`.  The `int k` of the k-nearest search is
  an integer, converted to `size_t` (`toSizeT`) where the source compares it with
  `pq.size()`.
-/

namespace KDTree

/-! ## Definitions -/

/-- Undefined behaviour reachable in the source, made explicit. -/
inductive Fault where
  /-- The read `nearest->point` with `nearest == nullptr` (kdtree.cpp:101). -/
  | nullDereference
  /-- The read `pq.top()` on an empty priority queue (kdtree.cpp:134). -/
  | emptyQueueTop
  deriving DecidableEq, Repr

/-- The struct `Point` of kdtree.h: a vector of coordinates. -/
structure Point (α : Type) where
  coords : List α
  deriving DecidableEq, Repr

/-- The class `KDNode` of kdtree.h, with `null` for `nullptr`. -/
inductive KDNode (α : Type) where
  | null : KDNode α
  | node (point : Point α) (left right : KDNode α) : KDNode α
  deriving DecidableEq, Repr

variable {α : Type} [LinearOrderedCommRing α]

/-- The read `p.coords[i]`. -/
def Point.coord (p : Point α) (i : Nat) : α := p.coords.getD i 0

/-- The method `KDTree::insertUtil` (kdtree.cpp:32-46). -/
def insertUtil (dimensions : Nat) : KDNode α → Point α → Nat → KDNode α
  | .null, point, _ => .node point .null .null
  | .node p left right, point, depth =>
    let dim := depth % dimensions
    if point.coord dim < p.coord dim then
      .node p (insertUtil dimensions left point (depth + 1)) right
    else
      .node p left (insertUtil dimensions right point (depth + 1))

/-- The method `KDTree::insert` (kdtree.cpp:93-95), as a function of the root. -/
def insert (dimensions : Nat) (root : KDNode α) (point : Point α) : KDNode α :=
  insertUtil dimensions root point 0

/-- What the C++ standard guarantees of `std::sort` with the comparator of
kdtree.cpp:52-54: the result is a permutation of the input in which no element
compares less (on axis `dim`) than an earlier one. -/
def IsSort (sort : Nat → List (Point α) → List (Point α)) : Prop :=
  ∀ dim l, List.Perm (sort dim l) l ∧
    List.Sorted (fun a b : Point α => a.coord dim ≤ b.coord dim) (sort dim l)

/-- One instance of `std::sort` with the comparator of kdtree.cpp:52-54
(a stable insertion sort). -/
def stdSort (dim : Nat) (l : List (Point α)) : List (Point α) :=
  l.insertionSort (fun a b => a.coord dim ≤ b.coord dim)

/-- The method `KDTree::buildTree` (kdtree.cpp:48-62).  The recursion is on a fuel
argument; `buildTree` below supplies `points.length`, which is always enough
(`buildTreeFuel_eq`, and `buildTree_cons` for the recursion free of fuel).  The read
`points[medianIndex]` is always in range (`median_split`), so the `none` branch is never
taken. -/
def buildTreeFuel (sort : Nat → List (Point α) → List (Point α)) (dimensions : Nat) :
    Nat → List (Point α) → Nat → KDNode α
  | 0, _, _ => .null
  | fuel + 1, points, currentDimension =>
    if points.isEmpty then .null
    else
      let dim := currentDimension % dimensions
      let points := sort dim points
      let medianIndex := points.length / 2
      match points.get? medianIndex with
      | none => .null
      | some median =>
        .node median
          (buildTreeFuel sort dimensions fuel (points.take medianIndex) (currentDimension + 1))
          (buildTreeFuel sort dimensions fuel (points.drop (medianIndex + 1))
            (currentDimension + 1))

/-- The method `KDTree::buildTree` (kdtree.cpp:48-62). -/
def buildTree (sort : Nat → List (Point α) → List (Point α)) (dimensions : Nat)
    (points : List (Point α)) (currentDimension : Nat) : KDNode α :=
  buildTreeFuel sort dimensions points.length points currentDimension

/-- The constructor `KDTree::KDTree(int dims, std::vector<Point> points)`
(kdtree.cpp:13-18): the root it stores. -/
def build (sort : Nat → List (Point α) → List (Point α)) (dimensions : Nat)
    (points : List (Point α)) : KDNode α :=
  buildTree sort dimensions points 0

/-- A tree as the public interface produces it: the constructor, then any number of
`insert` calls (the constructor `KDTree(int dims)` is the case `points = []`). -/
def buildThenInsert (sort : Nat → List (Point α) → List (Point α)) (dimensions : Nat)
    (points inserted : List (Point α)) : KDNode α :=
  inserted.foldl (insert dimensions) (build sort dimensions points)

/-- An entry `std::pair<double, KDNode*>` of the priority queue: the distance,
the address of the node, and the point stored in the node. -/
structure Entry (α : Type) where
  dist : α
  addr : Nat
  point : Point α
  deriving DecidableEq, Repr

/-- The comparison `operator<` of `std::pair<double, KDNode*>`: lexicographic. -/
def Entry.lt (a b : Entry α) : Prop :=
  a.dist < b.dist ∨ (a.dist = b.dist ∧ a.addr < b.addr)

instance Entry.decidableLt : DecidableRel (@Entry.lt α _) :=
  fun a b => inferInstanceAs (Decidable (a.dist < b.dist ∨ (a.dist = b.dist ∧ a.addr < b.addr)))

/-- The order of the queue, largest first: `a` may stand before `b`. -/
def Entry.ge (a b : Entry α) : Prop := ¬ Entry.lt a b

instance Entry.decidableGe : DecidableRel (@Entry.ge α _) :=
  fun a b => inferInstanceAs (Decidable (¬ Entry.lt a b))

/-- The conversion of an `int` to the unsigned `size_t` of `w` bits, which the
comparisons `pq.size() > k` and `pq.size() < k` apply to `k`. -/
def toSizeT (w : Nat) (k : Int) : Nat := (k % 2 ^ w).toNat

/-- The call `pq.push(e)`: the queue is kept as the list of its entries, largest first. -/
def push (e : Entry α) (pq : List (Entry α)) : List (Entry α) :=
  pq.orderedInsert Entry.ge e

/-! ### The arithmetic of the source: IEEE-754 binary64

The source computes in `double`: IEEE-754 binary64, every operation rounded to nearest,
ties to even, with gradual underflow and overflow to infinity.  Each operation of the
source is one rounded operation here (no fused multiply-add, no wider intermediate format).

* A finite `double` `x` is the integer `x * 2 ^ 1074`: every finite `double` is a multiple
  of the smallest subnormal `2 ^ (-1074)`.  Coordinates are such integers (`IsDouble`), so a
  point is a `Point ℤ` and a tree a `KDNode ℤ`; `insertUtil` and `buildTree`, which only
  compare coordinates, are the definitions above at `ℤ`.  The two zeros of the format
  compare equal and are the one integer `0`.  Coordinates that are infinite or NaN are not
  represented: the properties are about points with finite coordinates.
* A non-negative result is a natural number in the same unit, `+inf` is `F64.inf = 2 ^ 2098`,
  above every finite `double`.  The order and the equality of the encodings are those of the
  `double` values.
* No NaN arises from finite coordinates: a difference is finite or infinite, the square of
  a difference is non-negative or `+inf`, a sum of such squares is non-negative or `+inf`,
  and so is its square root.  The sign of a difference does not matter to its square or to
  its absolute value, so only its magnitude is computed (`absSub`).
-/

namespace F64

/-- A power-of-two exponent `e` with `n < 2 ^ e`, found by doubling, from `e`. -/
def expBound : Nat → Nat → Nat → Nat
  | 0, _, e => e
  | fuel + 1, n, e => if n >>> e = 0 then e else expBound fuel n (2 * e)

/-- The position of the highest set bit of `n ≠ 0`, by binary search: `acc` is a position
with `2 ^ acc ≤ n`, and `step` the power of two by which to try to raise it. -/
def highBit : Nat → Nat → Nat → Nat → Nat
  | 0, _, acc, _ => acc
  | fuel + 1, n, acc, step =>
    if step = 0 then acc
    else if n >>> (acc + step) = 0 then highBit fuel n acc (step / 2)
    else highBit fuel n (acc + step) (step / 2)

/-- The number of binary digits of `n` (`f64_bitLength_eq`). -/
def bitLength (n : Nat) : Nat :=
  if n = 0 then 0 else highBit n n 0 (expBound n n 1 / 2) + 1

/-- The encoding of `+inf`: `2 ^ 2098`, that is `2 ^ 1024` in units of `2 ^ (-1074)`. -/
def inf : Nat := 1 <<< 2098

/-- Rounding to `double`: the nearest `double` to the exact value `n / 2 ^ s` (in units of
`2 ^ (-1074)`), ties to even, `inf` on overflow.  A value whose integer part has `e`
binary digits lies where the `double`s are `2 ^ (e - 53)` units apart (one unit apart for
`e ≤ 53`: the subnormals and the first normal binade). -/
def round (n s : Nat) : Nat :=
  let j := bitLength n - s - 53
  let t := s + j
  if t = 0 then n
  else
    let q := n >>> t
    let r := n % (1 <<< t)
    let half := 1 <<< (t - 1)
    let res := (if half < r ∨ (r = half ∧ q % 2 = 1) then q + 1 else q) <<< j
    if inf ≤ res then inf else res

/-- Newton's iteration for the integer square root, from a guess above the root. -/
def isqrtIter : Nat → Nat → Nat → Nat
  | 0, _, guess => guess
  | fuel + 1, n, guess =>
    if (guess + n / guess) / 2 < guess then isqrtIter fuel n ((guess + n / guess) / 2)
    else guess

/-- The integer square root: the largest `r` with `r * r ≤ n` (`f64_isqrt_eq`). -/
def isqrt (n : Nat) : Nat :=
  isqrtIter (1 <<< (bitLength n / 2 + 1)) n (1 <<< (bitLength n / 2 + 1))

/-- The magnitude of `a - b` in `double`: `|a - b|` rounded. -/
def absSub (a b : Int) : Nat := round (a - b).natAbs 0

/-- The product `x * x` in `double`, for `x` of magnitude `x`. -/
def square (x : Nat) : Nat := if inf ≤ x then inf else round (x * x) 1074

/-- The sum `x + y` in `double`, for non-negative `x` and `y`. -/
def add (x y : Nat) : Nat := if inf ≤ x ∨ inf ≤ y then inf else round (x + y) 0

/-- The function `std::sqrt` on a non-negative `double`: the square root correctly rounded.
The value `x * 2 ^ (-1074)` has the root `sqrt (x * 2 ^ 1074)` units, rounded from its
integer part and from whether it is exact. -/
def sqrt (x : Nat) : Nat :=
  if inf ≤ x then inf
  else
    let n := x <<< 1074
    let f := isqrt n
    let j := bitLength f - 53
    if j = 0 then f
    else
      let q := f >>> j
      let r := f % (1 <<< j)
      let half := 1 <<< (j - 1)
      (if half < r ∨ (r = half ∧ (f * f < n ∨ q % 2 = 1)) then q + 1 else q) <<< j

/-- The `double` `m * 2 ^ e`, for writing coordinates (defined for `e ≥ -1074`). -/
def dbl (m : Int) (e : Int) : Int := m * ((1 <<< (e + 1074).toNat : Nat) : Int)

/-- The integer is the encoding of a finite `double`. -/
def IsDouble (c : Int) : Prop := c.natAbs < inf ∧ round c.natAbs 0 = c.natAbs

instance IsDouble.decidable (c : Int) : Decidable (IsDouble c) :=
  inferInstanceAs (Decidable (c.natAbs < inf ∧ round c.natAbs 0 = c.natAbs))

end F64

/-! ### The searches -/

/-- The value `std::numeric_limits<double>::max()`, `(2 ^ 53 - 1) * 2 ^ 971`. -/
def doubleMax : Int := ((((1 <<< 53) - 1) <<< 2045 : Nat) : Int)

/-- The method `KDTree::distance` (kdtree.cpp:86-91): each difference, each square and each
partial sum is rounded, and so is the square root. -/
def distance (dimensions : Nat) (p1 p2 : Point Int) : Int :=
  ((F64.sqrt ((List.range dimensions).foldl
    (fun dist i => F64.add dist (F64.square (F64.absSub (p1.coord i) (p2.coord i)))) 0) :
      Nat) : Int)

/-- The method `KDTree::findNearestNeighborUtil` (kdtree.cpp:64-84).  The reference
parameter `bestDist` is returned next to `best`. -/
def findNearestNeighborUtil (dimensions : Nat) (target : Point Int) :
    KDNode Int → Option (Point Int) → Int → Nat → Option (Point Int) × Int
  | .null, best, bestDist, _ => (best, bestDist)
  | .node point left right, best, bestDist, depth =>
    let dist := distance dimensions point target
    let upd := if dist < bestDist then (some point, dist) else (best, bestDist)
    let dim := depth % dimensions
    let goLeft := findNearestNeighborUtil dimensions target left
    let goRight := findNearestNeighborUtil dimensions target right
    let nearerSubtree := if target.coord dim < point.coord dim then goLeft else goRight
    let furtherSubtree := if target.coord dim < point.coord dim then goRight else goLeft
    let res := nearerSubtree upd.1 upd.2 (depth + 1)
    if ((F64.absSub (target.coord dim) (point.coord dim) : Nat) : Int) < res.2 then
      furtherSubtree res.1 res.2 (depth + 1)
    else
      res

/-- The method `KDTree::findNearestNeighbor` (kdtree.cpp:97-102).  `nearest->point` with
`nearest` null is the fault `nullDereference`. -/
def findNearestNeighbor (dimensions : Nat) (root : KDNode Int) (target : Point Int) :
    Except Fault (Point Int) :=
  match (findNearestNeighborUtil dimensions target root none doubleMax 0).1 with
  | none => .error .nullDereference
  | some point => .ok point

/-- The lambda `insertIntoQueue` (kdtree.cpp:113-117); `pq.pop()` drops the largest entry. -/
def insertIntoQueue (w dimensions : Nat) (target : Point Int) (k : Int) (addr : Nat)
    (point : Point Int) (pq : List (Entry Int)) : List (Entry Int) :=
  let dist := distance dimensions point target
  let pq := push ⟨dist, addr, point⟩ pq
  if pq.length > toSizeT w k then pq.tail else pq

/-- The lambda `traverse` (kdtree.cpp:120-136).  `pos` is the position of `node` in the
tree, which fixes its address `addr pos`.  `pq.top()` on an empty queue is the fault
`emptyQueueTop`; it is read before `pq.size() < k`, as in the source. -/
def traverse (w dimensions : Nat) (addr : Nat → Nat) (target : Point Int) (k : Int) :
    KDNode Int → Nat → Nat → List (Entry Int) → Except Fault (List (Entry Int))
  | .null, _, _, pq => .ok pq
  | .node point left right, depth, pos, pq =>
    let dim := depth % dimensions
    let goLeft := traverse w dimensions addr target k left (depth + 1) (2 * pos)
    let goRight := traverse w dimensions addr target k right (depth + 1) (2 * pos + 1)
    let nearerSubtree := if target.coord dim < point.coord dim then goLeft else goRight
    let furtherSubtree := if target.coord dim < point.coord dim then goRight else goLeft
    match nearerSubtree (insertIntoQueue w dimensions target k (addr pos) point pq) with
    | .error f => .error f
    | .ok pq =>
      match pq with
      | [] => .error .emptyQueueTop
      | top :: _ =>
        if ((F64.absSub (target.coord dim) (point.coord dim) : Nat) : Int) < top.dist
            ∨ pq.length < toSizeT w k then
          furtherSubtree pq
        else
          .ok pq

/-- The method `KDTree::findKNearestNeighbors` (kdtree.cpp:104-152): the queue is emptied
largest first and the result reversed. -/
def findKNearestNeighbors (w dimensions : Nat) (addr : Nat → Nat) (root : KDNode Int)
    (target : Point Int) (k : Int) : Except Fault (List (Point Int)) :=
  match traverse w dimensions addr target k root 0 1 [] with
  | .error f => .error f
  | .ok pq => .ok (pq.map Entry.point).reverse

/-! ### Observations on trees used to state the properties -/

/-- The in-order traversal of a tree: the points it stores. -/
def KDNode.toList : KDNode α → List (Point α)
  | .null => []
  | .node point left right => left.toList ++ point :: right.toList

/-- The number of nodes of a tree. -/
def KDNode.size : KDNode α → Nat
  | .null => 0
  | .node _ left right => left.size + 1 + right.size

/-- The point stored at a position of the tree; the position is the path from the root,
`false` for `left` and `true` for `right`.  `none` when there is no node there. -/
def KDNode.get? : KDNode α → List Bool → Option (Point α)
  | .null, _ => none
  | .node point _ _, [] => some point
  | .node _ left _, false :: path => left.get? path
  | .node _ _ right, true :: path => right.get? path

/-- The partition property as the spec states it, for a subtree whose root is at `depth`:
on the axis `depth % dimensions` every point of the left subtree is strictly less than the
node and every point of the right subtree is greater or equal. -/
def StrictInv (dimensions : Nat) : Nat → KDNode α → Prop
  | _, .null => True
  | depth, .node point left right =>
    (∀ q ∈ left.toList, q.coord (depth % dimensions) < point.coord (depth % dimensions)) ∧
    (∀ q ∈ right.toList, point.coord (depth % dimensions) ≤ q.coord (depth % dimensions)) ∧
    StrictInv dimensions (depth + 1) left ∧ StrictInv dimensions (depth + 1) right

/-- The weak partition property: as `StrictInv`, but points of the left subtree may equal
the node on its axis. -/
def WeakInv (dimensions : Nat) : Nat → KDNode α → Prop
  | _, .null => True
  | depth, .node point left right =>
    (∀ q ∈ left.toList, q.coord (depth % dimensions) ≤ point.coord (depth % dimensions)) ∧
    (∀ q ∈ right.toList, point.coord (depth % dimensions) ≤ q.coord (depth % dimensions)) ∧
    WeakInv dimensions (depth + 1) left ∧ WeakInv dimensions (depth + 1) right

instance StrictInv.decidable (dimensions : Nat) :
    (depth : Nat) → (t : KDNode α) → Decidable (StrictInv dimensions depth t)
  | _, .null => isTrue trivial
  | depth, .node point left right =>
    have := StrictInv.decidable dimensions (depth + 1) left
    have := StrictInv.decidable dimensions (depth + 1) right
    inferInstanceAs (Decidable (
      (∀ q ∈ left.toList, q.coord (depth % dimensions) < point.coord (depth % dimensions)) ∧
      (∀ q ∈ right.toList, point.coord (depth % dimensions) ≤ q.coord (depth % dimensions)) ∧
      StrictInv dimensions (depth + 1) left ∧ StrictInv dimensions (depth + 1) right))

instance WeakInv.decidable (dimensions : Nat) :
    (depth : Nat) → (t : KDNode α) → Decidable (WeakInv dimensions depth t)
  | _, .null => isTrue trivial
  | depth, .node point left right =>
    have := WeakInv.decidable dimensions (depth + 1) left
    have := WeakInv.decidable dimensions (depth + 1) right
    inferInstanceAs (Decidable (
      (∀ q ∈ left.toList, q.coord (depth % dimensions) ≤ point.coord (depth % dimensions)) ∧
      (∀ q ∈ right.toList, point.coord (depth % dimensions) ≤ q.coord (depth % dimensions)) ∧
      WeakInv dimensions (depth + 1) left ∧ WeakInv dimensions (depth + 1) right))

/-- The position at which `insertUtil` attaches the new leaf: the descent of
kdtree.cpp:39-43 recorded as a path. -/
def insertPath (dimensions : Nat) : KDNode α → Point α → Nat → List Bool
  | .null, _, _ => []
  | .node p left right, point, depth =>
    if point.coord (depth % dimensions) < p.coord (depth % dimensions) then
      false :: insertPath dimensions left point (depth + 1)
    else
      true :: insertPath dimensions right point (depth + 1)

/-- The six points of the example of the spec (section 8), `dimensions = 2`. -/
def examplePoints : List (Point ℤ) :=
  [⟨[2, 3]⟩, ⟨[5, 4]⟩, ⟨[9, 6]⟩, ⟨[4, 7]⟩, ⟨[8, 1]⟩, ⟨[7, 2]⟩]

/-- The target `(9, 2)` of the example of the spec. -/
def exampleTarget : Point ℤ := ⟨[9, 2]⟩

/-- The bounded queue after offering the entries `new` to the queue `pq`: `pq2` is the new
queue and `D` the entries left out (evicted or never visited).  The queue stays ordered,
it holds `min kU (everything offered)` entries, and nothing is lost or duplicated. -/
def Kept (kU : Nat) (pq new pq2 D : List (Entry α)) : Prop :=
  List.Sorted Entry.ge pq2 ∧ pq2.length = min kU (pq.length + new.length) ∧
    List.Perm (pq2 ++ D) (pq ++ new)

/-- The entries left out are no closer than the entries kept, and a full queue never
takes an entry farther than all it held. -/
def Bounded (kU : Nat) (pq pq2 D : List (Entry α)) : Prop :=
  (∀ x ∈ D, ∀ y ∈ pq2, y.dist ≤ x.dist) ∧
  (∀ b, pq.length = kU → (∀ y ∈ pq, y.dist ≤ b) → ∀ y ∈ pq2, y.dist ≤ b)

/-- The height of a tree: the number of nodes on the longest path from the root down. -/
def KDNode.height : KDNode α → Nat
  | .null => 0
  | .node _ left right => max left.height right.height + 1

/-- Every node of the tree has an absent left child: the tree is a right spine. -/
def KDNode.leftAbsent : KDNode α → Prop
  | .null => True
  | .node _ left right => left = .null ∧ right.leftAbsent

instance KDNode.leftAbsent.decidable : (t : KDNode α) → Decidable t.leftAbsent
  | .null => isTrue trivial
  | .node _ left right =>
    have := KDNode.leftAbsent.decidable right
    inferInstanceAs (Decidable (left = .null ∧ right.leftAbsent))

/-- The right spine of `n` nodes that all hold the point `p`. -/
def rightChain (p : Point α) : Nat → KDNode α
  | 0 => .null
  | n + 1 => .node p .null (rightChain p n)

/-- The bound behind the pruning tests, on the coordinates themselves: at every node, on the
axis of the node, every point stored on the other side of the node from the target is at
least as far from the target as the node is. -/
def AxisBound (dimensions : Nat) (target : Point α) : Nat → KDNode α → Prop
  | _, .null => True
  | depth, .node point left right =>
    (∀ q ∈ (if target.coord (depth % dimensions) < point.coord (depth % dimensions)
        then right else left).toList,
      abs (target.coord (depth % dimensions) - point.coord (depth % dimensions)) ≤
        abs (target.coord (depth % dimensions) - q.coord (depth % dimensions))) ∧
    AxisBound dimensions target (depth + 1) left ∧
    AxisBound dimensions target (depth + 1) right

/-! ### Observations on the searches -/

namespace F64

/-- The mantissa `q` and the exponent `j` of a `double` magnitude `q * 2 ^ j` in units of
`2 ^ (-1074)`: a subnormal or a member of the first normal binade (`j = 0`), or a normal
number with a mantissa of 53 binary digits. -/
def Slot (q j : Nat) : Prop := (j = 0 ∧ q < 2 ^ 53) ∨ (2 ^ 52 ≤ q ∧ q < 2 ^ 53)

/-- The natural number is the encoding of a `double` magnitude (of any exponent). -/
def IsRep (g : Nat) : Prop := ∃ q j, Slot q j ∧ g = q * 2 ^ j

/-- The `double` magnitude `r` is the real `Y ≥ 0` rounded to nearest, ties to even, with
no bound on the exponent. -/
def IsRound (Y : ℝ) (r : Nat) : Prop :=
  ∃ q j, Slot q j ∧ (q : ℝ) * 2 ^ j ≤ Y ∧ Y < ((q : ℝ) + 1) * 2 ^ j ∧
    ((((q : ℝ) + 1 / 2) * 2 ^ j < Y ∨ (((q : ℝ) + 1 / 2) * 2 ^ j = Y ∧ q % 2 = 1)) ∧
        r = (q + 1) * 2 ^ j ∨
      ¬ (((q : ℝ) + 1 / 2) * 2 ^ j < Y ∨ (((q : ℝ) + 1 / 2) * 2 ^ j = Y ∧ q % 2 = 1)) ∧
        r = q * 2 ^ j)
/-- A value of the computation: the encoding of a `double` magnitude up to `+inf`. -/
def Val (x : Nat) : Prop := IsRep x ∧ x ≤ inf

/-- A value that the pruning tests may compare with an axis gap: whenever it is at most a
`double` `g`, it is at most the computed root of the computed square of `g`.  Every computed
distance is such a value (`f64_sqrt_prune`), and so is `DBL_MAX`. -/
def PruneOK (v : Int) : Prop :=
  ∀ g : Nat, Val g → v ≤ (g : Int) → v ≤ ((sqrt (square g) : Nat) : Int)

/-- The point with the given integer coordinates, as `double`s. -/
def ofInt (p : Point Int) : Point Int := ⟨p.coords.map (fun c => dbl c 0)⟩

/-- All the coordinates of the points are finite `double`s. -/
def AllDouble (points : List (Point Int)) : Prop :=
  ∀ p ∈ points, ∀ c ∈ p.coords, IsDouble c

instance AllDouble.decidable (points : List (Point Int)) : Decidable (AllDouble points) :=
  inferInstanceAs (Decidable (∀ p ∈ points, ∀ c ∈ p.coords, IsDouble c))

end F64

/-- The queue entries `traverse` offers for the nodes of a subtree rooted at position `pos`. -/
def entries (dimensions : Nat) (addr : Nat → Nat) (target : Point Int) :
    KDNode Int → Nat → List (Entry Int)
  | .null, _ => []
  | .node point left right, pos =>
    ⟨distance dimensions point target, addr pos, point⟩ ::
      (entries dimensions addr target left (2 * pos) ++
        entries dimensions addr target right (2 * pos + 1))

/-- The brute-force scan of the spec with the distance of the source: the computed
distances of all the points to the target, in ascending order, cut after the first `k`. -/
def bruteForceKDistances (dimensions : Nat) (points : List (Point Int)) (target : Point Int)
    (k : Nat) : List Int :=
  ((points.map (fun p => distance dimensions p target)).insertionSort (· ≤ ·)).take k

/-! ## Lemmas -/

set_option linter.unusedSectionVars false

/-! ### Bulk construction -/

theorem stdSort_isSort : IsSort (stdSort : Nat → List (Point α) → List (Point α)) := by
  intro dim l
  haveI : IsTotal (Point α) (fun a b => a.coord dim ≤ b.coord dim) := ⟨fun a b => le_total _ _⟩
  haveI : IsTrans (Point α) (fun a b => a.coord dim ≤ b.coord dim) :=
    ⟨fun a b c h1 h2 => le_trans h1 h2⟩
  exact ⟨List.perm_insertionSort _ l, List.sorted_insertionSort _ l⟩

theorem median_split {β : Type} (s : List β) (hs : s ≠ []) :
    ∃ median, s.get? (s.length / 2) = some median ∧
      s = s.take (s.length / 2) ++ median :: s.drop (s.length / 2 + 1) := by
  have hlen : 0 < s.length := List.length_pos.2 hs
  have hm : s.length / 2 < s.length := Nat.div_lt_self hlen (by decide)
  refine ⟨s.get ⟨s.length / 2, hm⟩, List.get?_eq_get hm, ?_⟩
  conv_lhs => rw [← List.take_append_drop (s.length / 2) s]
  congr 1
  exact List.drop_eq_getElem_cons hm

theorem buildTreeFuel_succ (sort : Nat → List (Point α) → List (Point α)) (hsort : IsSort sort)
    (d fuel : Nat) (pts : List (Point α)) (depth : Nat) (hne : pts ≠ []) :
    ∃ median, (sort (depth % d) pts).get? ((sort (depth % d) pts).length / 2) = some median ∧
      sort (depth % d) pts = (sort (depth % d) pts).take ((sort (depth % d) pts).length / 2) ++
        median :: (sort (depth % d) pts).drop ((sort (depth % d) pts).length / 2 + 1) ∧
      buildTreeFuel sort d (fuel + 1) pts depth =
        .node median
          (buildTreeFuel sort d fuel
            ((sort (depth % d) pts).take ((sort (depth % d) pts).length / 2)) (depth + 1))
          (buildTreeFuel sort d fuel
            ((sort (depth % d) pts).drop ((sort (depth % d) pts).length / 2 + 1)) (depth + 1)) := by
  have hs : sort (depth % d) pts ≠ [] := by
    intro h
    have := (hsort (depth % d) pts).1.length_eq
    rw [h] at this
    exact hne (List.length_eq_zero.1 this.symm)
  obtain ⟨median, hget, hsplit⟩ := median_split _ hs
  refine ⟨median, hget, hsplit, ?_⟩
  have hemp : pts.isEmpty = false := by
    cases pts with
    | nil => exact absurd rfl hne
    | cons _ _ => rfl
  simp only [buildTreeFuel, hemp, hget]
  simp

theorem buildTreeFuel_toList (sort : Nat → List (Point α) → List (Point α)) (hsort : IsSort sort)
    (d : Nat) : ∀ (fuel : Nat) (pts : List (Point α)) (depth : Nat), pts.length ≤ fuel →
      List.Perm (buildTreeFuel sort d fuel pts depth).toList pts := by
  intro fuel
  induction fuel with
  | zero =>
    intro pts depth h
    have : pts = [] := List.length_eq_zero.1 (Nat.le_zero.1 h)
    subst this
    simp [buildTreeFuel, KDNode.toList]
  | succ fuel ih =>
    intro pts depth h
    by_cases hne : pts = []
    · subst hne
      simp [buildTreeFuel, KDNode.toList]
    · obtain ⟨median, _, hsplit, heq⟩ := buildTreeFuel_succ sort hsort d fuel pts depth hne
      have hlen : (sort (depth % d) pts).length = pts.length := (hsort (depth % d) pts).1.length_eq
      rw [heq]
      simp only [KDNode.toList]
      refine List.Perm.trans ?_ (hsort (depth % d) pts).1
      conv_rhs => rw [hsplit]
      apply List.Perm.append
      · apply ih
        rw [List.length_take]
        omega
      · apply List.Perm.cons
        apply ih
        rw [List.length_drop]
        omega

theorem buildTreeFuel_eq (sort : Nat → List (Point α) → List (Point α)) (hsort : IsSort sort)
    (d : Nat) : ∀ (fuel : Nat) (pts : List (Point α)) (depth : Nat), pts.length ≤ fuel →
      buildTreeFuel sort d fuel pts depth = buildTree sort d pts depth := by
  intro fuel
  induction fuel using Nat.strong_induction_on with
  | _ fuel ih =>
    intro pts depth h
    unfold buildTree
    by_cases hne : pts = []
    · subst hne
      cases fuel <;> simp [buildTreeFuel]
    · have hpos : 0 < pts.length := List.length_pos.2 hne
      obtain ⟨f, rfl⟩ : ∃ f, fuel = f + 1 := ⟨fuel - 1, by omega⟩
      obtain ⟨n, hn⟩ : ∃ n, pts.length = n + 1 := ⟨pts.length - 1, by omega⟩
      have hlen : (sort (depth % d) pts).length = pts.length := (hsort (depth % d) pts).1.length_eq
      obtain ⟨m1, _, _, h1⟩ := buildTreeFuel_succ sort hsort d f pts depth hne
      obtain ⟨m2, hg2, _, h2⟩ := buildTreeFuel_succ sort hsort d n pts depth hne
      rw [hn, h1, h2]
      have hm : m1 = m2 := by
        have := ‹(sort (depth % d) pts).get? _ = some m1›
        rw [hg2] at this
        exact (Option.some.inj this).symm
      subst hm
      have hl : ((sort (depth % d) pts).take ((sort (depth % d) pts).length / 2)).length ≤ n := by
        rw [List.length_take]
        omega
      have hr : ((sort (depth % d) pts).drop ((sort (depth % d) pts).length / 2 + 1)).length ≤ n := by
        rw [List.length_drop]
        omega
      rw [ih f (by omega) _ _ (by omega), ih f (by omega) _ _ (by omega),
        ih n (by omega) _ _ hl, ih n (by omega) _ _ hr]

/-- The recursion of kdtree.cpp:48-62, free of fuel: the empty batch. -/
theorem buildTree_nil (sort : Nat → List (Point α) → List (Point α)) (d depth : Nat) :
    buildTree sort d [] depth = .null := by
  simp [buildTree, buildTreeFuel]

/-- The recursion of kdtree.cpp:48-62, free of fuel: the median of the sorted batch becomes
the node, the elements before it build the left child and those after it the right child. -/
theorem buildTree_cons (sort : Nat → List (Point α) → List (Point α)) (hsort : IsSort sort)
    (d : Nat) (pts : List (Point α)) (depth : Nat) (hne : pts ≠ []) :
    ∃ median, (sort (depth % d) pts).get? ((sort (depth % d) pts).length / 2) = some median ∧
      buildTree sort d pts depth =
        .node median
          (buildTree sort d
            ((sort (depth % d) pts).take ((sort (depth % d) pts).length / 2)) (depth + 1))
          (buildTree sort d
            ((sort (depth % d) pts).drop ((sort (depth % d) pts).length / 2 + 1)) (depth + 1)) := by
  obtain ⟨n, hn⟩ : ∃ n, pts.length = n + 1 :=
    ⟨pts.length - 1, by have := List.length_pos.2 hne; omega⟩
  have hlen : (sort (depth % d) pts).length = pts.length := (hsort (depth % d) pts).1.length_eq
  obtain ⟨median, hget, _, heq⟩ := buildTreeFuel_succ sort hsort d n pts depth hne
  refine ⟨median, hget, ?_⟩
  have hl : ((sort (depth % d) pts).take ((sort (depth % d) pts).length / 2)).length ≤ n := by
    rw [List.length_take]
    omega
  have hr : ((sort (depth % d) pts).drop ((sort (depth % d) pts).length / 2 + 1)).length ≤ n := by
    rw [List.length_drop]
    omega
  rw [← buildTreeFuel_eq sort hsort d n _ _ hl, ← buildTreeFuel_eq sort hsort d n _ _ hr, ← heq]
  unfold buildTree
  rw [hn]

theorem buildTree_toList (sort : Nat → List (Point α) → List (Point α)) (hsort : IsSort sort)
    (d : Nat) (pts : List (Point α)) (depth : Nat) :
    List.Perm (buildTree sort d pts depth).toList pts :=
  buildTreeFuel_toList sort hsort d pts.length pts depth (le_refl _)

theorem buildTreeFuel_weakInv (sort : Nat → List (Point α) → List (Point α))
    (hsort : IsSort sort) (d : Nat) :
    ∀ (fuel : Nat) (pts : List (Point α)) (depth : Nat), pts.length ≤ fuel →
      WeakInv d depth (buildTreeFuel sort d fuel pts depth) := by
  intro fuel
  induction fuel with
  | zero =>
    intro pts depth _
    simp [buildTreeFuel, WeakInv]
  | succ fuel ih =>
    intro pts depth h
    by_cases hne : pts = []
    · subst hne
      simp [buildTreeFuel, WeakInv]
    · obtain ⟨median, hget, hsplit, heq⟩ := buildTreeFuel_succ sort hsort d fuel pts depth hne
      have hlen : (sort (depth % d) pts).length = pts.length := (hsort (depth % d) pts).1.length_eq
      have hsorted := (hsort (depth % d) pts).2
      have hm : (sort (depth % d) pts).length / 2 < (sort (depth % d) pts).length := by
        have := List.length_pos.2 hne
        omega
      have hl : ((sort (depth % d) pts).take ((sort (depth % d) pts).length / 2)).length ≤ fuel := by
        rw [List.length_take]
        omega
      have hr : ((sort (depth % d) pts).drop
          ((sort (depth % d) pts).length / 2 + 1)).length ≤ fuel := by
        rw [List.length_drop]
        omega
      have hmed : median = (sort (depth % d) pts).get ⟨_, hm⟩ := by
        rw [List.get?_eq_get hm] at hget
        exact (Option.some.inj hget).symm
      rw [heq]
      refine ⟨?_, ?_, ih _ _ hl, ih _ _ hr⟩
      · intro q hq
        have hq1 := (buildTreeFuel_toList sort hsort d fuel _ (depth + 1) hl).subset hq
        have hmd : median ∈ (sort (depth % d) pts).drop ((sort (depth % d) pts).length / 2) := by
          rw [List.drop_eq_getElem_cons hm]
          rw [hmed]
          exact List.mem_cons_self _ _
        exact hsorted.rel_of_mem_take_of_mem_drop hq1 hmd
      · intro q hq
        have hq1 := (buildTreeFuel_toList sort hsort d fuel _ (depth + 1) hr).subset hq
        have hmt : median ∈ (sort (depth % d) pts).take ((sort (depth % d) pts).length / 2 + 1) := by
          rw [hmed]
          exact List.mem_take_iff_getElem.2 ⟨_, by simp; omega, rfl⟩
        exact hsorted.rel_of_mem_take_of_mem_drop hmt hq1

theorem buildTree_weakInv (sort : Nat → List (Point α) → List (Point α)) (hsort : IsSort sort)
    (d : Nat) (pts : List (Point α)) (depth : Nat) :
    WeakInv d depth (buildTree sort d pts depth) :=
  buildTreeFuel_weakInv sort hsort d pts.length pts depth (le_refl _)

/-! ### Insertion -/

theorem insertUtil_toList (d : Nat) (p : Point α) :
    ∀ (t : KDNode α) (depth : Nat),
      List.Perm (insertUtil d t p depth).toList (p :: t.toList) := by
  intro t
  induction t with
  | null => intro depth; simp [insertUtil, KDNode.toList]
  | node q l r ihl ihr =>
    intro depth
    simp only [insertUtil]
    split
    · simp only [KDNode.toList]
      exact ((ihl (depth + 1)).append_right _).trans (by simp)
    · simp only [KDNode.toList]
      refine (List.Perm.append_left _ ((ihr (depth + 1)).cons q)).trans ?_
      refine (List.Perm.append_left _ (List.Perm.swap p q _)).trans ?_
      exact List.perm_middle

theorem insertUtil_size (d : Nat) (p : Point α) :
    ∀ (t : KDNode α) (depth : Nat), (insertUtil d t p depth).size = t.size + 1 := by
  intro t
  induction t with
  | null => intro depth; simp [insertUtil, KDNode.size]
  | node q l r ihl ihr =>
    intro depth
    simp only [insertUtil]
    split
    · simp only [KDNode.size, ihl]
      omega
    · simp only [KDNode.size, ihr]
      omega

theorem size_eq_length_toList : ∀ t : KDNode α, t.size = t.toList.length := by
  intro t
  induction t with
  | null => rfl
  | node q l r ihl ihr => simp [KDNode.size, KDNode.toList, ihl, ihr]; omega

theorem insertUtil_weakInv (d : Nat) (p : Point α) :
    ∀ (t : KDNode α) (depth : Nat), WeakInv d depth t → WeakInv d depth (insertUtil d t p depth) := by
  intro t
  induction t with
  | null => intro depth _; simp [insertUtil, WeakInv, KDNode.toList]
  | node q l r ihl ihr =>
    intro depth h
    obtain ⟨h1, h2, h3, h4⟩ := h
    simp only [insertUtil]
    split
    · rename_i hlt
      refine ⟨?_, h2, ihl _ h3, h4⟩
      intro x hx
      rcases List.mem_cons.1 ((insertUtil_toList d p l (depth + 1)).subset hx) with rfl | hx
      · exact le_of_lt hlt
      · exact h1 x hx
    · rename_i hge
      refine ⟨h1, ?_, h3, ihr _ h4⟩
      intro x hx
      rcases List.mem_cons.1 ((insertUtil_toList d p r (depth + 1)).subset hx) with rfl | hx
      · exact not_lt.1 hge
      · exact h2 x hx

theorem insertUtil_strictInv (d : Nat) (p : Point α) :
    ∀ (t : KDNode α) (depth : Nat),
      StrictInv d depth t → StrictInv d depth (insertUtil d t p depth) := by
  intro t
  induction t with
  | null => intro depth _; simp [insertUtil, StrictInv, KDNode.toList]
  | node q l r ihl ihr =>
    intro depth h
    obtain ⟨h1, h2, h3, h4⟩ := h
    simp only [insertUtil]
    split
    · rename_i hlt
      refine ⟨?_, h2, ihl _ h3, h4⟩
      intro x hx
      rcases List.mem_cons.1 ((insertUtil_toList d p l (depth + 1)).subset hx) with rfl | hx
      · exact hlt
      · exact h1 x hx
    · rename_i hge
      refine ⟨h1, ?_, h3, ihr _ h4⟩
      intro x hx
      rcases List.mem_cons.1 ((insertUtil_toList d p r (depth + 1)).subset hx) with rfl | hx
      · exact not_lt.1 hge
      · exact h2 x hx

theorem insertPath_get? (d : Nat) (p : Point α) :
    ∀ (t : KDNode α) (depth : Nat), t.get? (insertPath d t p depth) = none := by
  intro t
  induction t with
  | null => intro depth; rfl
  | node q l r ihl ihr =>
    intro depth
    simp only [insertPath]
    split
    · simpa [KDNode.get?] using ihl (depth + 1)
    · simpa [KDNode.get?] using ihr (depth + 1)

theorem insertUtil_get? (d : Nat) (p : Point α) :
    ∀ (t : KDNode α) (depth : Nat) (path : List Bool),
      (insertUtil d t p depth).get? path =
        if path = insertPath d t p depth then some p else t.get? path := by
  intro t
  induction t with
  | null =>
    intro depth path
    cases path with
    | nil => simp [insertUtil, insertPath, KDNode.get?]
    | cons b path => cases b <;> simp [insertUtil, insertPath, KDNode.get?]
  | node q l r ihl ihr =>
    intro depth path
    simp only [insertUtil, insertPath]
    split
    · cases path with
      | nil => simp [KDNode.get?]
      | cons b path => cases b <;> simp [KDNode.get?, ihl]
    · cases path with
      | nil => simp [KDNode.get?]
      | cons b path => cases b <;> simp [KDNode.get?, ihr]

/-- The descent of `insertUtil` reads the point only on the axes below `dimensions`. -/
theorem insertPath_congr (d : Nat) (hd : 0 < d) (p p2 : Point α)
    (h : ∀ i, i < d → p.coord i = p2.coord i) :
    ∀ (t : KDNode α) (depth : Nat), insertPath d t p depth = insertPath d t p2 depth := by
  intro t
  induction t with
  | null => intro depth; rfl
  | node q l r ihl ihr =>
    intro depth
    simp only [insertPath, h _ (Nat.mod_lt depth hd), ihl, ihr]

theorem foldl_insert_weakInv (d : Nat) (ps : List (Point α)) :
    ∀ t : KDNode α, WeakInv d 0 t → WeakInv d 0 (ps.foldl (insert d) t) := by
  induction ps with
  | nil => intro t h; exact h
  | cons p ps ih => intro t h; exact ih _ (insertUtil_weakInv d p t 0 h)

theorem foldl_insert_strictInv (d : Nat) (ps : List (Point α)) :
    ∀ t : KDNode α, StrictInv d 0 t → StrictInv d 0 (ps.foldl (insert d) t) := by
  induction ps with
  | nil => intro t h; exact h
  | cons p ps ih => intro t h; exact ih _ (insertUtil_strictInv d p t 0 h)

theorem foldl_insert_toList (d : Nat) (ps : List (Point α)) :
    ∀ t : KDNode α, List.Perm (ps.foldl (insert d) t).toList (t.toList ++ ps) := by
  induction ps with
  | nil => intro t; simp
  | cons p ps ih =>
    intro t
    refine (ih _).trans ?_
    refine ((insertUtil_toList d p t 0).append_right ps).trans ?_
    simpa using (@List.perm_middle _ p t.toList ps).symm

theorem buildThenInsert_weakInv (sort : Nat → List (Point α) → List (Point α))
    (hsort : IsSort sort) (d : Nat) (pts ps : List (Point α)) :
    WeakInv d 0 (buildThenInsert sort d pts ps) :=
  foldl_insert_weakInv d ps _ (buildTree_weakInv sort hsort d pts 0)

theorem buildThenInsert_toList (sort : Nat → List (Point α) → List (Point α))
    (hsort : IsSort sort) (d : Nat) (pts ps : List (Point α)) :
    List.Perm (buildThenInsert sort d pts ps).toList (pts ++ ps) :=
  (foldl_insert_toList d ps _).trans ((buildTree_toList sort hsort d pts 0).append_right ps)

/-! ### The bounded priority queue -/

theorem Entry.ge_iff (a b : Entry α) :
    Entry.ge a b ↔ b.dist < a.dist ∨ (b.dist = a.dist ∧ b.addr ≤ a.addr) := by
  unfold Entry.ge Entry.lt
  constructor
  · intro h
    rcases lt_trichotomy a.dist b.dist with h1 | h1 | h1
    · exact absurd (Or.inl h1) h
    · right
      refine ⟨h1.symm, ?_⟩
      by_contra h2
      exact h (Or.inr ⟨h1, not_le.1 h2⟩)
    · exact Or.inl h1
  · rintro (h | ⟨h1, h2⟩) (h3 | ⟨h3, h4⟩)
    · exact lt_asymm h h3
    · rw [h3] at h
      exact lt_irrefl _ h
    · rw [h1] at h3
      exact lt_irrefl _ h3
    · omega

theorem Entry.dist_le_of_ge {a b : Entry α} (h : Entry.ge a b) : b.dist ≤ a.dist := by
  rcases (Entry.ge_iff a b).1 h with h | ⟨h, _⟩
  · exact le_of_lt h
  · exact le_of_eq h

instance Entry.ge_isTotal : IsTotal (Entry α) Entry.ge := by
  constructor
  intro a b
  rw [Entry.ge_iff, Entry.ge_iff]
  rcases lt_trichotomy a.dist b.dist with h | h | h
  · exact Or.inr (Or.inl h)
  · rcases Nat.le_total a.addr b.addr with h2 | h2
    · exact Or.inr (Or.inr ⟨h, h2⟩)
    · exact Or.inl (Or.inr ⟨h.symm, h2⟩)
  · exact Or.inl (Or.inl h)

instance Entry.ge_isTrans : IsTrans (Entry α) Entry.ge := by
  constructor
  intro a b c
  rw [Entry.ge_iff, Entry.ge_iff, Entry.ge_iff]
  rintro (h1 | ⟨h1, h2⟩) (h3 | ⟨h3, h4⟩)
  · exact Or.inl (lt_trans h3 h1)
  · exact Or.inl (h3 ▸ h1)
  · exact Or.inl (h1 ▸ h3)
  · exact Or.inr ⟨h3.trans h1, le_trans h4 h2⟩

theorem sorted_head_max {top : Entry α} {rest : List (Entry α)}
    (h : List.Sorted Entry.ge (top :: rest)) : ∀ y ∈ top :: rest, y.dist ≤ top.dist := by
  intro y hy
  rcases List.mem_cons.1 hy with rfl | hy
  · exact le_refl _
  · exact Entry.dist_le_of_ge (List.rel_of_sorted_cons h y hy)

theorem toSizeT_of_nonneg (w : Nat) (k : Int) (h0 : 0 ≤ k) (hw : k < 2 ^ w) :
    toSizeT w k = k.toNat := by
  unfold toSizeT
  rw [Int.emod_eq_of_lt h0 hw]

theorem toSizeT_of_neg (w : Nat) (k : Int) (h0 : k < 0) (hw : -(2 ^ w) < k) :
    toSizeT w k = (2 ^ w + k).toNat := by
  unfold toSizeT
  congr 1
  rw [← Int.add_mul_emod_self_left k (2 ^ w) 1, mul_one, add_comm]
  exact Int.emod_eq_of_lt (by omega) (by omega)

theorem kept_length_le {kU : Nat} {pq new pq2 D : List (Entry α)} (h : Kept kU pq new pq2 D) :
    pq2.length ≤ kU := by
  rw [h.2.1]
  exact min_le_left _ _

theorem kept_refl (kU : Nat) (pq : List (Entry α)) (hs : List.Sorted Entry.ge pq)
    (hl : pq.length ≤ kU) : Kept kU pq [] pq [] := by
  refine ⟨hs, ?_, by simp⟩
  simp only [List.length_nil]
  omega

theorem kept_trans {kU : Nat} {pq n1 pq1 D1 n2 pq2 D2 : List (Entry α)}
    (h1 : Kept kU pq n1 pq1 D1) (h2 : Kept kU pq1 n2 pq2 D2) :
    Kept kU pq (n1 ++ n2) pq2 (D2 ++ D1) := by
  obtain ⟨_, l1, p1⟩ := h1
  obtain ⟨s2, l2, p2⟩ := h2
  refine ⟨s2, ?_, ?_⟩
  · rw [l2, l1, List.length_append]
    omega
  · calc List.Perm (pq2 ++ (D2 ++ D1)) ((pq2 ++ D2) ++ D1) := by rw [List.append_assoc]
      _ |>.Perm ((pq1 ++ n2) ++ D1) := p2.append_right D1
      _ |>.Perm ((pq1 ++ D1) ++ n2) := by
          rw [List.append_assoc, List.append_assoc]
          exact List.Perm.append_left _ List.perm_append_comm
      _ |>.Perm ((pq ++ n1) ++ n2) := p1.append_right n2
      _ |>.Perm (pq ++ (n1 ++ n2)) := by rw [List.append_assoc]

theorem bounded_trans {kU : Nat} {pq n1 pq1 D1 pq2 D2 : List (Entry α)}
    (h1 : Kept kU pq n1 pq1 D1) (b1 : Bounded kU pq pq1 D1) (b2 : Bounded kU pq1 pq2 D2) :
    Bounded kU pq pq2 (D2 ++ D1) := by
  obtain ⟨_, l1, p1⟩ := h1
  have hlen := p1.length_eq
  simp only [List.length_append] at hlen
  refine ⟨?_, ?_⟩
  · intro x hx y hy
    rcases List.mem_append.1 hx with hx | hx
    · exact b2.1 x hx y hy
    · have hD : 0 < D1.length := List.length_pos_of_mem hx
      exact b2.2 x.dist (by omega) (b1.1 x hx) y hy
  · intro b hb hall y hy
    exact b2.2 b (by omega) (b1.2 b hb hall) y hy

theorem kept_skip (kU : Nat) (pq new : List (Entry α)) (hs : List.Sorted Entry.ge pq)
    (hl : pq.length = kU) : Kept kU pq new pq new := by
  refine ⟨hs, ?_, List.Perm.refl _⟩
  omega

theorem bounded_skip (kU : Nat) (pq new : List (Entry α))
    (h : ∀ x ∈ new, ∀ y ∈ pq, y.dist ≤ x.dist) : Bounded kU pq pq new :=
  ⟨h, fun _ _ hall => hall⟩

theorem kept_congr {kU : Nat} {pq new new2 pq2 D : List (Entry α)}
    (h : Kept kU pq new pq2 D) (hp : List.Perm new new2) : Kept kU pq new2 pq2 D := by
  obtain ⟨s, l, p⟩ := h
  exact ⟨s, by rw [l, hp.length_eq], p.trans (List.Perm.append_left _ hp)⟩

/-! ### k-nearest-neighbour search -/

theorem get?_append_none : ∀ (t : KDNode α) (path rest : List Bool),
    t.get? path = none → t.get? (path ++ rest) = none := by
  intro t
  induction t with
  | null => intro path rest _; rfl
  | node q l r ihl ihr =>
    intro path rest h
    cases path with
    | nil => simp [KDNode.get?] at h
    | cons b path =>
      cases b
      · exact ihl path rest h
      · exact ihr path rest h

theorem coord_take (d : Nat) (p : Point α) {i : Nat} (hi : i < d) :
    p.coord i = (⟨p.coords.take d⟩ : Point α).coord i := by
  unfold Point.coord
  rw [List.getD_eq_getElem?_getD, List.getD_eq_getElem?_getD, List.getElem?_take_of_lt hi]

/-! ### Height of a built tree -/

theorem buildTreeFuel_height (sort : Nat → List (Point α) → List (Point α))
    (hsort : IsSort sort) (d : Nat) :
    ∀ (fuel : Nat) (pts : List (Point α)) (depth : Nat), pts.length ≤ fuel →
      (pts.length = 0 → (buildTreeFuel sort d fuel pts depth).height = 0) ∧
      (pts.length ≠ 0 → 2 ^ (buildTreeFuel sort d fuel pts depth).height ≤ 2 * pts.length ∧
        pts.length < 2 ^ (buildTreeFuel sort d fuel pts depth).height) := by
  intro fuel
  induction fuel with
  | zero =>
    intro pts depth h
    have : pts = [] := List.length_eq_zero.1 (Nat.le_zero.1 h)
    subst this
    simp [buildTreeFuel, KDNode.height]
  | succ fuel ih =>
    intro pts depth h
    by_cases hne : pts = []
    · subst hne
      simp [buildTreeFuel, KDNode.height]
    · have hpos : 0 < pts.length := List.length_pos.2 hne
      refine ⟨fun e => by omega, fun _ => ?_⟩
      obtain ⟨median, _, _, heq⟩ := buildTreeFuel_succ sort hsort d fuel pts depth hne
      have hlen : (sort (depth % d) pts).length = pts.length := (hsort (depth % d) pts).1.length_eq
      have hl : ((sort (depth % d) pts).take ((sort (depth % d) pts).length / 2)).length
          = pts.length / 2 := by
        rw [List.length_take, hlen]
        omega
      have hr : ((sort (depth % d) pts).drop ((sort (depth % d) pts).length / 2 + 1)).length
          = pts.length - (pts.length / 2 + 1) := by
        rw [List.length_drop, hlen]
      obtain ⟨l0, l1⟩ := ih ((sort (depth % d) pts).take ((sort (depth % d) pts).length / 2))
        (depth + 1) (by omega)
      obtain ⟨r0, r1⟩ := ih ((sort (depth % d) pts).drop ((sort (depth % d) pts).length / 2 + 1))
        (depth + 1) (by omega)
      rw [hl] at l0 l1
      rw [hr] at r0 r1
      rw [heq]
      simp only [KDNode.height]
      generalize (buildTreeFuel sort d fuel
        ((sort (depth % d) pts).take ((sort (depth % d) pts).length / 2)) (depth + 1)).height
        = hL at l0 l1
      generalize (buildTreeFuel sort d fuel
        ((sort (depth % d) pts).drop ((sort (depth % d) pts).length / 2 + 1)) (depth + 1)).height
        = hR at r0 r1
      have hRL : hR ≤ hL := by
        by_cases hz : pts.length - (pts.length / 2 + 1) = 0
        · rw [r0 hz]
          exact Nat.zero_le _
        · obtain ⟨a, _⟩ := r1 hz
          by_cases hz2 : pts.length / 2 = 0
          · omega
          · obtain ⟨_, b⟩ := l1 hz2
            have hlt : 2 ^ hR < 2 ^ (hL + 1) := by
              rw [pow_succ]
              omega
            exact Nat.lt_succ_iff.1 ((Nat.pow_lt_pow_iff_right (by decide)).1 hlt)
      rw [max_eq_left hRL, pow_succ]
      by_cases hz2 : pts.length / 2 = 0
      · rw [l0 hz2]
        omega
      · obtain ⟨a, b⟩ := l1 hz2
        omega

/-- The height of a built tree depends on the size of the batch only: for `n ≥ 1` points
it is the `h` with `2 ^ (h - 1) ≤ n < 2 ^ h`. -/
theorem buildTree_height (sort : Nat → List (Point α) → List (Point α)) (hsort : IsSort sort)
    (d : Nat) (pts : List (Point α)) (depth : Nat) (hne : pts ≠ []) :
    (buildTree sort d pts depth).height = Nat.log 2 pts.length + 1 := by
  have hpos : 0 < pts.length := List.length_pos.2 hne
  obtain ⟨a, b⟩ := (buildTreeFuel_height sort hsort d pts.length pts depth (le_refl _)).2
    (by omega)
  unfold buildTree
  generalize (buildTreeFuel sort d pts.length pts depth).height = h at a b
  cases h with
  | zero =>
    rw [pow_zero] at b
    omega
  | succ j =>
    rw [pow_succ] at a
    have a2 : 2 ^ j ≤ pts.length := by omega
    rw [Nat.log_eq_of_pow_le_of_lt_pow a2 b]

/-! ### Repeated insertion of one point -/

theorem insertUtil_rightChain (d : Nat) (p : Point α) :
    ∀ (n depth : Nat), insertUtil d (rightChain p n) p depth = rightChain p (n + 1) := by
  intro n
  induction n with
  | zero => intro depth; rfl
  | succ n ih =>
    intro depth
    simp only [rightChain, insertUtil, lt_irrefl, if_false, ih]

theorem foldl_insert_rightChain (d : Nat) (p : Point α) :
    ∀ (n m : Nat),
      (List.replicate n p).foldl (insert d) (rightChain p m) = rightChain p (m + n) := by
  intro n
  induction n with
  | zero => intro m; rfl
  | succ n ih =>
    intro m
    rw [List.replicate_succ, List.foldl_cons]
    unfold insert
    rw [insertUtil_rightChain]
    have := ih (m + 1)
    unfold insert at this
    rw [this]
    congr 1
    omega

theorem rightChain_height (p : Point α) : ∀ n : Nat, (rightChain p n).height = n := by
  intro n
  induction n with
  | zero => rfl
  | succ n ih => simp [rightChain, KDNode.height, ih]

theorem rightChain_leftAbsent (p : Point α) : ∀ n : Nat, (rightChain p n).leftAbsent := by
  intro n
  induction n with
  | zero => trivial
  | succ n ih => exact ⟨rfl, ih⟩

theorem rightChain_size (p : Point α) : ∀ n : Nat, (rightChain p n).size = n := by
  intro n
  induction n with
  | zero => rfl
  | succ n ih => simp [rightChain, KDNode.size, ih]; omega

/-! ### The arithmetic of the source -/

theorem shiftRight_eq_zero_iff (n e : Nat) : n >>> e = 0 ↔ n < 2 ^ e := by
  rw [Nat.shiftRight_eq_div_pow]
  exact Nat.div_eq_zero_iff (Nat.pos_pow_of_pos e (by norm_num))

theorem f64_expBound_spec : ∀ (fuel n j : Nat), n < 2 ^ 2 ^ (j + fuel) →
    ∃ i, F64.expBound fuel n (2 ^ j) = 2 ^ i ∧ n < 2 ^ 2 ^ i ∧
      (i = j ∨ 2 ^ 2 ^ (i - 1) ≤ n) := by
  intro fuel
  induction fuel with
  | zero =>
    intro n j h
    exact ⟨j, rfl, h, Or.inl rfl⟩
  | succ fuel ih =>
    intro n j h
    unfold F64.expBound
    by_cases h0 : n >>> (2 ^ j) = 0
    · rw [if_pos h0]
      exact ⟨j, rfl, (shiftRight_eq_zero_iff _ _).1 h0, Or.inl rfl⟩
    · rw [if_neg h0]
      have h1 : 2 ^ 2 ^ j ≤ n := not_lt.1 (fun h => h0 ((shiftRight_eq_zero_iff _ _).2 h))
      have e : 2 * 2 ^ j = 2 ^ (j + 1) := by rw [pow_succ]; ring
      rw [e]
      obtain ⟨i, hi1, hi2, hi3⟩ := ih n (j + 1) (by rw [show j + 1 + fuel = j + (fuel + 1) by omega]; exact h)
      refine ⟨i, hi1, hi2, Or.inr ?_⟩
      rcases hi3 with rfl | hi3
      · simpa using h1
      · exact hi3

theorem f64_highBit_spec : ∀ (j fuel n acc : Nat), j < fuel → 2 ^ acc ≤ n →
    n < 2 ^ (acc + 2 ^ j) →
    2 ^ F64.highBit fuel n acc (2 ^ j / 2) ≤ n ∧
      n < 2 ^ (F64.highBit fuel n acc (2 ^ j / 2) + 1) := by
  intro j
  induction j with
  | zero =>
    intro fuel n acc hf h1 h2
    obtain ⟨f, rfl⟩ : ∃ f, fuel = f + 1 := ⟨fuel - 1, by omega⟩
    simp only [pow_zero, Nat.reduceDiv, F64.highBit, if_true]
    simpa using And.intro h1 h2
  | succ j ih =>
    intro fuel n acc hf h1 h2
    obtain ⟨f, rfl⟩ : ∃ f, fuel = f + 1 := ⟨fuel - 1, by omega⟩
    have e : 2 ^ (j + 1) / 2 = 2 ^ j := by rw [pow_succ]; simp
    have hne : 2 ^ j ≠ 0 := by positivity
    rw [e]
    unfold F64.highBit
    rw [if_neg hne]
    by_cases h0 : n >>> (acc + 2 ^ j) = 0
    · rw [if_pos h0]
      exact ih f n acc (by omega) h1 ((shiftRight_eq_zero_iff _ _).1 h0)
    · rw [if_neg h0]
      have h3 : 2 ^ (acc + 2 ^ j) ≤ n :=
        not_lt.1 (fun h => h0 ((shiftRight_eq_zero_iff _ _).2 h))
      refine ih f n (acc + 2 ^ j) (by omega) h3 ?_
      rw [pow_succ] at h2
      rw [show acc + 2 ^ j + 2 ^ j = acc + 2 ^ j * 2 by ring]
      exact h2

/-- The function `bitLength` is the number of binary digits. -/
theorem f64_bitLength_eq (n : Nat) : F64.bitLength n = Nat.size n := by
  unfold F64.bitLength
  by_cases hn : n = 0
  · rw [if_pos hn, hn, Nat.size_zero]
  · rw [if_neg hn]
    have hlt : ∀ m : Nat, m < 2 ^ m := fun m => Nat.lt_two_pow m
    obtain ⟨i, hi1, hi2, hi3⟩ := f64_expBound_spec n n 0 (by
      rw [Nat.zero_add]
      exact lt_trans (hlt n) (hlt _))
    rw [pow_zero] at hi1
    rw [hi1]
    have hi : i < n := by
      rcases hi3 with rfl | hi3
      · omega
      · have a := hlt (i - 1)
        have b := hlt (2 ^ (i - 1))
        omega
    obtain ⟨s1, s2⟩ := f64_highBit_spec i n n 0 hi (by
      rw [pow_zero]; omega) (by rw [Nat.zero_add]; exact hi2)
    have a := Nat.lt_size.2 s1
    have b := Nat.size_le.2 s2
    omega

theorem f64_isqrtIter_eq : ∀ (fuel n guess : Nat), guess ≤ fuel →
    F64.isqrtIter fuel n guess = Nat.sqrt.iter n guess := by
  intro fuel
  induction fuel with
  | zero =>
    intro n guess h
    obtain rfl : guess = 0 := by omega
    unfold F64.isqrtIter Nat.sqrt.iter
    simp
  | succ fuel ih =>
    intro n guess h
    unfold F64.isqrtIter
    rw [Nat.sqrt.iter]
    by_cases hlt : (guess + n / guess) / 2 < guess
    · simp only [hlt, if_true, dif_pos]
      exact ih n _ (by omega)
    · simp only [hlt, if_false, dif_neg, not_false_eq_true]

/-- The function `isqrt` is the integer square root. -/
theorem f64_isqrt_eq (n : Nat) : F64.isqrt n = Nat.sqrt n := by
  unfold F64.isqrt
  rw [f64_isqrtIter_eq _ _ _ (le_refl _), Nat.shiftLeft_eq, one_mul]
  have hb : n < 2 ^ F64.bitLength n := by
    rw [f64_bitLength_eq]
    exact Nat.lt_size_self n
  have hg : n < (2 ^ (F64.bitLength n / 2 + 1) + 1) * (2 ^ (F64.bitLength n / 2 + 1) + 1) := by
    have h1 : 2 ^ F64.bitLength n ≤ 2 ^ (F64.bitLength n / 2 + 1) * 2 ^ (F64.bitLength n / 2 + 1) := by
      rw [← pow_add]
      exact Nat.pow_le_pow_right (by norm_num) (by omega)
    generalize 2 ^ (F64.bitLength n / 2 + 1) = g at h1
    generalize 2 ^ F64.bitLength n = b at hb h1
    have h2 : g * g ≤ (g + 1) * (g + 1) := Nat.mul_le_mul (Nat.le_succ g) (Nat.le_succ g)
    omega
  exact Nat.eq_sqrt.2 ⟨Nat.sqrt.iter_sq_le n _, Nat.sqrt.lt_iter_succ_sq n _ hg⟩

/-! ### Rounding to nearest -/

theorem slot_lt (q j : Nat) (h : F64.Slot q j) : q < 2 ^ 53 := by
  rcases h with ⟨_, h⟩ | ⟨_, h⟩ <;> exact h

theorem slot_normal (q j : Nat) (h : F64.Slot q j) (hj : j ≠ 0) : 2 ^ 52 ≤ q := by
  rcases h with ⟨h, _⟩ | ⟨h, _⟩
  · exact absurd h hj
  · exact h

/-- Between the `double` `q * 2 ^ j` and its successor `(q + 1) * 2 ^ j` there is no other
`double`. -/
theorem slot_gap (q j q2 j2 : Nat) (h : F64.Slot q j) (h2 : F64.Slot q2 j2)
    (hlt : q * 2 ^ j < q2 * 2 ^ j2) : (q + 1) * 2 ^ j ≤ q2 * 2 ^ j2 := by
  have hq := slot_lt q j h
  have hq2 := slot_lt q2 j2 h2
  rcases Nat.lt_trichotomy j j2 with hj | hj | hj
  · obtain ⟨e, rfl⟩ : ∃ e, j2 = j + (e + 1) := ⟨j2 - j - 1, by omega⟩
    have hn := slot_normal q2 _ h2 (by omega)
    have h1 : (2 : Nat) ^ (j + (e + 1)) = 2 ^ j * 2 ^ e * 2 := by
      rw [pow_add, pow_succ]; ring
    rw [h1]
    have he : 1 ≤ 2 ^ e := Nat.one_le_two_pow
    calc (q + 1) * 2 ^ j ≤ 2 ^ 53 * 2 ^ j := Nat.mul_le_mul_right _ (by omega)
      _ = 2 ^ 52 * (2 ^ j * 1 * 2) := by ring
      _ ≤ q2 * (2 ^ j * 2 ^ e * 2) := Nat.mul_le_mul hn
          (Nat.mul_le_mul_right _ (Nat.mul_le_mul_left _ he))
  · subst hj
    have : q < q2 := Nat.lt_of_mul_lt_mul_right hlt
    exact Nat.mul_le_mul_right _ this
  · exfalso
    obtain ⟨e, rfl⟩ : ∃ e, j = j2 + (e + 1) := ⟨j - j2 - 1, by omega⟩
    have hn := slot_normal q _ h (by omega)
    have h1 : (2 : Nat) ^ (j2 + (e + 1)) = 2 ^ j2 * 2 ^ e * 2 := by
      rw [pow_add, pow_succ]; ring
    rw [h1] at hlt
    have he : 1 ≤ 2 ^ e := Nat.one_le_two_pow
    have : q2 * 2 ^ j2 < q * (2 ^ j2 * 2 ^ e * 2) :=
      calc q2 * 2 ^ j2 < 2 ^ 53 * 2 ^ j2 := Nat.mul_lt_mul_of_pos_right hq2 (by positivity)
        _ = 2 ^ 52 * (2 ^ j2 * 1 * 2) := by ring
        _ ≤ q * (2 ^ j2 * 2 ^ e * 2) := Nat.mul_le_mul hn
            (Nat.mul_le_mul_right _ (Nat.mul_le_mul_left _ he))
    omega

theorem slot_unique (q j q2 j2 : Nat) (h : F64.Slot q j) (h2 : F64.Slot q2 j2)
    (he : q * 2 ^ j = q2 * 2 ^ j2) : q = q2 ∧ j = j2 := by
  by_cases hq0 : q = 0
  · subst hq0
    have hj : j = 0 := by
      by_contra hj
      have := slot_normal 0 j h hj
      simp at this
    rw [Nat.zero_mul] at he
    have hq2 : q2 = 0 := by
      rcases Nat.mul_eq_zero.1 he.symm with h0 | h0
      · exact h0
      · exact absurd h0 (by positivity)
    subst hq2
    have hj2 : j2 = 0 := by
      by_contra hj2
      have := slot_normal 0 j2 h2 hj2
      simp at this
    exact ⟨rfl, by omega⟩
  · have hj : j = j2 := by
      rcases Nat.lt_trichotomy j j2 with hj | hj | hj
      · exfalso
        have h3 : (q2 - 1 + 1) * 2 ^ j2 ≤ q * 2 ^ j := by
          have hq2 : q2 ≠ 0 := by
            intro h0
            rw [h0, Nat.zero_mul] at he
            rcases Nat.mul_eq_zero.1 he with h1 | h1
            · exact hq0 h1
            · exact absurd h1 (by positivity)
          rw [Nat.sub_add_cancel (by omega)]
          exact le_of_eq he.symm
        have hn := slot_normal q2 j2 h2 (by omega)
        have hq := slot_lt q j h
        obtain ⟨e, rfl⟩ : ∃ e, j2 = j + (e + 1) := ⟨j2 - j - 1, by omega⟩
        have h1 : (2 : Nat) ^ (j + (e + 1)) = 2 ^ j * 2 ^ e * 2 := by
          rw [pow_add, pow_succ]; ring
        rw [h1] at he
        have hee : 1 ≤ 2 ^ e := Nat.one_le_two_pow
        have : q * 2 ^ j < q2 * (2 ^ j * 2 ^ e * 2) :=
          calc q * 2 ^ j < 2 ^ 53 * 2 ^ j := Nat.mul_lt_mul_of_pos_right hq (by positivity)
            _ = 2 ^ 52 * (2 ^ j * 1 * 2) := by ring
            _ ≤ q2 * (2 ^ j * 2 ^ e * 2) := Nat.mul_le_mul hn
                (Nat.mul_le_mul_right _ (Nat.mul_le_mul_left _ hee))
        omega
      · exact hj
      · exfalso
        have hn := slot_normal q j h (by omega)
        have hq2 := slot_lt q2 j2 h2
        obtain ⟨e, rfl⟩ : ∃ e, j = j2 + (e + 1) := ⟨j - j2 - 1, by omega⟩
        have h1 : (2 : Nat) ^ (j2 + (e + 1)) = 2 ^ j2 * 2 ^ e * 2 := by
          rw [pow_add, pow_succ]; ring
        rw [h1] at he
        have hee : 1 ≤ 2 ^ e := Nat.one_le_two_pow
        have : q2 * 2 ^ j2 < q * (2 ^ j2 * 2 ^ e * 2) :=
          calc q2 * 2 ^ j2 < 2 ^ 53 * 2 ^ j2 := Nat.mul_lt_mul_of_pos_right hq2 (by positivity)
            _ = 2 ^ 52 * (2 ^ j2 * 1 * 2) := by ring
            _ ≤ q * (2 ^ j2 * 2 ^ e * 2) := Nat.mul_le_mul hn
                (Nat.mul_le_mul_right _ (Nat.mul_le_mul_left _ hee))
        omega
    subst hj
    exact ⟨Nat.eq_of_mul_eq_mul_right (by positivity) he, rfl⟩

/-- The successor of a `double` is a `double`, at distance `2 ^ j`. -/
theorem slot_succ (q j : Nat) (h : F64.Slot q j) :
    ∃ q2 j2, F64.Slot q2 j2 ∧ (q + 1) * 2 ^ j = q2 * 2 ^ j2 ∧ 2 ^ j ≤ 2 ^ j2 := by
  by_cases hq : q + 1 < 2 ^ 53
  · refine ⟨q + 1, j, ?_, rfl, le_refl _⟩
    rcases h with ⟨h1, _⟩ | ⟨h1, _⟩
    · exact Or.inl ⟨h1, hq⟩
    · exact Or.inr ⟨by omega, hq⟩
  · have hq1 := slot_lt q j h
    have e : q + 1 = 2 ^ 53 := by omega
    refine ⟨2 ^ 52, j + 1, Or.inr ⟨le_refl _, by norm_num⟩, ?_, ?_⟩
    · rw [e, pow_succ]; ring
    · exact Nat.pow_le_pow_right (by norm_num) (by omega)

theorem rep_gap (q j g : Nat) (h : F64.Slot q j) (hg : F64.IsRep g) (hlt : q * 2 ^ j < g) :
    (q + 1) * 2 ^ j ≤ g := by
  obtain ⟨q2, j2, h2, rfl⟩ := hg
  exact slot_gap q j q2 j2 h h2 hlt

theorem rep_gap_lt (q j g : Nat) (h : F64.Slot q j) (hg : F64.IsRep g)
    (hlt : g < (q + 1) * 2 ^ j) : g ≤ q * 2 ^ j := by
  by_contra hc
  have := rep_gap q j g h hg (not_le.1 hc)
  omega

theorem isRep_of_slot (q j : Nat) (h : F64.Slot q j) : F64.IsRep (q * 2 ^ j) :=
  ⟨q, j, h, rfl⟩

theorem isRep_succ (q j : Nat) (h : F64.Slot q j) : F64.IsRep ((q + 1) * 2 ^ j) := by
  obtain ⟨q2, j2, h2, e, _⟩ := slot_succ q j h
  exact ⟨q2, j2, h2, e⟩

theorem isRound_isRep (Y : ℝ) (r : Nat) (h : F64.IsRound Y r) : F64.IsRep r := by
  obtain ⟨q, j, hs, _, _, hr⟩ := h
  rcases hr with ⟨_, rfl⟩ | ⟨_, rfl⟩
  · exact isRep_succ q j hs
  · exact isRep_of_slot q j hs

/-- Rounding does not go below a `double` that the real is not below. -/
theorem isRound_ge (Y : ℝ) (r g : Nat) (h : F64.IsRound Y r) (hg : F64.IsRep g)
    (hgY : (g : ℝ) ≤ Y) : g ≤ r := by
  obtain ⟨q, j, hs, hlo, hhi, hr⟩ := h
  have hrlo : q * 2 ^ j ≤ r := by
    rcases hr with ⟨_, rfl⟩ | ⟨_, rfl⟩
    · exact Nat.mul_le_mul_right _ (Nat.le_succ q)
    · exact le_refl _
  by_contra hc
  have h1 := rep_gap q j g hs hg (by omega)
  have h2 : (((q + 1) * 2 ^ j : Nat) : ℝ) ≤ (g : ℝ) := by exact_mod_cast h1
  push_cast at h2
  linarith

/-- Rounding does not go above a `double` that the real is not above. -/
theorem isRound_le (Y : ℝ) (r g : Nat) (h : F64.IsRound Y r) (hg : F64.IsRep g)
    (hgY : Y ≤ (g : ℝ)) : r ≤ g := by
  obtain ⟨q, j, hs, hlo, hhi, hr⟩ := h
  have hP : (0 : ℝ) < 2 ^ j := by positivity
  by_cases hlt : g < (q + 1) * 2 ^ j
  · have h1 := rep_gap_lt q j g hs hg hlt
    have h2 : (g : ℝ) ≤ ((q * 2 ^ j : Nat) : ℝ) := by exact_mod_cast h1
    push_cast at h2
    have hY : Y = (q : ℝ) * 2 ^ j := le_antisymm (le_trans hgY h2) hlo
    rcases hr with ⟨hup, _⟩ | ⟨_, rfl⟩
    · exfalso
      rcases hup with hup | ⟨hup, _⟩
      · rw [hY] at hup
        nlinarith
      · rw [hY] at hup
        nlinarith
    · have h3 : ((q * 2 ^ j : Nat) : ℝ) ≤ (g : ℝ) := by
        push_cast
        linarith
      exact_mod_cast h3
  · rcases hr with ⟨_, rfl⟩ | ⟨_, rfl⟩
    · omega
    · have := Nat.mul_le_mul_right (2 ^ j) (Nat.le_add_right q 1)
      omega

/-- Rounding to nearest is monotone. -/
theorem isRound_mono (Y Y2 : ℝ) (r r2 : Nat) (hY : Y ≤ Y2) (h : F64.IsRound Y r)
    (h2 : F64.IsRound Y2 r2) : r ≤ r2 := by
  have hrep2 := isRound_isRep Y2 r2 h2
  obtain ⟨q, j, hs, hlo, hhi, hr⟩ := h
  obtain ⟨q2, j2, hs2, hlo2, hhi2, hr2⟩ := h2
  have hr2lo : q2 * 2 ^ j2 ≤ r2 := by
    rcases hr2 with ⟨_, rfl⟩ | ⟨_, rfl⟩
    · exact Nat.mul_le_mul_right _ (Nat.le_succ q2)
    · exact le_refl _
  have hrhi : r ≤ (q + 1) * 2 ^ j := by
    rcases hr with ⟨_, rfl⟩ | ⟨_, rfl⟩
    · exact le_refl _
    · exact Nat.mul_le_mul_right _ (Nat.le_succ q)
  rcases Nat.lt_trichotomy (q * 2 ^ j) (q2 * 2 ^ j2) with hc | hc | hc
  · have := slot_gap q j q2 j2 hs hs2 hc
    omega
  · obtain ⟨rfl, rfl⟩ := slot_unique q j q2 j2 hs hs2 hc
    rcases hr with ⟨hup, rfl⟩ | ⟨_, rfl⟩
    · rcases hr2 with ⟨_, rfl⟩ | ⟨hnup, _⟩
      · exact le_refl _
      · exfalso
        apply hnup
        rcases hup with hup | ⟨hup, hodd⟩
        · exact Or.inl (lt_of_lt_of_le hup hY)
        · rcases lt_or_eq_of_le hY with h3 | h3
          · left
            rw [hup]
            exact h3
          · right
            exact ⟨by rw [hup, h3], hodd⟩
    · exact hr2lo
  · exfalso
    have h1 := slot_gap q2 j2 q j hs2 hs hc
    have h3 : (((q2 + 1) * 2 ^ j2 : Nat) : ℝ) ≤ ((q * 2 ^ j : Nat) : ℝ) := by exact_mod_cast h1
    push_cast at h3
    linarith

/-- A real within its own `2 ^ (-54)` below a `double` rounds up to that `double` or
above. -/
theorem isRound_near_below (Y : ℝ) (r g : Nat) (h : F64.IsRound Y r) (hg : F64.IsRep g)
    (hYg : Y < (g : ℝ)) (hnear : ((g : ℝ) - Y) * 2 ^ 54 < Y) :
    g ≤ r := by
  obtain ⟨q, j, hs, hlo, hhi, hr⟩ := h
  have hP : (0 : ℝ) < 2 ^ j := by positivity
  have hq := slot_lt q j hs
  have hqR : (q : ℝ) + 1 ≤ 2 ^ 53 := by
    have : q + 1 ≤ 2 ^ 53 := hq
    exact_mod_cast this
  -- the spacing exceeds `Y / 2 ^ 53`
  have hsp : Y < 2 ^ 53 * 2 ^ j := lt_of_lt_of_le hhi (mul_le_mul_of_nonneg_right hqR hP.le)
  -- `g` lies above the slot, so it is at least its upper end
  have h1 : (q + 1) * 2 ^ j ≤ g := by
    apply rep_gap q j g hs hg
    have : ((q * 2 ^ j : Nat) : ℝ) < (g : ℝ) := by
      push_cast
      linarith
    exact_mod_cast this
  -- and at most: nothing above the upper end is that close
  have h2 : g ≤ (q + 1) * 2 ^ j := by
    obtain ⟨q2, j2, hs2, e, hle⟩ := slot_succ q j hs
    by_contra hc
    rw [e] at hc
    have h3 := rep_gap q2 j2 g hs2 hg (not_le.1 hc)
    have h4 : (((q2 + 1) * 2 ^ j2 : Nat) : ℝ) ≤ (g : ℝ) := by exact_mod_cast h3
    have h5 : (((q + 1) * 2 ^ j : Nat) : ℝ) = ((q2 * 2 ^ j2 : Nat) : ℝ) := by exact_mod_cast e
    have h6 : ((2 ^ j : Nat) : ℝ) ≤ ((2 ^ j2 : Nat) : ℝ) := by exact_mod_cast hle
    push_cast at h4 h5 h6
    have h7 : ((q : ℝ) + 1) * 2 ^ j + 2 ^ j ≤ (g : ℝ) := by nlinarith
    have h8 : (g : ℝ) - Y > 2 ^ j := by nlinarith
    have h9 : (2 : ℝ) ^ 54 = 2 * 2 ^ 53 := by norm_num
    nlinarith
  have hge : g = (q + 1) * 2 ^ j := le_antisymm h2 h1
  rcases hr with ⟨_, rfl⟩ | ⟨hnup, _⟩
  · exact h2
  · exfalso
    apply hnup
    left
    have h5 : (g : ℝ) = (((q + 1) * 2 ^ j : Nat) : ℝ) := by exact_mod_cast hge
    push_cast at h5
    have h9 : (2 : ℝ) ^ 54 = 2 * 2 ^ 53 := by norm_num
    nlinarith

/-- A real more than half a spacing above a `double` rounds above that `double`. -/
theorem isRound_above (Y : ℝ) (r q j : Nat) (h : F64.IsRound Y r) (hs : F64.Slot q j)
    (hY : (q : ℝ) * 2 ^ j + 2 ^ j / 2 < Y) : q * 2 ^ j < r := by
  obtain ⟨q2, j2, hs2, hlo, hhi, hr⟩ := h
  have hP : (0 : ℝ) < 2 ^ j := by positivity
  have hrlo : q2 * 2 ^ j2 ≤ r := by
    rcases hr with ⟨_, rfl⟩ | ⟨_, rfl⟩
    · exact Nat.mul_le_mul_right _ (Nat.le_succ q2)
    · exact le_refl _
  rcases Nat.lt_trichotomy (q * 2 ^ j) (q2 * 2 ^ j2) with hc | hc | hc
  · omega
  · obtain ⟨rfl, rfl⟩ := slot_unique q j q2 j2 hs hs2 hc
    rcases hr with ⟨_, rfl⟩ | ⟨hnup, _⟩
    · exact Nat.mul_lt_mul_of_pos_right (Nat.lt_succ_self q) (by positivity)
    · exfalso
      apply hnup
      left
      linarith
  · exfalso
    have h1 := slot_gap q2 j2 q j hs2 hs hc
    have h3 : (((q2 + 1) * 2 ^ j2 : Nat) : ℝ) ≤ ((q * 2 ^ j : Nat) : ℝ) := by exact_mod_cast h1
    push_cast at h3
    linarith

/-- Below `2 ^ 52` units a rounded value is within half a unit of the real. -/
theorem isRound_le_add_half (Z : ℝ) (r : Nat) (h : F64.IsRound Z r) (hr52 : r < 2 ^ 52) :
    Z ≤ (r : ℝ) + 1 / 2 := by
  obtain ⟨q, j, hs, hlo, hhi, hr⟩ := h
  have hrlo : q * 2 ^ j ≤ r := by
    rcases hr with ⟨_, rfl⟩ | ⟨_, rfl⟩
    · exact Nat.mul_le_mul_right _ (Nat.le_succ q)
    · exact le_refl _
  have hj : j = 0 := by
    by_contra hj
    have hn := slot_normal q j hs hj
    have : 2 ^ 52 * 1 ≤ q * 2 ^ j := Nat.mul_le_mul hn Nat.one_le_two_pow
    omega
  subst hj
  simp only [pow_zero, mul_one] at hlo hhi hr
  rcases hr with ⟨_, rfl⟩ | ⟨hnup, rfl⟩
  · push_cast
    linarith
  · have := not_lt.1 (fun h => hnup (Or.inl h))
    linarith

/-- From `2 ^ 52` units on a rounded value is within its own `2 ^ (-53)` of the real. -/
theorem isRound_le_normal (Z : ℝ) (r : Nat) (h : F64.IsRound Z r) (hr52 : 2 ^ 52 ≤ r) :
    Z * 2 ^ 53 ≤ (r : ℝ) * (2 ^ 53 + 1) := by
  obtain ⟨q, j, hs, hlo, hhi, hr⟩ := h
  have hP : (0 : ℝ) < 2 ^ j := by positivity
  rcases hr with ⟨_, rfl⟩ | ⟨hnup, rfl⟩
  · push_cast
    have : (0 : ℝ) ≤ q := Nat.cast_nonneg q
    nlinarith
  · have hZ := not_lt.1 (fun h => hnup (Or.inl h))
    have hq : (2 : ℝ) ^ 52 ≤ q := by
      have : 2 ^ 52 ≤ q := by
        by_cases hj : j = 0
        · subst hj
          simpa using hr52
        · exact slot_normal q j hs hj
      exact_mod_cast this
    push_cast
    have h9 : (2 : ℝ) ^ 53 = 2 * 2 ^ 52 := by norm_num
    nlinarith

theorem two_pow_le_two_pow (a b : Nat) (h : a ≤ b) : 2 ^ a ≤ 2 ^ b :=
  Nat.pow_le_pow_right (by norm_num) h

theorem two_pow_mul (a b c : Nat) (h : a + b = c) : (2 : Nat) ^ a * 2 ^ b = 2 ^ c := by
  rw [← pow_add, h]

theorem cast_two_pow (e : Nat) : ((2 ^ e : Nat) : ℝ) = 2 ^ e := by
  push_cast
  rfl

theorem two_pow_lt_two_pow (a b : Nat) (h : a < b) : 2 ^ a < 2 ^ b :=
  Nat.pow_lt_pow_right (by norm_num) h

theorem f64_inf_eq : F64.inf = 2 ^ 2098 := by
  unfold F64.inf
  generalize 2098 = e
  rw [Nat.shiftLeft_eq, one_mul]

theorem quot_slot (n s : Nat) :
    F64.Slot (n / 2 ^ (s + (Nat.size n - s - 53))) (Nat.size n - s - 53) := by
  have hlt : n < 2 ^ Nat.size n := Nat.lt_size_self n
  by_cases hj : Nat.size n - s - 53 = 0
  · left
    refine ⟨hj, ?_⟩
    rw [hj, Nat.add_zero]
    apply Nat.div_lt_of_lt_mul
    rw [← pow_add]
    exact lt_of_lt_of_le hlt (Nat.pow_le_pow_right (by norm_num) (by omega))
  · right
    have hsz : Nat.size n = s + (Nat.size n - s - 53) + 53 := by omega
    constructor
    · apply (Nat.le_div_iff_mul_le (by positivity)).2
      rw [← pow_add]
      have h1 : 52 + (s + (Nat.size n - s - 53)) < Nat.size n := by omega
      exact Nat.lt_size.1 h1
    · apply Nat.div_lt_of_lt_mul
      rw [← pow_add]
      exact lt_of_lt_of_le hlt (Nat.pow_le_pow_right (by norm_num) (by omega))

/-- The function `round` is rounding to nearest, ties to even, of `n / 2 ^ s`, capped at
`inf`. -/
theorem f64_round_spec (n s : Nat) :
    ∃ r, F64.IsRound ((n : ℝ) / 2 ^ s) r ∧ F64.round n s = min F64.inf r := by
  have hslot := quot_slot n s
  unfold F64.round
  rw [f64_bitLength_eq]
  simp only
  generalize hj : Nat.size n - s - 53 = j at hslot
  by_cases ht : s + j = 0
  · have hs0 : s = 0 := by omega
    have hj0 : j = 0 := by omega
    subst hs0
    subst hj0
    rw [if_pos ht]
    simp only [Nat.add_zero, pow_zero, Nat.div_one] at hslot
    have hn53 : n < 2 ^ 53 := slot_lt n 0 hslot
    refine ⟨n, ⟨n, 0, hslot, by simp, by simp, Or.inr ⟨?_, by simp⟩⟩, ?_⟩
    · simp only [pow_zero, mul_one, div_one]
      rintro (h | ⟨h, _⟩) <;> linarith
    · rw [f64_inf_eq]
      have : (2 : Nat) ^ 53 ≤ 2 ^ 2098 := two_pow_le_two_pow 53 2098 (by norm_num)
      omega
  · rw [if_neg ht]
    rw [Nat.shiftRight_eq_div_pow, Nat.shiftLeft_eq, Nat.shiftLeft_eq, Nat.shiftLeft_eq,
      one_mul, one_mul]
    generalize hq : n / 2 ^ (s + j) = q at hslot
    generalize hr : n % 2 ^ (s + j) = r0
    have hdm : q * 2 ^ (s + j) + r0 = n := by
      rw [← hq, ← hr, mul_comm]
      exact Nat.div_add_mod n _
    have hr0 : r0 < 2 ^ (s + j) := by
      rw [← hr]
      exact Nat.mod_lt _ (by positivity)
    have hhalf : 2 ^ (s + j) = 2 * 2 ^ (s + j - 1) := by
      obtain ⟨u, hu⟩ : ∃ u, s + j = u + 1 := ⟨s + j - 1, by omega⟩
      rw [hu, pow_succ]
      simp
      ring
    generalize 2 ^ (s + j - 1) = half at hhalf
    have hT : (2 : ℝ) ^ (s + j) = 2 ^ s * 2 ^ j := pow_add 2 s j
    have hTn : ((2 ^ (s + j) : Nat) : ℝ) = 2 ^ s * 2 ^ j := by
      push_cast
      exact hT
    have hS : (0 : ℝ) < 2 ^ s := by positivity
    have hP : (0 : ℝ) < 2 ^ j := by positivity
    have hnR : (n : ℝ) = (q : ℝ) * (2 ^ s * 2 ^ j) + (r0 : ℝ) := by
      rw [← hTn]
      exact_mod_cast hdm.symm
    have hr0R : (r0 : ℝ) < 2 ^ s * 2 ^ j := by
      rw [← hTn]
      exact_mod_cast hr0
    have hhalfR : (2 : ℝ) ^ s * 2 ^ j = 2 * (half : ℝ) := by
      rw [← hTn]
      exact_mod_cast hhalf
    have hlo : (q : ℝ) * 2 ^ j ≤ (n : ℝ) / 2 ^ s := by
      rw [le_div_iff₀ hS]
      have : (0 : ℝ) ≤ (r0 : ℝ) := Nat.cast_nonneg r0
      nlinarith
    have hhi : (n : ℝ) / 2 ^ s < ((q : ℝ) + 1) * 2 ^ j := by
      rw [div_lt_iff₀ hS]
      nlinarith
    have hhalfN : ((half : Nat) : ℝ) * 2 = 2 ^ s * 2 ^ j := by linarith
    have hup1 : ((q : ℝ) + 1 / 2) * 2 ^ j < (n : ℝ) / 2 ^ s ↔ half < r0 := by
      rw [lt_div_iff₀ hS]
      constructor
      · intro h
        have h3 : (half : ℝ) < (r0 : ℝ) := by nlinarith
        exact_mod_cast h3
      · intro h
        have h3 : (half : ℝ) < (r0 : ℝ) := by exact_mod_cast h
        nlinarith
    have hup2 : ((q : ℝ) + 1 / 2) * 2 ^ j = (n : ℝ) / 2 ^ s ↔ r0 = half := by
      rw [eq_div_iff (ne_of_gt hS)]
      constructor
      · intro h
        have h3 : (r0 : ℝ) = (half : ℝ) := by
          linear_combination (-1 : ℝ) * hnR - h - (1 / 2 : ℝ) * hhalfN
        exact_mod_cast h3
      · intro h
        have h3 : (r0 : ℝ) = (half : ℝ) := by exact_mod_cast h
        rw [hnR, h3]
        linear_combination (-1 / 2 : ℝ) * hhalfN
    have hup : (((q : ℝ) + 1 / 2) * 2 ^ j < (n : ℝ) / 2 ^ s ∨
        (((q : ℝ) + 1 / 2) * 2 ^ j = (n : ℝ) / 2 ^ s ∧ q % 2 = 1)) ↔
        (half < r0 ∨ (r0 = half ∧ q % 2 = 1)) := by
      rw [hup1, hup2]
    by_cases hc : half < r0 ∨ (r0 = half ∧ q % 2 = 1)
    · rw [if_pos hc]
      refine ⟨(q + 1) * 2 ^ j, ⟨q, j, hslot, hlo, hhi, Or.inl ⟨hup.2 hc, rfl⟩⟩, ?_⟩
      by_cases hi : F64.inf ≤ (q + 1) * 2 ^ j
      · rw [if_pos hi, min_eq_left hi]
      · rw [if_neg hi, min_eq_right (le_of_lt (not_le.1 hi))]
    · rw [if_neg hc]
      refine ⟨q * 2 ^ j, ⟨q, j, hslot, hlo, hhi, Or.inr ⟨fun h => hc (hup.1 h), rfl⟩⟩, ?_⟩
      by_cases hi : F64.inf ≤ q * 2 ^ j
      · rw [if_pos hi, min_eq_left hi]
      · rw [if_neg hi, min_eq_right (le_of_lt (not_le.1 hi))]

theorem quot_slot0 (f : Nat) : F64.Slot (f / 2 ^ (Nat.size f - 53)) (Nat.size f - 53) := by
  have := quot_slot f 0
  simpa using this

theorem le_of_sq_le (m n : Nat) (Y : ℝ) (hY0 : 0 ≤ Y) (hYY : Y * Y = (n : ℝ))
    (h : m * m ≤ n) : (m : ℝ) ≤ Y := by
  have h1 : (m : ℝ) * m ≤ (n : ℝ) := by exact_mod_cast h
  by_contra hc
  have := not_le.1 hc
  nlinarith

theorem lt_of_lt_sq (m n : Nat) (Y : ℝ) (hYY : Y * Y = (n : ℝ))
    (h : n < m * m) : Y < (m : ℝ) := by
  have h1 : (n : ℝ) < (m : ℝ) * m := by exact_mod_cast h
  have h2 : (0 : ℝ) ≤ m := Nat.cast_nonneg m
  by_contra hc
  have := not_lt.1 hc
  nlinarith

theorem lt_of_sq_lt (m n : Nat) (Y : ℝ) (hY0 : 0 ≤ Y) (hYY : Y * Y = (n : ℝ))
    (h : m * m < n) : (m : ℝ) < Y := by
  have h1 : (m : ℝ) * m < (n : ℝ) := by exact_mod_cast h
  by_contra hc
  have := not_lt.1 hc
  nlinarith

theorem eq_of_sq_eq (m n : Nat) (Y : ℝ) (hY0 : 0 ≤ Y) (hYY : Y * Y = (n : ℝ))
    (h : m * m = n) : (m : ℝ) = Y := by
  have h1 : (m : ℝ) * m = (n : ℝ) := by exact_mod_cast h
  have h2 : (0 : ℝ) ≤ m := Nat.cast_nonneg m
  nlinarith

/-- The function `sqrt` is the square root rounded to nearest, ties to even: the value
`x * 2 ^ (-1074)` has the root `sqrt (x * 2 ^ 1074) * 2 ^ (-1074)`. -/
theorem f64_sqrt_spec (x : Nat) (hx : x < F64.inf) :
    F64.IsRound (Real.sqrt ((x : ℝ) * 2 ^ 1074)) (F64.sqrt x) := by
  unfold F64.sqrt
  rw [if_neg (not_le.2 hx)]
  simp only
  have he : 106 ≤ 1074 := by norm_num
  generalize 1074 = e at he ⊢
  rw [f64_isqrt_eq, f64_bitLength_eq, Nat.shiftLeft_eq]
  generalize hn : x * 2 ^ e = n
  have hnR : (x : ℝ) * 2 ^ e = (n : ℝ) := by
    rw [← hn]
    push_cast
    ring
  rw [hnR]
  generalize hf : Nat.sqrt n = f
  have hf1 : f * f ≤ n := by
    rw [← hf]
    exact Nat.sqrt_le n
  have hf2 : n < (f + 1) * (f + 1) := by
    rw [← hf]
    exact Nat.lt_succ_sqrt n
  have hslot := quot_slot0 f
  generalize hj : Nat.size f - 53 = j at hslot
  have hY0 : (0 : ℝ) ≤ Real.sqrt (n : ℝ) := Real.sqrt_nonneg _
  have hYY : Real.sqrt (n : ℝ) * Real.sqrt (n : ℝ) = (n : ℝ) :=
    Real.mul_self_sqrt (Nat.cast_nonneg n)
  generalize Real.sqrt (n : ℝ) = Y at hY0 hYY
  have cle : ∀ m : Nat, m * m ≤ n → (m : ℝ) ≤ Y := fun m h => le_of_sq_le m n Y hY0 hYY h
  have clt : ∀ m : Nat, n < m * m → Y < (m : ℝ) := fun m h => lt_of_lt_sq m n Y hYY h
  by_cases hj0 : j = 0
  · rw [if_pos hj0]
    subst hj0
    simp only [pow_zero, Nat.div_one] at hslot
    have hf53 : f < 2 ^ 53 := slot_lt f 0 hslot
    have hx0 : x = 0 := by
      by_contra hx0
      have h1 : 1 * 2 ^ e ≤ x * 2 ^ e := Nat.mul_le_mul_right _ (by omega)
      have h2 : (f + 1) * (f + 1) ≤ 2 ^ 53 * 2 ^ 53 := Nat.mul_le_mul hf53 hf53
      have h3 : (2 : Nat) ^ 53 * 2 ^ 53 ≤ 1 * 2 ^ e := by
        rw [← pow_add, one_mul]
        exact Nat.pow_le_pow_right (by norm_num) (by omega)
      omega
    have hn0 : n = 0 := by rw [← hn, hx0, Nat.zero_mul]
    have hf0 : f = 0 := by
      rw [hn0] at hf1
      exact mul_self_eq_zero.1 (Nat.le_zero.1 hf1)
    subst hf0
    have hY : Y = 0 := by
      rw [hn0] at hYY
      simpa using hYY
    refine ⟨0, 0, hslot, ?_, ?_, Or.inr ⟨?_, by simp⟩⟩
    · rw [hY]; simp
    · rw [hY]; simp
    · rw [hY]
      rintro (h | ⟨h, _⟩) <;> norm_num at h
  · rw [if_neg hj0]
    rw [Nat.shiftRight_eq_div_pow, Nat.shiftLeft_eq, Nat.shiftLeft_eq, Nat.shiftLeft_eq,
      one_mul, one_mul]
    generalize hq : f / 2 ^ j = q at hslot
    generalize hr : f % 2 ^ j = r0
    have hdm : q * 2 ^ j + r0 = f := by
      rw [← hq, ← hr, mul_comm]
      exact Nat.div_add_mod f _
    have hr0 : r0 < 2 ^ j := by
      rw [← hr]
      exact Nat.mod_lt _ (by positivity)
    have hhalf : 2 ^ j = 2 * 2 ^ (j - 1) := by
      obtain ⟨u, hu⟩ : ∃ u, j = u + 1 := ⟨j - 1, by omega⟩
      rw [hu, pow_succ]
      simp
      ring
    have hPR : ((2 ^ j : Nat) : ℝ) = 2 ^ j := by push_cast; rfl
    generalize 2 ^ (j - 1) = half at hhalf
    generalize hP : 2 ^ j = P at hr0 hdm hhalf hPR
    have hPR2 : (P : ℝ) = 2 * (half : ℝ) := by exact_mod_cast hhalf
    have hlo : (q : ℝ) * (P : ℝ) ≤ Y := by
      have := cle (q * P) (le_trans (Nat.mul_le_mul (by omega) (by omega)) hf1)
      push_cast at this
      exact this
    have hhi : Y < ((q : ℝ) + 1) * (P : ℝ) := by
      have h1 : f + 1 ≤ (q + 1) * P := by
        rw [← hdm, Nat.add_mul, one_mul]
        omega
      have := clt ((q + 1) * P) (lt_of_lt_of_le hf2 (Nat.mul_le_mul h1 h1))
      push_cast at this
      exact this
    have hmid : ((q : ℝ) + 1 / 2) * (P : ℝ) = ((q * P + half : Nat) : ℝ) := by
      push_cast
      rw [hPR2]
      ring
    have mk : ∀ r : Nat,
        ((((q * P + half : Nat) : ℝ) < Y ∨ (((q * P + half : Nat) : ℝ) = Y ∧ q % 2 = 1)) ∧
            r = (q + 1) * P ∨
          ¬ (((q * P + half : Nat) : ℝ) < Y ∨ (((q * P + half : Nat) : ℝ) = Y ∧ q % 2 = 1)) ∧
            r = q * P) → F64.IsRound Y r := by
      intro r h
      refine ⟨q, j, hslot, ?_, ?_, ?_⟩
      · rw [← hPR]
        exact hlo
      · rw [← hPR]
        exact hhi
      · rw [← hPR, hmid, hP]
        exact h
    apply mk
    rcases Nat.lt_trichotomy half r0 with hc | hc | hc
    · -- the integer part of the root is above the midpoint
      have hup : ((q * P + half : Nat) : ℝ) < Y := by
        have h1 : (q * P + half + 1) * (q * P + half + 1) ≤ n :=
          le_trans (Nat.mul_le_mul (by omega) (by omega)) hf1
        have h2 := cle _ h1
        push_cast at h2 ⊢
        linarith
      rw [if_pos (Or.inl hc)]
      exact Or.inl ⟨Or.inl hup, rfl⟩
    · -- the integer part of the root is the midpoint
      have hfm : q * P + half = f := by omega
      rw [hfm]
      rcases Nat.lt_or_ge (f * f) n with hlt | hge
      · have hup : (f : ℝ) < Y := lt_of_sq_lt f n Y hY0 hYY hlt
        rw [if_pos (Or.inr ⟨hc.symm, Or.inl hlt⟩)]
        exact Or.inl ⟨Or.inl hup, rfl⟩
      · have heq : f * f = n := le_antisymm hf1 hge
        have hYf : (f : ℝ) = Y := eq_of_sq_eq f n Y hY0 hYY heq
        by_cases hodd : q % 2 = 1
        · rw [if_pos (Or.inr ⟨hc.symm, Or.inr hodd⟩)]
          exact Or.inl ⟨Or.inr ⟨hYf, hodd⟩, rfl⟩
        · rw [if_neg (by
            rintro (h | ⟨_, h | h⟩)
            · omega
            · omega
            · exact hodd h)]
          refine Or.inr ⟨?_, rfl⟩
          rintro (h | ⟨_, h⟩)
          · rw [hYf] at h
            exact lt_irrefl _ h
          · exact hodd h
    · -- the integer part of the root is below the midpoint
      have hdn : Y < ((q * P + half : Nat) : ℝ) := by
        have h1 : f + 1 ≤ q * P + half := by omega
        exact clt _ (lt_of_lt_of_le hf2 (Nat.mul_le_mul h1 h1))
      rw [if_neg (by
        rintro (h | ⟨h, _⟩)
        · omega
        · omega)]
      refine Or.inr ⟨?_, rfl⟩
      rintro (h | ⟨h, _⟩)
      · exact lt_asymm h hdn
      · rw [h] at hdn
        exact lt_irrefl _ hdn

theorem isRep_zero : F64.IsRep 0 := ⟨0, 0, Or.inl ⟨rfl, by norm_num⟩, by simp⟩

theorem isRep_two_pow (e : Nat) : F64.IsRep (2 ^ (52 + e)) :=
  ⟨2 ^ 52, e, Or.inr ⟨le_refl _, by norm_num⟩, pow_add 2 52 e⟩

theorem isRep_inf : F64.IsRep F64.inf := by
  rw [f64_inf_eq]
  have h : 2098 = 52 + 2046 := by norm_num
  rw [h]
  exact isRep_two_pow 2046

theorem val_zero : F64.Val 0 := ⟨isRep_zero, Nat.zero_le _⟩

theorem val_inf : F64.Val F64.inf := ⟨isRep_inf, le_refl _⟩

theorem f64_round_val (n s : Nat) : F64.Val (F64.round n s) := by
  obtain ⟨r, hr, e⟩ := f64_round_spec n s
  rw [e]
  refine ⟨?_, min_le_left _ _⟩
  rcases le_total F64.inf r with h | h
  · rw [min_eq_left h]
    exact isRep_inf
  · rw [min_eq_right h]
    exact isRound_isRep _ _ hr

theorem f64_round_mono (n m s : Nat) (h : n ≤ m) : F64.round n s ≤ F64.round m s := by
  obtain ⟨r, hr, e⟩ := f64_round_spec n s
  obtain ⟨r2, hr2, e2⟩ := f64_round_spec m s
  rw [e, e2]
  have hS : (0 : ℝ) < 2 ^ s := by positivity
  have hY : (n : ℝ) / 2 ^ s ≤ (m : ℝ) / 2 ^ s :=
    div_le_div_of_nonneg_right (by exact_mod_cast h) hS.le
  exact min_le_min (le_refl _) (isRound_mono _ _ r r2 hY hr hr2)

theorem f64_round_ge (n s g : Nat) (hg : F64.Val g) (h : g * 2 ^ s ≤ n) :
    g ≤ F64.round n s := by
  obtain ⟨r, hr, e⟩ := f64_round_spec n s
  rw [e]
  have hS : (0 : ℝ) < 2 ^ s := by positivity
  refine le_min hg.2 (isRound_ge _ r g hr hg.1 ?_)
  rw [le_div_iff₀ hS]
  exact_mod_cast h

theorem f64_absSub_val (a b : Int) : F64.Val (F64.absSub a b) := f64_round_val _ _

theorem f64_square_val (x : Nat) : F64.Val (F64.square x) := by
  unfold F64.square
  split
  · exact val_inf
  · exact f64_round_val _ _

theorem f64_square_mono (x y : Nat) (h : x ≤ y) : F64.square x ≤ F64.square y := by
  unfold F64.square
  by_cases hy : F64.inf ≤ y
  · rw [if_pos hy]
    split
    · exact le_refl _
    · exact (f64_round_val _ _).2
  · rw [if_neg hy, if_neg (by omega)]
    exact f64_round_mono _ _ _ (Nat.mul_le_mul h h)

theorem f64_add_val (x y : Nat) : F64.Val (F64.add x y) := by
  unfold F64.add
  split
  · exact val_inf
  · exact f64_round_val _ _

theorem f64_le_add_left (x y : Nat) (hx : F64.Val x) : x ≤ F64.add x y := by
  unfold F64.add
  split
  · exact hx.2
  · exact f64_round_ge _ 0 x hx (by simp)

theorem f64_le_add_right (x y : Nat) (hy : F64.Val y) : y ≤ F64.add x y := by
  unfold F64.add
  split
  · exact hy.2
  · exact f64_round_ge _ 0 y hy (by simp)

theorem f64_sqrt_inf (x : Nat) (h : F64.inf ≤ x) : F64.sqrt x = F64.inf := by
  unfold F64.sqrt
  rw [if_pos h]

theorem f64_sqrt_le_inf (x : Nat) : F64.sqrt x ≤ F64.inf := by
  by_cases hx : F64.inf ≤ x
  · rw [f64_sqrt_inf x hx]
  · have hx2 := not_le.1 hx
    have hsp := f64_sqrt_spec x hx2
    have h1 : F64.sqrt x ≤ 2 ^ (52 + 1534) := by
      apply isRound_le _ _ _ hsp (isRep_two_pow 1534)
      rw [f64_inf_eq] at hx2
      have h2 : x * 2 ^ 1074 ≤ 2 ^ (52 + 1534) * 2 ^ (52 + 1534) := by
        rw [← pow_add]
        have : (2 : Nat) ^ (52 + 1534 + (52 + 1534)) = 2 ^ 2098 * 2 ^ 1074 := by
          rw [← pow_add]
        rw [this]
        exact Nat.mul_le_mul_right _ hx2.le
      have h3 : (x : ℝ) * 2 ^ 1074 ≤ ((2 ^ (52 + 1534) : Nat) : ℝ) * ((2 ^ (52 + 1534) : Nat) : ℝ) := by
        exact_mod_cast h2
      exact Real.sqrt_le_iff.2 ⟨Nat.cast_nonneg _, by rw [sq]; exact h3⟩
    rw [f64_inf_eq]
    exact le_trans h1 (two_pow_le_two_pow (52 + 1534) 2098 (by norm_num))

theorem f64_sqrt_mono (x y : Nat) (h : x ≤ y) : F64.sqrt x ≤ F64.sqrt y := by
  by_cases hy : F64.inf ≤ y
  · rw [f64_sqrt_inf y hy]
    exact f64_sqrt_le_inf x
  · have hy2 := not_le.1 hy
    have hx2 : x < F64.inf := lt_of_le_of_lt h hy2
    apply isRound_mono _ _ _ _ _ (f64_sqrt_spec x hx2) (f64_sqrt_spec y hy2)
    apply Real.sqrt_le_sqrt
    have : (x : ℝ) ≤ (y : ℝ) := by exact_mod_cast h
    have hp : (0 : ℝ) ≤ 2 ^ 1074 := by positivity
    exact mul_le_mul_of_nonneg_right this hp

theorem two_pow_pos_real (e : Nat) : (0 : ℝ) < 2 ^ e := pow_pos (by norm_num) e

/-- Where the square is normal, the root of the rounded square of a `double` is at least
that `double`. -/
theorem f64_sqrt_round_ge (g rG : Nat) (hg : F64.IsRep g)
    (hrG : F64.IsRound ((↑(g * g) : ℝ) / 2 ^ 1074) rG) (hi : rG < F64.inf)
    (h52 : 2 ^ 52 ≤ rG) : g ≤ F64.sqrt rG := by
  have hsp := f64_sqrt_spec rG hi
  have hT : (0 : ℝ) < 2 ^ 1074 := two_pow_pos_real 1074
  have hZ := isRound_le_normal _ rG hrG h52
  have hr52 : (2 : ℝ) ^ 52 ≤ (rG : ℝ) := by exact_mod_cast h52
  generalize (2 : ℝ) ^ 1074 = T at hT hsp hZ
  have hY0 : (0 : ℝ) ≤ Real.sqrt ((rG : ℝ) * T) := Real.sqrt_nonneg _
  have hYY : Real.sqrt ((rG : ℝ) * T) * Real.sqrt ((rG : ℝ) * T) = (rG : ℝ) * T :=
    Real.mul_self_sqrt (mul_nonneg (Nat.cast_nonneg _) hT.le)
  generalize Real.sqrt ((rG : ℝ) * T) = Y at hsp hY0 hYY
  have e : (↑(g * g) : ℝ) / T * T = (g : ℝ) * g := by
    rw [div_mul_cancel₀ _ (ne_of_gt hT)]
    push_cast
    ring
  have hgg : (g : ℝ) * g * 2 ^ 53 ≤ Y * Y * (2 ^ 53 + 1) := by
    rw [hYY]
    have h1 := mul_le_mul_of_nonneg_right hZ hT.le
    have h2 : (↑(g * g) : ℝ) / T * 2 ^ 53 * T = (g : ℝ) * g * 2 ^ 53 := by
      rw [← e]
      ring
    rw [h2] at h1
    linarith
  have hYpos : 0 < Y * Y := by
    rw [hYY]
    exact mul_pos (lt_of_lt_of_le (by norm_num) hr52) hT
  by_cases hle : (g : ℝ) ≤ Y
  · exact isRound_ge Y _ g hsp hg hle
  · apply isRound_near_below Y _ g hsp hg (not_le.1 hle)
    by_contra hc
    have hA : Y * (2 ^ 54 + 1) ≤ (g : ℝ) * 2 ^ 54 := by linarith [not_lt.1 hc]
    have hB := mul_self_le_mul_self (mul_nonneg hY0 (by norm_num)) hA
    have hB2 : Y * Y * ((2 ^ 54 + 1) * (2 ^ 54 + 1)) ≤ (g : ℝ) * g * (2 ^ 54 * 2 ^ 54) := by
      calc Y * Y * ((2 ^ 54 + 1) * (2 ^ 54 + 1))
          = Y * (2 ^ 54 + 1) * (Y * (2 ^ 54 + 1)) := by ring
        _ ≤ (g : ℝ) * 2 ^ 54 * ((g : ℝ) * 2 ^ 54) := hB
        _ = (g : ℝ) * g * (2 ^ 54 * 2 ^ 54) := by ring
    generalize Y * Y = a at hgg hYpos hB2
    generalize (g : ℝ) * g = b at hgg hB2
    norm_num at hgg hB2
    linarith

/-- Where the square is subnormal, the root of the next value after the rounded square of
a `double` is above that `double`. -/
theorem f64_sqrt_succ_gt (g rG : Nat) (hg : F64.IsRep g)
    (hrG : F64.IsRound ((↑(g * g) : ℝ) / 2 ^ 1074) rG) (h52 : rG < 2 ^ 52) :
    g < F64.sqrt (rG + 1) := by
  have hi : rG + 1 < F64.inf := by
    rw [f64_inf_eq]
    have h1 : (2 : Nat) ^ 52 < 2 ^ 2098 := two_pow_lt_two_pow 52 2098 (by norm_num)
    exact lt_of_le_of_lt h52 h1
  have hsp := f64_sqrt_spec (rG + 1) hi
  have hT : (0 : ℝ) < 2 ^ 1074 := two_pow_pos_real 1074
  have hT2 : (2 : ℝ) ^ 1074 = 2 * (2 ^ 563 * 2 ^ 510) := by
    rw [← pow_add, mul_comm]
    exact pow_succ 2 1073
  have hT3 : (2 : ℝ) ^ 563 * 2 ^ 563 = 2 ^ 52 * 2 ^ 1074 := by rw [← pow_add, ← pow_add]
  have hA1 : (2 : ℝ) ≤ 2 ^ 510 := by
    calc (2 : ℝ) = 2 ^ 1 := by norm_num
      _ ≤ 2 ^ 510 := pow_le_pow_right₀ (by norm_num) (by norm_num)
  have hB0 : (0 : ℝ) < 2 ^ 563 := two_pow_pos_real 563
  have hZ := isRound_le_add_half _ rG hrG h52
  have h4 : (rG : ℝ) + 1 ≤ 2 ^ 52 := by exact_mod_cast h52
  -- the spacing at `g`
  obtain ⟨q, j, hs, rfl⟩ := hg
  have hP : (0 : ℝ) < 2 ^ j := two_pow_pos_real j
  have hq0 : (0 : ℝ) ≤ (q : ℝ) := Nat.cast_nonneg q
  have hg563 : (q : ℝ) * 2 ^ j < 2 ^ 563 → q * 2 ^ j < 2 ^ 563 := by
    intro h
    exact_mod_cast h
  have hnorm : j ≠ 0 → q * 2 ^ j < 2 ^ 563 →
      (2 : ℝ) ^ j ≤ 2 ^ 510 ∧ (q : ℝ) * 2 ^ j + 2 ^ j ≤ 2 ^ 563 := by
    intro hj hlt
    have hn := slot_normal q j hs hj
    have hj510 : j ≤ 510 := by
      by_contra hc
      have h1 : 2 ^ 52 * 2 ^ 511 ≤ q * 2 ^ j :=
        Nat.mul_le_mul hn (two_pow_le_two_pow 511 j (by omega))
      rw [two_pow_mul 52 511 563 (by norm_num)] at h1
      exact absurd hlt (not_lt.2 h1)
    refine ⟨pow_le_pow_right₀ (by norm_num) hj510, ?_⟩
    have h1 : (q + 1) * 2 ^ j ≤ 2 ^ 563 := by
      have e : (2 : Nat) ^ 563 = 2 ^ (563 - j) * 2 ^ j := by
        rw [← pow_add]
        congr 1
        omega
      rw [e] at hlt ⊢
      exact Nat.mul_le_mul_right _ (Nat.lt_of_mul_lt_mul_right hlt)
    have h2 : (((q + 1) * 2 ^ j : Nat) : ℝ) ≤ ((2 ^ 563 : Nat) : ℝ) := by exact_mod_cast h1
    rw [Nat.cast_mul, Nat.cast_add, Nat.cast_one, cast_two_pow, cast_two_pow] at h2
    linarith
  have hj0 : j = 0 → (2 : ℝ) ^ j = 1 := by
    intro h
    rw [h, pow_zero]
  have hint : q * 2 ^ j < 2 ^ 563 → (q : ℝ) * 2 ^ j + 1 ≤ 2 ^ 563 := by
    intro h
    have : ((q * 2 ^ j + 1 : Nat) : ℝ) ≤ ((2 ^ 563 : Nat) : ℝ) := by exact_mod_cast h
    rw [Nat.cast_add, Nat.cast_mul, Nat.cast_one, cast_two_pow, cast_two_pow] at this
    exact this
  apply isRound_above _ _ q j hsp hs
  have e : (↑(q * 2 ^ j * (q * 2 ^ j)) : ℝ) / 2 ^ 1074 * 2 ^ 1074 =
      (q : ℝ) * 2 ^ j * ((q : ℝ) * 2 ^ j) := by
    rw [div_mul_cancel₀ _ (ne_of_gt hT)]
    push_cast
    ring
  have hgg : (q : ℝ) * 2 ^ j * ((q : ℝ) * 2 ^ j) ≤ ((rG : ℝ) + 1 / 2) * 2 ^ 1074 := by
    have := mul_le_mul_of_nonneg_right hZ hT.le
    rw [e] at this
    exact this
  have hY0 : (0 : ℝ) ≤ Real.sqrt (((rG + 1 : Nat) : ℝ) * 2 ^ 1074) := Real.sqrt_nonneg _
  have hYY : Real.sqrt (((rG + 1 : Nat) : ℝ) * 2 ^ 1074) *
      Real.sqrt (((rG + 1 : Nat) : ℝ) * 2 ^ 1074) = ((rG + 1 : Nat) : ℝ) * 2 ^ 1074 :=
    Real.mul_self_sqrt (mul_nonneg (Nat.cast_nonneg _) hT.le)
  generalize Real.sqrt (((rG + 1 : Nat) : ℝ) * 2 ^ 1074) = Y at hY0 hYY
  push_cast at hYY
  generalize (2 : ℝ) ^ 1074 = T at hT hT2 hT3 hgg hYY
  generalize (2 : ℝ) ^ 563 = B at hT2 hT3 hB0 hg563 hnorm hint
  generalize (2 : ℝ) ^ 510 = A at hT2 hA1 hnorm
  generalize hPd : (2 : ℝ) ^ j = P at hP hg563 hnorm hint hgg hj0
  generalize (2 : ℝ) ^ 52 = C at hT3 h4
  generalize (q : ℝ) = qr at hq0 hg563 hnorm hint hgg
  generalize (rG : ℝ) = rr at h4 hgg hYY
  -- `g < 2 ^ 563`
  have hlt : qr * P < B := by
    by_contra hc
    have h1 := not_lt.1 hc
    have h2 : B * B ≤ qr * P * (qr * P) := mul_le_mul h1 h1 hB0.le (le_trans hB0.le h1)
    nlinarith
  have hltN := hg563 hlt
  have hsmall : qr * P * P + P * P / 4 < B * A := by
    by_cases hj : j = 0
    · rw [hj0 hj] at hlt ⊢
      have := hint hltN
      rw [hj0 hj] at this
      nlinarith
    · obtain ⟨hPA, hgP⟩ := hnorm hj hltN
      nlinarith [mul_le_mul_of_nonneg_right hgP hP.le, mul_le_mul_of_nonneg_left hPA hB0.le,
        mul_pos hP hP]
  -- compare the squares
  by_contra hc
  have hA : Y ≤ qr * P + P / 2 := not_lt.1 hc
  have hB := mul_self_le_mul_self hY0 hA
  rw [hYY] at hB
  nlinarith

/-- The pruning step on values: a computed distance that is at most a `double` `g` is at
most the computed root of the computed square of `g`. -/
theorem f64_sqrt_prune (S g : Nat) (hg : F64.Val g) (h : F64.sqrt S ≤ g) :
    F64.sqrt S ≤ F64.sqrt (F64.square g) := by
  by_cases hgi : F64.inf ≤ g
  · have e : F64.square g = F64.inf := by
      unfold F64.square
      rw [if_pos hgi]
    rw [e, f64_sqrt_inf _ (le_refl _)]
    exact f64_sqrt_le_inf S
  · have hsq : F64.square g = F64.round (g * g) 1074 := by
      unfold F64.square
      rw [if_neg hgi]
    obtain ⟨rG, hrG, eG⟩ := f64_round_spec (g * g) 1074
    by_cases hGi : F64.inf ≤ rG
    · rw [hsq, eG, min_eq_left hGi, f64_sqrt_inf _ (le_refl _)]
      exact f64_sqrt_le_inf S
    · rw [hsq, eG, min_eq_right (le_of_lt (not_le.1 hGi))]
      by_cases h52 : 2 ^ 52 ≤ rG
      · exact le_trans h (f64_sqrt_round_ge g rG hg.1 hrG (not_le.1 hGi) h52)
      · apply f64_sqrt_mono
        by_contra hS
        have h1 := f64_sqrt_mono (rG + 1) S (by omega)
        have h2 := f64_sqrt_succ_gt g rG hg.1 hrG (not_le.1 h52)
        omega

/-! ### The searches: what the pruning tests keep -/

theorem f64_absSub_self (a : Int) : F64.absSub a a = 0 := by
  unfold F64.absSub
  rw [sub_self]
  rfl

theorem distance_self (d : Nat) (p : Point Int) : distance d p p = 0 := by
  have h : ∀ l : List Nat, l.foldl (fun dist i =>
      F64.add dist (F64.square (F64.absSub (p.coord i) (p.coord i)))) 0 = 0 := by
    intro l
    induction l with
    | nil => rfl
    | cons x xs ih =>
      rw [List.foldl_cons, f64_absSub_self]
      exact ih
  unfold distance
  rw [h]
  rfl

theorem distance_nonneg (d : Nat) (p q : Point Int) : 0 ≤ distance d p q := by
  unfold distance
  exact Int.natCast_nonneg _

theorem doubleMax_pos : 0 < doubleMax := by decide

theorem f64_fold_ge (term : Nat → Nat) (hterm : ∀ i, F64.Val (term i)) :
    ∀ (l : List Nat) (init : Nat), F64.Val init →
      F64.Val (l.foldl (fun dist i => F64.add dist (term i)) init) ∧
      init ≤ l.foldl (fun dist i => F64.add dist (term i)) init ∧
      ∀ i ∈ l, term i ≤ l.foldl (fun dist i => F64.add dist (term i)) init := by
  intro l
  induction l with
  | nil =>
    intro init h
    exact ⟨h, le_refl _, fun i hi => by simp at hi⟩
  | cons a l ih =>
    intro init h
    obtain ⟨h1, h2, h3⟩ := ih (F64.add init (term a)) (f64_add_val _ _)
    simp only [List.foldl_cons]
    refine ⟨h1, le_trans (f64_le_add_left init (term a) h) h2, ?_⟩
    intro i hi
    rcases List.mem_cons.1 hi with rfl | hi
    · exact le_trans (f64_le_add_right init (term i) (hterm i)) h2
    · exact h3 i hi

theorem pruneOK_distance (d : Nat) (p q : Point Int) : F64.PruneOK (distance d p q) := by
  intro g hg h
  unfold distance at h ⊢
  exact_mod_cast f64_sqrt_prune _ g hg (by exact_mod_cast h)

theorem f64_square_doubleMax : F64.square (((1 <<< 53) - 1) <<< 2045) = F64.inf := by decide

theorem pruneOK_doubleMax : F64.PruneOK doubleMax := by
  intro g hg h
  unfold doubleMax at h ⊢
  have h1 : (((1 <<< 53) - 1) <<< 2045 : Nat) ≤ g := by exact_mod_cast h
  have h2 := f64_square_mono _ _ h1
  rw [f64_square_doubleMax] at h2
  have h3 : F64.square g = F64.inf := le_antisymm (f64_square_val g).2 h2
  rw [h3, f64_sqrt_inf _ (le_refl _)]
  exact_mod_cast le_trans h1 hg.2

/-- The pruning test is sound in `double`: a value the test may compare that is at most the
computed axis gap of a node is at most the computed distance of every point whose
coordinate on that axis is at least as far from the target as the node's. -/
theorem prune_sound (d : Nat) (target n q : Point Int) (i : Nat) (hi : i < d)
    (hax : abs (target.coord i - n.coord i) ≤ abs (target.coord i - q.coord i))
    (v : Int) (hv : F64.PruneOK v)
    (hle : v ≤ ((F64.absSub (target.coord i) (n.coord i) : Nat) : Int)) :
    v ≤ distance d q target := by
  have h1 := hv _ (f64_absSub_val _ _) hle
  refine le_trans h1 ?_
  unfold distance
  have h2 : F64.absSub (target.coord i) (n.coord i) ≤ F64.absSub (q.coord i) (target.coord i) := by
    unfold F64.absSub
    apply f64_round_mono
    rw [abs_sub_comm (target.coord i) (q.coord i)] at hax
    rw [Int.abs_eq_natAbs, Int.abs_eq_natAbs] at hax
    exact_mod_cast hax
  have h3 := f64_square_mono _ _ h2
  obtain ⟨_, _, h4⟩ := f64_fold_ge
    (fun i => F64.square (F64.absSub (q.coord i) (target.coord i)))
    (fun i => f64_square_val _) (List.range d) 0 val_zero
  have h5 := h4 i (List.mem_range.2 hi)
  exact_mod_cast f64_sqrt_mono _ _ (le_trans h3 h5)

/-- Under the weak partition property the axis gap of a node bounds the axis gap of every
point stored beyond it. -/
theorem weakInv_axisBound (d : Nat) (target : Point α) :
    ∀ (t : KDNode α) (depth : Nat), WeakInv d depth t → AxisBound d target depth t := by
  intro t
  induction t with
  | null => intro depth _; trivial
  | node p l r ihl ihr =>
    intro depth h
    obtain ⟨h1, h2, h3, h4⟩ := h
    refine ⟨?_, ihl _ h3, ihr _ h4⟩
    intro q hq
    by_cases hside : target.coord (depth % d) < p.coord (depth % d)
    · rw [if_pos hside] at hq
      have hq2 := h2 q hq
      rw [abs_of_nonpos (by linarith), abs_of_nonpos (by linarith)]
      linarith
    · rw [if_neg hside] at hq
      have hq1 := h1 q hq
      have hs := not_lt.1 hside
      rw [abs_of_nonneg (by linarith), abs_of_nonneg (by linarith)]
      linarith

/-- One node of a nearest-neighbour search, for any distance `dist`, any pruning value `A`
and any class `V` of values that holds the distances and the initial `bestDist`: `nearB`
and `farB` are the points for which the calls on the subtrees bound the best distance,
`nearM` and `farM` the points the calls can return. -/
theorem search_step {π β : Type} [LinearOrder β] (V : β → Prop) (dist : π → β) (p : π)
    (nearB farB nearM farM : π → Prop) (A : β)
    (nearF farF : Option π → β → Option π × β)
    (hV : ∀ x, V (dist x))
    (hnear : ∀ best bd, V bd → (nearF best bd).2 ≤ bd ∧
      (∀ q, nearB q → (nearF best bd).2 ≤ dist q) ∧
      (nearF best bd = (best, bd) ∨ ∃ x, nearM x ∧ (nearF best bd).1 = some x ∧
        (nearF best bd).2 = dist x ∧ (nearF best bd).2 < bd))
    (hfar : ∀ best bd, V bd → (farF best bd).2 ≤ bd ∧
      (∀ q, farB q → (farF best bd).2 ≤ dist q) ∧
      (farF best bd = (best, bd) ∨ ∃ x, farM x ∧ (farF best bd).1 = some x ∧
        (farF best bd).2 = dist x ∧ (farF best bd).2 < bd))
    (hb : ∀ v, V v → v ≤ A → ∀ q, farB q → v ≤ dist q)
    (best : Option π) (bd : β) (hbd : V bd) (upd res out : Option π × β)
    (hupd : upd = if dist p < bd then (some p, dist p) else (best, bd))
    (hres : res = nearF upd.1 upd.2)
    (hout : out = if A < res.2 then farF res.1 res.2 else res) :
    out.2 ≤ bd ∧ out.2 ≤ dist p ∧
    (∀ q, nearB q → out.2 ≤ dist q) ∧
    (∀ q, farB q → out.2 ≤ dist q) ∧
    (out = (best, bd) ∨
      ∃ x, (x = p ∨ nearM x ∨ farM x) ∧ out.1 = some x ∧ out.2 = dist x ∧ out.2 < bd) := by
  have u : upd.2 ≤ bd ∧ upd.2 ≤ dist p ∧ V upd.2 ∧
      (upd = (best, bd) ∨ (upd.1 = some p ∧ upd.2 = dist p ∧ upd.2 < bd)) := by
    by_cases h : dist p < bd
    · rw [hupd, if_pos h]
      exact ⟨le_of_lt h, le_refl _, hV p, Or.inr ⟨rfl, rfl, h⟩⟩
    · rw [hupd, if_neg h]
      exact ⟨le_refl _, not_lt.1 h, hbd, Or.inl rfl⟩
  obtain ⟨u1, u2, uV, u3⟩ := u
  obtain ⟨n1, n2, n3⟩ := hnear upd.1 upd.2 uV
  rw [← hres] at n1 n2 n3
  have rV : V res.2 := by
    rcases n3 with n3 | ⟨x, _, _, e2, _⟩
    · rw [n3]
      exact uV
    · rw [e2]
      exact hV x
  have r3 : res = (best, bd) ∨
      ∃ x, (x = p ∨ nearM x ∨ farM x) ∧ res.1 = some x ∧ res.2 = dist x ∧ res.2 < bd := by
    rcases n3 with n3 | ⟨x, hx, e1, e2, e3⟩
    · rcases u3 with u3 | ⟨e1, e2, e3⟩
      · left
        rw [n3, u3]
      · right
        refine ⟨p, Or.inl rfl, ?_, ?_, ?_⟩
        · rw [n3]; exact e1
        · rw [n3]; exact e2
        · rw [n3]; exact e3
    · right
      exact ⟨x, Or.inr (Or.inl hx), e1, e2, lt_of_lt_of_le e3 u1⟩
  by_cases ht : A < res.2
  · rw [if_pos ht] at hout
    obtain ⟨f1, f2, f3⟩ := hfar res.1 res.2 rV
    rw [← hout] at f1 f2 f3
    refine ⟨le_trans f1 (le_trans n1 u1), le_trans f1 (le_trans n1 u2),
      fun q hq => le_trans f1 (n2 q hq), f2, ?_⟩
    rcases f3 with f3 | ⟨x, hx, e1, e2, e3⟩
    · rw [f3]
      exact r3
    · right
      exact ⟨x, Or.inr (Or.inr hx), e1, e2, lt_of_lt_of_le e3 (le_trans n1 u1)⟩
  · rw [if_neg ht] at hout
    rw [hout]
    exact ⟨le_trans n1 u1, le_trans n1 u2, n2,
      fun q hq => hb res.2 rV (not_lt.1 ht) q hq, r3⟩

/-- The body of kdtree.cpp:64-84 in `double`, with `nearerSubtree` and `furtherSubtree` as
subtrees, as the source has them. -/
theorem findNearestNeighborUtil_node (d : Nat) (target p : Point Int) (l r : KDNode Int)
    (best : Option (Point Int)) (bd : Int) (depth : Nat) :
    findNearestNeighborUtil d target (.node p l r) best bd depth =
      (if ((F64.absSub (target.coord (depth % d)) (p.coord (depth % d)) : Nat) : Int) <
          (findNearestNeighborUtil d target
            (if target.coord (depth % d) < p.coord (depth % d) then l else r)
            (if distance d p target < bd then (some p, distance d p target)
              else (best, bd)).1
            (if distance d p target < bd then (some p, distance d p target)
              else (best, bd)).2
            (depth + 1)).2
        then
          findNearestNeighborUtil d target
            (if target.coord (depth % d) < p.coord (depth % d) then r else l)
            (findNearestNeighborUtil d target
              (if target.coord (depth % d) < p.coord (depth % d) then l else r)
              (if distance d p target < bd then (some p, distance d p target)
                else (best, bd)).1
              (if distance d p target < bd then (some p, distance d p target)
                else (best, bd)).2
              (depth + 1)).1
            (findNearestNeighborUtil d target
              (if target.coord (depth % d) < p.coord (depth % d) then l else r)
              (if distance d p target < bd then (some p, distance d p target)
                else (best, bd)).1
              (if distance d p target < bd then (some p, distance d p target)
                else (best, bd)).2
              (depth + 1)).2
            (depth + 1)
        else
          findNearestNeighborUtil d target
            (if target.coord (depth % d) < p.coord (depth % d) then l else r)
            (if distance d p target < bd then (some p, distance d p target)
              else (best, bd)).1
            (if distance d p target < bd then (some p, distance d p target)
              else (best, bd)).2
            (depth + 1)) := by
  by_cases hside : target.coord (depth % d) < p.coord (depth % d)
  · simp only [findNearestNeighborUtil, if_pos hside]
  · simp only [findNearestNeighborUtil, if_neg hside]


/-- One call of `findNearestNeighborUtil` in `double` on a tree with the weak partition
property, from a `bestDist` that is `DBL_MAX` or a computed distance: `bestDist` does not
grow, it ends at most the computed distance of every stored point, and `best` is unchanged
or a stored point whose computed distance is the new `bestDist`, below the old one. -/
theorem findNearestNeighborUtil_spec (d : Nat) (hd : 0 < d) (target : Point Int) :
    ∀ (t : KDNode Int) (depth : Nat), WeakInv d depth t →
      ∀ (best : Option (Point Int)) (bd : Int), F64.PruneOK bd →
        (findNearestNeighborUtil d target t best bd depth).2 ≤ bd ∧
        (∀ q, q ∈ t.toList →
          (findNearestNeighborUtil d target t best bd depth).2 ≤ distance d q target) ∧
        (findNearestNeighborUtil d target t best bd depth = (best, bd) ∨
          ∃ x, x ∈ t.toList ∧
            (findNearestNeighborUtil d target t best bd depth).1 = some x ∧
            (findNearestNeighborUtil d target t best bd depth).2 =
              distance d x target ∧
            (findNearestNeighborUtil d target t best bd depth).2 < bd) := by
  intro t
  induction t with
  | null =>
    intro depth _ best bd _
    simp [findNearestNeighborUtil, KDNode.toList]
  | node p l r ihl ihr =>
    intro depth hinv best bd hbd
    have hax := (weakInv_axisBound d target (.node p l r) depth hinv).1
    obtain ⟨_, _, h3, h4⟩ := hinv
    have hi : depth % d < d := Nat.mod_lt depth hd
    rw [findNearestNeighborUtil_node]
    by_cases hside : target.coord (depth % d) < p.coord (depth % d)
    · simp only [if_pos hside] at hax ⊢
      obtain ⟨o1, o2, o3, o4, o5⟩ := search_step F64.PruneOK
        (fun q => distance d q target) p
        (fun q => q ∈ l.toList) (fun q => q ∈ r.toList)
        (fun q => q ∈ l.toList) (fun q => q ∈ r.toList)
        ((F64.absSub (target.coord (depth % d)) (p.coord (depth % d)) : Nat) : Int)
        (fun b c => findNearestNeighborUtil d target l b c (depth + 1))
        (fun b c => findNearestNeighborUtil d target r b c (depth + 1))
        (fun x => pruneOK_distance d x target)
        (ihl _ h3) (ihr _ h4)
        (fun v hv hle q hq => prune_sound d target p q _ hi (hax q hq) v hv hle)
        best bd hbd _ _ _ rfl rfl rfl
      refine ⟨o1, ?_, ?_⟩
      · intro q hq
        simp only [KDNode.toList, List.mem_append, List.mem_cons] at hq
        rcases hq with hq | rfl | hq
        · exact o3 q hq
        · exact o2
        · exact o4 q hq
      · rcases o5 with o5 | ⟨x, hx, e⟩
        · exact Or.inl o5
        · refine Or.inr ⟨x, ?_, e⟩
          simp only [KDNode.toList, List.mem_append, List.mem_cons]
          tauto
    · simp only [if_neg hside] at hax ⊢
      obtain ⟨o1, o2, o3, o4, o5⟩ := search_step F64.PruneOK
        (fun q => distance d q target) p
        (fun q => q ∈ r.toList) (fun q => q ∈ l.toList)
        (fun q => q ∈ r.toList) (fun q => q ∈ l.toList)
        ((F64.absSub (target.coord (depth % d)) (p.coord (depth % d)) : Nat) : Int)
        (fun b c => findNearestNeighborUtil d target r b c (depth + 1))
        (fun b c => findNearestNeighborUtil d target l b c (depth + 1))
        (fun x => pruneOK_distance d x target)
        (ihr _ h4) (ihl _ h3)
        (fun v hv hle q hq => prune_sound d target p q _ hi (hax q hq) v hv hle)
        best bd hbd _ _ _ rfl rfl rfl
      refine ⟨o1, ?_, ?_⟩
      · intro q hq
        simp only [KDNode.toList, List.mem_append, List.mem_cons] at hq
        rcases hq with hq | rfl | hq
        · exact o4 q hq
        · exact o2
        · exact o3 q hq
      · rcases o5 with o5 | ⟨x, hx, e⟩
        · exact Or.inl o5
        · refine Or.inr ⟨x, ?_, e⟩
          simp only [KDNode.toList, List.mem_append, List.mem_cons]
          tauto

/-- Nearest-neighbour search in `double` on a tree with the weak partition property: when
some stored point has a computed distance below `DBL_MAX`, the result is a stored point of
least computed distance. -/
theorem findNearestNeighbor_of_weakInv (d : Nat) (hd : 0 < d) (target : Point Int)
    (t : KDNode Int) (hinv : WeakInv d 0 t)
    (hclose : ∃ q ∈ t.toList, distance d q target < doubleMax) :
    ∃ p, findNearestNeighbor d t target = .ok p ∧ p ∈ t.toList ∧
      ∀ q ∈ t.toList, distance d p target ≤ distance d q target := by
  obtain ⟨s1, s2, s3⟩ := findNearestNeighborUtil_spec d hd target t 0 hinv none
    doubleMax pruneOK_doubleMax
  obtain ⟨q, hq, hlt⟩ := hclose
  rcases s3 with s3 | ⟨x, hx, e1, e2, e3⟩
  · have := s2 q hq
    rw [s3] at this
    exact absurd hlt (not_lt.2 this)
  · refine ⟨x, ?_, hx, ?_⟩
    · unfold findNearestNeighbor
      rw [e1]
    · intro y hy
      rw [← e2]
      exact s2 y hy

/-- When no stored point has a computed distance below `DBL_MAX`, `best` stays null and the
final `nearest->point` is a null dereference. -/
theorem findNearestNeighbor_of_far (d : Nat) (hd : 0 < d) (target : Point Int)
    (t : KDNode Int) (hinv : WeakInv d 0 t)
    (hfar : ∀ q ∈ t.toList, doubleMax ≤ distance d q target) :
    findNearestNeighbor d t target = .error .nullDereference := by
  obtain ⟨s1, s2, s3⟩ := findNearestNeighborUtil_spec d hd target t 0 hinv none
    doubleMax pruneOK_doubleMax
  rcases s3 with s3 | ⟨x, hx, e1, e2, e3⟩
  · unfold findNearestNeighbor
    rw [s3]
  · have := hfar x hx
    rw [← e2] at this
    exact absurd e3 (not_lt.2 this)

/-- Nearest-neighbour search in `double` for a target that is stored in a tree with the
weak partition property: the result is a stored point at computed distance `0`. -/
theorem findNearestNeighbor_stored (d : Nat) (hd : 0 < d) (target : Point Int)
    (t : KDNode Int) (hinv : WeakInv d 0 t) (hmem : target ∈ t.toList) :
    ∃ p, findNearestNeighbor d t target = .ok p ∧ p ∈ t.toList ∧
      distance d p target = 0 := by
  obtain ⟨p, e, hp, hmin⟩ := findNearestNeighbor_of_weakInv d hd target t hinv
    ⟨target, hmem, by rw [distance_self]; exact doubleMax_pos⟩
  refine ⟨p, e, hp, le_antisymm ?_ (distance_nonneg d p target)⟩
  have := hmin target hmem
  rw [distance_self] at this
  exact this

/-- One offer to the bounded queue: push, then pop the largest when the size exceeds `k`. -/
theorem offer_spec (kU : Nat) (e : Entry α) (pq : List (Entry α))
    (hs : List.Sorted Entry.ge pq) (hl : pq.length ≤ kU) :
    ∃ D, Kept kU pq [e] (if (push e pq).length > kU then (push e pq).tail else push e pq) D ∧
      Bounded kU pq (if (push e pq).length > kU then (push e pq).tail else push e pq) D := by
  have hs1 : List.Sorted Entry.ge (push e pq) := List.Sorted.orderedInsert _ _ hs
  have hp1 : List.Perm (push e pq) (e :: pq) := List.perm_orderedInsert _ _ _
  have hl1 : (push e pq).length = pq.length + 1 := List.orderedInsert_length _ _ _
  generalize push e pq = pq1 at hs1 hp1 hl1
  by_cases hgt : pq1.length > kU
  · rw [if_pos hgt]
    cases pq1 with
    | nil => simp at hl1
    | cons h tl =>
      simp only [List.tail_cons]
      simp only [List.length_cons] at hl1 hgt
      refine ⟨[h], ⟨hs1.of_cons, ?_, ?_⟩, ?_, ?_⟩
      · simp only [List.length_singleton]
        omega
      · exact (List.perm_append_singleton h tl).trans
          (hp1.trans (List.perm_append_singleton _ pq).symm)
      · intro x hx y hy
        rw [List.mem_singleton.1 hx]
        exact sorted_head_max hs1 y (List.mem_cons_of_mem _ hy)
      · intro b _ hb y hy
        by_cases hmem : h ∈ pq
        · exact le_trans (sorted_head_max hs1 y (List.mem_cons_of_mem _ hy)) (hb h hmem)
        · have hh : h = e := by
            rcases List.mem_cons.1 (hp1.subset (List.mem_cons_self h tl)) with e1 | e1
            · exact e1
            · exact absurd e1 hmem
          rw [hh] at hp1
          exact hb y ((List.Perm.cons_inv hp1).subset hy)
  · rw [if_neg hgt]
    refine ⟨[], ⟨hs1, ?_, ?_⟩, ?_, ?_⟩
    · simp only [List.length_singleton]
      omega
    · simpa using hp1.trans (List.perm_append_singleton _ pq).symm
    · intro x hx
      simp at hx
    · intro b hb
      omega


/-- One node of a k-nearest-neighbour search, for any offered entry `e`, any pruning value
`A` and any class `V` of values that holds the distances of the entries. -/
theorem queue_step (kU : Nat) (hk : 1 ≤ kU) (V : α → Prop) (e : Entry α) (A : α)
    (nearF farF : List (Entry α) → Except Fault (List (Entry α)))
    (nearE farE : List (Entry α)) (nearOK farOK : Prop)
    (hn : ∀ pq : List (Entry α), List.Sorted Entry.ge pq → pq.length ≤ kU →
      ∃ pq2 D, nearF pq = .ok pq2 ∧ Kept kU pq nearE pq2 D ∧
        (nearOK → (∀ x ∈ pq, V x.dist) → Bounded kU pq pq2 D))
    (hf : ∀ pq : List (Entry α), List.Sorted Entry.ge pq → pq.length ≤ kU →
      ∃ pq2 D, farF pq = .ok pq2 ∧ Kept kU pq farE pq2 D ∧
        (farOK → (∀ x ∈ pq, V x.dist) → Bounded kU pq pq2 D))
    (hVe : V e.dist) (hVn : ∀ x ∈ nearE, V x.dist)
    (hb : farOK → ∀ v, V v → v ≤ A → ∀ x ∈ farE, v ≤ x.dist)
    (pq : List (Entry α)) (hs : List.Sorted Entry.ge pq) (hl : pq.length ≤ kU) :
    ∃ top rest pq2 D,
      nearF (if (push e pq).length > kU then (push e pq).tail else push e pq)
        = Except.ok (top :: rest) ∧
      (if A < top.dist ∨ (top :: rest).length < kU then farF (top :: rest)
        else Except.ok (top :: rest)) = Except.ok pq2 ∧
      Kept kU pq (e :: (nearE ++ farE)) pq2 D ∧
      (nearOK → farOK → (∀ x ∈ pq, V x.dist) → Bounded kU pq pq2 D) := by
  obtain ⟨D0, k0, b0⟩ := offer_spec kU e pq hs hl
  obtain ⟨pq1, D1, e1, k1, b1⟩ := hn _ k0.1 (kept_length_le k0)
  have hV0 : (∀ x ∈ pq, V x.dist) → ∀ x ∈ (if (push e pq).length > kU then (push e pq).tail
      else push e pq), V x.dist := by
    intro hVpq x hx
    rcases List.mem_append.1 (k0.2.2.subset (List.mem_append_left _ hx)) with h | h
    · exact hVpq x h
    · rw [List.mem_singleton.1 h]
      exact hVe
  have hV1 : (∀ x ∈ pq, V x.dist) → ∀ x ∈ pq1, V x.dist := by
    intro hVpq x hx
    rcases List.mem_append.1 (k1.2.2.subset (List.mem_append_left _ hx)) with h | h
    · exact hV0 hVpq x h
    · exact hVn x h
  cases pq1 with
  | nil =>
    exfalso
    have h0 := k0.2.1
    have h1 := k1.2.1
    simp only [List.length_nil, List.length_singleton] at h0 h1
    omega
  | cons top rest =>
    refine ⟨top, rest, ?_⟩
    by_cases ht : A < top.dist ∨ (top :: rest).length < kU
    · rw [if_pos ht]
      obtain ⟨pq2, D2, e2, k2, b2⟩ := hf _ k1.1 (kept_length_le k1)
      refine ⟨pq2, D2 ++ (D1 ++ D0), e1, e2, ?_, ?_⟩
      · simpa using kept_trans (kept_trans k0 k1) k2
      · intro h1 h2 hVpq
        exact bounded_trans (kept_trans k0 k1) (bounded_trans k0 b0 (b1 h1 (hV0 hVpq)))
          (b2 h2 (hV1 hVpq))
    · rw [if_neg ht]
      have hlen : (top :: rest).length = kU := by
        have := kept_length_le k1
        have := not_lt.1 (fun h => ht (Or.inr h))
        omega
      have hA : top.dist ≤ A := not_lt.1 (fun h => ht (Or.inl h))
      refine ⟨top :: rest, farE ++ (D1 ++ D0), e1, rfl, ?_, ?_⟩
      · simpa using kept_trans (kept_trans k0 k1) (kept_skip _ _ farE k1.1 hlen)
      · intro h1 h2 hVpq
        refine bounded_trans (kept_trans k0 k1) (bounded_trans k0 b0 (b1 h1 (hV0 hVpq)))
          (bounded_skip _ _ _ ?_)
        intro x hx y hy
        exact le_trans (sorted_head_max k1.1 y hy)
          (hb h2 top.dist (hV1 hVpq top (List.mem_cons_self _ _)) hA x hx)

/-- The body of kdtree.cpp:120-136 in `double`, with `nearerSubtree` and `furtherSubtree`
as subtrees, as the source has them. -/
theorem traverse_node (w d : Nat) (addr : Nat → Nat) (target : Point Int) (k : Int)
    (p : Point Int) (l r : KDNode Int) (depth pos : Nat) (pq : List (Entry Int)) :
    traverse w d addr target k (.node p l r) depth pos pq =
      match traverse w d addr target k
          (if target.coord (depth % d) < p.coord (depth % d) then l else r) (depth + 1)
          (if target.coord (depth % d) < p.coord (depth % d) then 2 * pos else 2 * pos + 1)
          (if (push ⟨distance d p target, addr pos, p⟩ pq).length > toSizeT w k
            then (push ⟨distance d p target, addr pos, p⟩ pq).tail
            else push ⟨distance d p target, addr pos, p⟩ pq) with
      | .error f => .error f
      | .ok pq1 =>
        match pq1 with
        | [] => .error .emptyQueueTop
        | top :: _ =>
          if ((F64.absSub (target.coord (depth % d)) (p.coord (depth % d)) : Nat) : Int)
                < top.dist ∨ pq1.length < toSizeT w k then
            traverse w d addr target k
              (if target.coord (depth % d) < p.coord (depth % d) then r else l) (depth + 1)
              (if target.coord (depth % d) < p.coord (depth % d) then 2 * pos + 1 else 2 * pos)
              pq1
          else .ok pq1 := by
  by_cases hside : target.coord (depth % d) < p.coord (depth % d)
  · simp only [traverse, insertIntoQueue, if_pos hside]
  · simp only [traverse, insertIntoQueue, if_neg hside]

theorem entries_spec (d : Nat) (addr : Nat → Nat) (target : Point Int) :
    ∀ (t : KDNode Int) (pos : Nat), ∀ x ∈ entries d addr target t pos,
      x.dist = distance d x.point target ∧ x.point ∈ t.toList := by
  intro t
  induction t with
  | null => intro pos x hx; simp [entries] at hx
  | node p l r ihl ihr =>
    intro pos x hx
    simp only [entries, List.mem_cons, List.mem_append] at hx
    simp only [KDNode.toList, List.mem_append, List.mem_cons]
    rcases hx with rfl | hx | hx
    · exact ⟨rfl, Or.inr (Or.inl rfl)⟩
    · exact ⟨(ihl _ x hx).1, Or.inl (ihl _ x hx).2⟩
    · exact ⟨(ihr _ x hx).1, Or.inr (Or.inr (ihr _ x hx).2)⟩

theorem entries_map_point (d : Nat) (addr : Nat → Nat) (target : Point Int) :
    ∀ (t : KDNode Int) (pos : Nat),
      List.Perm ((entries d addr target t pos).map Entry.point) t.toList := by
  intro t
  induction t with
  | null => intro pos; simp [entries, KDNode.toList]
  | node p l r ihl ihr =>
    intro pos
    simp only [entries, KDNode.toList, List.map_cons, List.map_append]
    exact (List.perm_middle.symm).trans (List.Perm.append (ihl _) ((ihr _).cons p))

theorem entries_length (d : Nat) (addr : Nat → Nat) (target : Point Int) :
    ∀ (t : KDNode Int) (pos : Nat), (entries d addr target t pos).length = t.size := by
  intro t
  induction t with
  | null => intro pos; rfl
  | node p l r ihl ihr =>
    intro pos
    simp only [entries, KDNode.size, List.length_cons, List.length_append, ihl, ihr]
    omega


/-- One call of `traverse` in `double` when the converted `k` is at least one: it returns,
the queue holds the `k` largest-first smallest of what it held and what was offered, and on
a tree with the weak partition property, from a queue of computed distances, nothing
dropped has a smaller computed distance than anything kept. -/
theorem traverse_spec (w d : Nat) (hd : 0 < d) (addr : Nat → Nat) (target : Point Int)
    (k : Int) (hk : 1 ≤ toSizeT w k) :
    ∀ (t : KDNode Int) (depth pos : Nat) (pq : List (Entry Int)),
      List.Sorted Entry.ge pq → pq.length ≤ toSizeT w k →
      ∃ pq2 D, traverse w d addr target k t depth pos pq = .ok pq2 ∧
        Kept (toSizeT w k) pq (entries d addr target t pos) pq2 D ∧
        (WeakInv d depth t → (∀ x ∈ pq, F64.PruneOK x.dist) →
          Bounded (toSizeT w k) pq pq2 D) := by
  intro t
  induction t with
  | null =>
    intro depth pos pq hs hl
    exact ⟨pq, [], rfl, kept_refl _ _ hs hl, fun _ _ => ⟨by simp, fun _ _ h => h⟩⟩
  | node p l r ihl ihr =>
    intro depth pos pq hs hl
    have hi : depth % d < d := Nat.mod_lt depth hd
    have hVE : ∀ (t : KDNode Int) (pos : Nat), ∀ x ∈ entries d addr target t pos,
        F64.PruneOK x.dist := by
      intro t pos x hx
      rw [(entries_spec d addr target t pos x hx).1]
      exact pruneOK_distance d _ _
    rw [traverse_node]
    by_cases hside : target.coord (depth % d) < p.coord (depth % d)
    · simp only [if_pos hside]
      obtain ⟨top, rest, pq2, D, e0, e, kp, bd⟩ := queue_step (toSizeT w k) hk F64.PruneOK
        ⟨distance d p target, addr pos, p⟩
        ((F64.absSub (target.coord (depth % d)) (p.coord (depth % d)) : Nat) : Int)
        (traverse w d addr target k l (depth + 1) (2 * pos))
        (traverse w d addr target k r (depth + 1) (2 * pos + 1))
        (entries d addr target l (2 * pos)) (entries d addr target r (2 * pos + 1))
        (WeakInv d depth (.node p l r)) (WeakInv d depth (.node p l r))
        (fun pq h1 h2 => by
          obtain ⟨a, b, c, e, f⟩ := ihl (depth + 1) (2 * pos) pq h1 h2
          exact ⟨a, b, c, e, fun h => f h.2.2.1⟩)
        (fun pq h1 h2 => by
          obtain ⟨a, b, c, e, f⟩ := ihr (depth + 1) (2 * pos + 1) pq h1 h2
          exact ⟨a, b, c, e, fun h => f h.2.2.2⟩)
        (pruneOK_distance d p target) (hVE l _)
        (fun h v hv hle x hx => by
          obtain ⟨e1, e2⟩ := entries_spec d addr target r _ x hx
          rw [e1]
          have hax := (weakInv_axisBound d target (.node p l r) depth h).1
          rw [if_pos hside] at hax
          exact prune_sound d target p x.point _ hi (hax _ e2) v hv hle)
        pq hs hl
      rw [e0]
      exact ⟨pq2, D, e, kp, fun h => bd h h⟩
    · simp only [if_neg hside]
      obtain ⟨top, rest, pq2, D, e0, e, kp, bd⟩ := queue_step (toSizeT w k) hk F64.PruneOK
        ⟨distance d p target, addr pos, p⟩
        ((F64.absSub (target.coord (depth % d)) (p.coord (depth % d)) : Nat) : Int)
        (traverse w d addr target k r (depth + 1) (2 * pos + 1))
        (traverse w d addr target k l (depth + 1) (2 * pos))
        (entries d addr target r (2 * pos + 1)) (entries d addr target l (2 * pos))
        (WeakInv d depth (.node p l r)) (WeakInv d depth (.node p l r))
        (fun pq h1 h2 => by
          obtain ⟨a, b, c, e, f⟩ := ihr (depth + 1) (2 * pos + 1) pq h1 h2
          exact ⟨a, b, c, e, fun h => f h.2.2.2⟩)
        (fun pq h1 h2 => by
          obtain ⟨a, b, c, e, f⟩ := ihl (depth + 1) (2 * pos) pq h1 h2
          exact ⟨a, b, c, e, fun h => f h.2.2.1⟩)
        (pruneOK_distance d p target) (hVE r _)
        (fun h v hv hle x hx => by
          obtain ⟨e1, e2⟩ := entries_spec d addr target l _ x hx
          rw [e1]
          have hax := (weakInv_axisBound d target (.node p l r) depth h).1
          rw [if_neg hside] at hax
          exact prune_sound d target p x.point _ hi (hax _ e2) v hv hle)
        pq hs hl
      rw [e0]
      refine ⟨pq2, D, e, kept_congr kp ?_, fun h => bd h h⟩
      simp only [entries]
      exact List.Perm.cons _ List.perm_append_comm

/-- The whole of `findKNearestNeighbors` in `double` when the converted `k` is at least
one: it returns `res`, the remaining stored points are `rest`, `res` has `min k n` points in
ascending computed distance, and on a tree with the weak partition property no point of
`rest` has a smaller computed distance than a point of `res`. -/
theorem findKNearestNeighbors_spec (w d : Nat) (hd : 0 < d) (addr : Nat → Nat)
    (root : KDNode Int) (target : Point Int) (k : Int) (hk : 1 ≤ toSizeT w k) :
    ∃ res rest, findKNearestNeighbors w d addr root target k = .ok res ∧
      res.length = min (toSizeT w k) root.size ∧
      List.Sorted (fun a b => distance d a target ≤ distance d b target) res ∧
      List.Perm (res ++ rest) root.toList ∧
      (WeakInv d 0 root →
        ∀ p ∈ res, ∀ q ∈ rest, distance d p target ≤ distance d q target) := by
  obtain ⟨pq2, D, e, kp, bd⟩ := traverse_spec w d hd addr target k hk root 0 1 []
    List.sorted_nil (Nat.zero_le _)
  obtain ⟨hs, hl, hp⟩ := kp
  simp only [List.nil_append, List.length_nil, Nat.zero_add] at hl hp
  have hdist : ∀ x ∈ pq2 ++ D, x.dist = distance d x.point target := fun x hx =>
    (entries_spec d addr target root 1 x (hp.subset hx)).1
  refine ⟨(pq2.map Entry.point).reverse, D.map Entry.point, ?_, ?_, ?_, ?_, ?_⟩
  · unfold findKNearestNeighbors
    rw [e]
  · rw [List.length_reverse, List.length_map, hl, entries_length]
  · unfold List.Sorted
    rw [List.pairwise_reverse, List.pairwise_map]
    refine List.Pairwise.imp_of_mem ?_ hs
    intro a b ha hb hab
    rw [← hdist a (List.mem_append_left _ ha), ← hdist b (List.mem_append_left _ hb)]
    exact Entry.dist_le_of_ge hab
  · refine ((List.reverse_perm _).append_right _).trans ?_
    rw [← List.map_append]
    exact (hp.map Entry.point).trans (entries_map_point d addr target root 1)
  · intro hinv p hp1 q hq1
    obtain ⟨x, hx, rfl⟩ := List.mem_map.1 (List.mem_reverse.1 hp1)
    obtain ⟨y, hy, rfl⟩ := List.mem_map.1 hq1
    rw [← hdist x (List.mem_append_left _ hx), ← hdist y (List.mem_append_right _ hy)]
    exact (bd hinv (fun x hx => by simp at hx)).1 y hy x hx

/-- A split of a list into a front part sorted by `f` and a rest that is nowhere smaller
gives, under `f`, the first values of the sorted list of all the values. -/
theorem sorted_split_take {π β : Type} [LinearOrder β] (f : π → β) (n : Nat)
    (pts res rest : List π) (hperm : List.Perm (res ++ rest) pts)
    (hsorted : List.Sorted (fun a b => f a ≤ f b) res)
    (hle : ∀ p ∈ res, ∀ q ∈ rest, f p ≤ f q)
    (hlen : res.length = min n pts.length) :
    res.map f = ((pts.map f).insertionSort (· ≤ ·)).take n := by
  have hL : List.Sorted (· ≤ ·) (res.map f) := by
    unfold List.Sorted
    rw [List.pairwise_map]
    exact hsorted
  have hS : List.Sorted (· ≤ ·) (res.map f ++ (rest.map f).insertionSort (· ≤ ·)) := by
    unfold List.Sorted
    rw [List.pairwise_append]
    refine ⟨hL, List.sorted_insertionSort _ _, ?_⟩
    intro a ha b hb
    obtain ⟨p, hp, rfl⟩ := List.mem_map.1 ha
    obtain ⟨q, hq, rfl⟩ := List.mem_map.1 ((List.perm_insertionSort _ _).subset hb)
    exact hle p hp q hq
  have hP : List.Perm ((pts.map f).insertionSort (· ≤ ·))
      (res.map f ++ (rest.map f).insertionSort (· ≤ ·)) := by
    refine (List.perm_insertionSort _ _).trans ?_
    refine (hperm.map _).symm.trans ?_
    rw [List.map_append]
    exact List.Perm.append_left _ (List.perm_insertionSort _ _).symm
  rw [List.eq_of_perm_of_sorted hP (List.sorted_insertionSort _ _) hS]
  have hlen2 := hperm.length_eq
  rw [List.length_append] at hlen2
  by_cases hn : n ≤ pts.length
  · have hn2 : n = (res.map f).length := by
      rw [List.length_map]
      omega
    rw [hn2]
    exact (List.take_left _ _).symm
  · have hrest : rest = [] := List.length_eq_zero.1 (by omega)
    subst hrest
    simp only [List.map_nil, List.insertionSort, List.append_nil]
    rw [List.take_of_length_le]
    rw [List.length_map]
    omega


/-- The k-nearest-neighbour search in `double` for a target that is stored in a tree with
the weak partition property, when the converted `k` is at least one: the first point
returned is at computed distance `0`. -/
theorem findKNearestNeighbors_stored (w d : Nat) (hd : 0 < d) (addr : Nat → Nat)
    (t : KDNode Int) (target : Point Int) (k : Int) (hk : 1 ≤ toSizeT w k)
    (hinv : WeakInv d 0 t) (hmem : target ∈ t.toList) :
    ∃ p rest, findKNearestNeighbors w d addr t target k = .ok (p :: rest) ∧
      distance d p target = 0 := by
  obtain ⟨res, rest, e, hl, hs, hp, hb⟩ := findKNearestNeighbors_spec w d hd addr t
    target k hk
  have hsz : 1 ≤ t.size := by
    rw [size_eq_length_toList]
    exact List.length_pos_of_mem hmem
  cases res with
  | nil =>
    simp only [List.length_nil] at hl
    omega
  | cons q qs =>
    refine ⟨q, qs, e, le_antisymm ?_ (distance_nonneg d q target)⟩
    rw [← distance_self d target]
    rcases List.mem_append.1 (hp.symm.subset hmem) with h | h
    · rcases List.mem_cons.1 h with h | h
      · rw [h]
      · exact List.rel_of_sorted_cons hs _ h
    · exact hb hinv q (List.mem_cons_self _ _) target h

/-- In `double`, on a tree with the weak partition property and some stored point at a
computed distance below `DBL_MAX`, `findKNearestNeighbors` with `k = 1` returns one point,
at the computed distance of the point `findNearestNeighbor` returns. -/
theorem nearest_and_one_nearest_agree (w d : Nat) (hd : 0 < d) (hw : 0 < w)
    (addr : Nat → Nat) (t : KDNode Int) (target : Point Int) (hinv : WeakInv d 0 t)
    (hclose : ∃ q ∈ t.toList, distance d q target < doubleMax) :
    ∃ p1 p2, findKNearestNeighbors w d addr t target 1 = .ok [p1] ∧
      findNearestNeighbor d t target = .ok p2 ∧
      distance d p1 target = distance d p2 target := by
  have h1 : (1 : Int) < 2 ^ w := by
    have : (2 : Int) ^ 1 ≤ 2 ^ w := pow_le_pow_right₀ (by norm_num) hw
    omega
  have hU : toSizeT w 1 = 1 := by
    rw [toSizeT_of_nonneg w 1 (by norm_num) h1]
    rfl
  obtain ⟨p2, e2, hp2, hmin2⟩ := findNearestNeighbor_of_weakInv d hd target t hinv hclose
  obtain ⟨res, rest, e, hl, _, hp, hb⟩ := findKNearestNeighbors_spec w d hd addr t
    target 1 (by omega)
  have hb2 := hb hinv
  have hsz : 1 ≤ t.size := by
    rw [size_eq_length_toList]
    exact List.length_pos_of_mem hp2
  rw [hU, min_eq_left hsz] at hl
  obtain ⟨p1, rfl⟩ := List.length_eq_one.1 hl
  refine ⟨p1, p2, e, e2, le_antisymm ?_ ?_⟩
  · rcases List.mem_append.1 (hp.symm.subset hp2) with h | h
    · rw [List.mem_singleton.1 h]
    · exact hb2 p1 (List.mem_singleton_self _) p2 h
  · exact hmin2 p1 (hp.subset (List.mem_append_left _ (List.mem_singleton_self _)))

/-! ### The size of the queue -/

theorem insertIntoQueue_length (w d : Nat) (target : Point Int) (k : Int) (a : Nat)
    (p : Point Int) (pq : List (Entry Int)) :
    (insertIntoQueue w d target k a p pq).length =
      if pq.length + 1 > toSizeT w k then pq.length else pq.length + 1 := by
  unfold insertIntoQueue push
  simp only [List.orderedInsert_length]
  split <;> simp [List.orderedInsert_length]

/-- In `double` too, with `k = 0` the first `pq.top()` is read on an empty queue. -/
theorem traverse_zero (w d : Nat) (addr : Nat → Nat) (target : Point Int) (k : Int)
    (hk : toSizeT w k = 0) :
    ∀ (t : KDNode Int) (depth pos : Nat), t ≠ .null →
      traverse w d addr target k t depth pos [] = .error .emptyQueueTop := by
  have hq : ∀ (a : Nat) (p : Point Int),
      (if (push ⟨distance d p target, a, p⟩ ([] : List (Entry Int))).length > toSizeT w k
        then (push ⟨distance d p target, a, p⟩ []).tail
        else push ⟨distance d p target, a, p⟩ []) = [] := by
    intro a p
    have h := insertIntoQueue_length w d target k a p []
    unfold insertIntoQueue at h
    apply List.length_eq_zero.1
    rw [h, hk]
    simp
  intro t
  induction t with
  | null => intro _ _ h; exact absurd rfl h
  | node p l r ihl ihr =>
    intro depth pos _
    rw [traverse_node, hq]
    by_cases hside : target.coord (depth % d) < p.coord (depth % d)
    · simp only [if_pos hside]
      cases l with
      | null => rfl
      | node q l2 r2 => rw [ihl _ _ (by simp)]
    · simp only [if_neg hside]
      cases r with
      | null => rfl
      | node q l2 r2 => rw [ihr _ _ (by simp)]

/-- The `double` `2.0` in units of `2 ^ (-1074)`. -/
theorem f64_dbl_two : (F64.dbl 2 0).toNat = 2 * 2 ^ 1074 := by
  unfold F64.dbl
  rw [show ((0 : Int) + 1074).toNat = 1074 from rfl]
  generalize 1074 = e
  rw [Nat.shiftLeft_eq, one_mul]
  exact Int.toNat_ofNat (2 * 2 ^ e)

/-! ### Rounding, overflow and ties on concrete inputs -/

/-- The order of the computed distances is not the order of the distances in exact
arithmetic: from `(0, 0)` the `double`s nearest to `(2.3, 4.4)` are at a computed distance
below that of the `double`s nearest to `(1.6, 4.7)`, and the exact sum of their squares is
the greater.  On the tree of these two points `findKNearestNeighbors` with `k = 1` returns
`(2.3, 4.4)`, the point of least computed distance. -/
theorem distance_order :
    F64.AllDouble [⟨[F64.dbl 7205759403792794 (-52), F64.dbl 5291729562160333 (-50)]⟩,
      ⟨[F64.dbl 5179139571476070 (-51), F64.dbl 4953959590107546 (-50)]⟩] ∧
    distance 2 ⟨[F64.dbl 5179139571476070 (-51), F64.dbl 4953959590107546 (-50)]⟩
        ⟨[0, 0]⟩ <
      distance 2 ⟨[F64.dbl 7205759403792794 (-52), F64.dbl 5291729562160333 (-50)]⟩
        ⟨[0, 0]⟩ ∧
    F64.dbl 7205759403792794 (-52) * F64.dbl 7205759403792794 (-52) +
        F64.dbl 5291729562160333 (-50) * F64.dbl 5291729562160333 (-50) <
      F64.dbl 5179139571476070 (-51) * F64.dbl 5179139571476070 (-51) +
        F64.dbl 4953959590107546 (-50) * F64.dbl 4953959590107546 (-50) ∧
    findKNearestNeighbors 64 2 (fun pos => pos)
        (build stdSort 2
          [⟨[F64.dbl 7205759403792794 (-52), F64.dbl 5291729562160333 (-50)]⟩,
            ⟨[F64.dbl 5179139571476070 (-51), F64.dbl 4953959590107546 (-50)]⟩])
        ⟨[0, 0]⟩ 1 =
      .ok [⟨[F64.dbl 5179139571476070 (-51), F64.dbl 4953959590107546 (-50)]⟩] :=
  ⟨by decide, by decide, by decide, rfl⟩

/-- Overflow in the distance: on the tree of the one point `(2 ^ 512)` with target `(0)` the
square of the difference overflows, the computed distance is `+inf`, and
`findNearestNeighbor` dereferences the null `best`, though the exact distance is far below
`DBL_MAX`; the k-nearest search with `k = 1` returns the point. -/
theorem findNearestNeighbor_overflow :
    F64.IsDouble (F64.dbl 1 512) ∧
    distance 1 ⟨[F64.dbl 1 512]⟩ ⟨[0]⟩ = F64.inf ∧
    findNearestNeighbor 1 (build stdSort 1 [⟨[F64.dbl 1 512]⟩]) ⟨[0]⟩ =
      .error .nullDereference ∧
    findKNearestNeighbors 64 1 (fun pos => pos) (build stdSort 1 [⟨[F64.dbl 1 512]⟩]) ⟨[0]⟩ 1 =
      .ok [⟨[F64.dbl 1 512]⟩] :=
  ⟨by decide, by decide, rfl, rfl⟩

/-- Ties in the computed distance: from `(0, 0)` the points `(1, 0)` and `(1, 2 ^ (-30))`
are both at the computed distance `1.0`; the searches return `(1, 2 ^ (-30))`, the root of
the built tree, first. -/
theorem distance_tie :
    distance 2 ⟨[F64.dbl 1 0, F64.dbl 1 (-30)]⟩ ⟨[0, 0]⟩ =
      distance 2 ⟨[F64.dbl 1 0, 0]⟩ ⟨[0, 0]⟩ ∧
    findNearestNeighbor 2
        (build stdSort 2 [⟨[F64.dbl 1 0, 0]⟩, ⟨[F64.dbl 1 0, F64.dbl 1 (-30)]⟩]) ⟨[0, 0]⟩ =
      .ok ⟨[F64.dbl 1 0, F64.dbl 1 (-30)]⟩ ∧
    findKNearestNeighbors 64 2 (fun pos => pos)
        (build stdSort 2 [⟨[F64.dbl 1 0, 0]⟩, ⟨[F64.dbl 1 0, F64.dbl 1 (-30)]⟩]) ⟨[0, 0]⟩ 1 =
      .ok [⟨[F64.dbl 1 0, F64.dbl 1 (-30)]⟩] :=
  ⟨by decide, rfl, rfl⟩

/-! ## The claims -/

/-- C1 (code defect). The claim asks for the nearest stored point on every non-empty tree.
On the one-point tree holding `(doubleMax)` with target `(-doubleMax)` the distance
(`2 * doubleMax` as an exact real, `+inf` as the source computes it) is not below the
initial `bestDist = doubleMax`, so `best` stays null and `findNearestNeighbor` dereferences
it; `findKNearestNeighbors` with `k = 1` returns the point on the same input.
(`findNearestNeighbor_of_weakInv` proves that the point returned is a stored point of least
computed distance whenever some stored point is at a computed distance below `doubleMax`.) -/
theorem findNearestNeighbor_far_point_faults :
    (buildThenInsert stdSort 1 [(⟨[doubleMax]⟩ : Point ℤ)] []).toList = [⟨[doubleMax]⟩] ∧
    findNearestNeighbor 1 (buildThenInsert stdSort 1 [(⟨[doubleMax]⟩ : Point ℤ)] [])
      ⟨[-doubleMax]⟩ = .error .nullDereference ∧
    findKNearestNeighbors 64 1 (fun pos => pos)
      (buildThenInsert stdSort 1 [(⟨[doubleMax]⟩ : Point ℤ)] []) ⟨[-doubleMax]⟩ 1 =
        .ok [⟨[doubleMax]⟩] :=
  ⟨rfl, rfl, rfl⟩

/-- C2. In the arithmetic of the source, `distance` being the value `KDTree::distance`
computes in `double`: for `dimensions ≥ 1`, a tree built and then inserted into and `k ≥ 1`
(`k < 2 ^ w` holds for every `int` once `size_t` has 31 bits or more),
`findKNearestNeighbors` returns a list `res` that together with the remaining stored points
`rest` is exactly the stored multiset (so no node is returned twice), no point of `rest`
has a smaller distance to the target than a point of `res`, and the distances of `res` are
the `k` smallest distances of a brute-force scan. -/
theorem findKNearestNeighbors_k_smallest_computed
    (sort : Nat → List (Point ℤ) → List (Point ℤ)) (hsort : IsSort sort) (w d : Nat)
    (hd : 0 < d) (addr : Nat → Nat) (points inserted : List (Point ℤ)) (target : Point ℤ)
    (k : Int) (hk : 1 ≤ k) (hkw : k < 2 ^ w) :
    ∃ res rest,
      findKNearestNeighbors w d addr (buildThenInsert sort d points inserted) target k
        = .ok res ∧
      List.Perm (res ++ rest) (points ++ inserted) ∧
      (∀ p ∈ res, ∀ q ∈ rest, distance d p target ≤ distance d q target) ∧
      res.map (fun p => distance d p target) =
        bruteForceKDistances d (points ++ inserted) target k.toNat := by
  have hU : toSizeT w k = k.toNat := toSizeT_of_nonneg w k (by omega) hkw
  have hperm := buildThenInsert_toList sort hsort d points inserted
  obtain ⟨res, rest, e, hl, hs, hp, hb⟩ := findKNearestNeighbors_spec w d hd addr
    (buildThenInsert sort d points inserted) target k (by omega)
  have hb2 := hb (buildThenInsert_weakInv sort hsort d points inserted)
  have hlen : res.length = min k.toNat (points ++ inserted).length := by
    rw [hl, hU, size_eq_length_toList, hperm.length_eq]
  exact ⟨res, rest, e, hp.trans hperm, hb2,
    sorted_split_take (fun p => distance d p target) k.toNat
      (points ++ inserted) res rest (hp.trans hperm) hs hb2 hlen⟩

/-- C2, the example of the spec in `double`: the six-point tree, target `(9, 2)`, `k = 3`. -/
theorem findKNearestNeighbors_k_smallest_computed_witness :
    findKNearestNeighbors 64 2 (fun pos => pos)
        (buildThenInsert stdSort 2 (examplePoints.map F64.ofInt) [])
        (F64.ofInt exampleTarget) 3 =
      .ok [F64.ofInt ⟨[8, 1]⟩, F64.ofInt ⟨[7, 2]⟩, F64.ofInt ⟨[9, 6]⟩] ∧
    ∃ res rest,
      findKNearestNeighbors 64 2 (fun pos => pos)
        (buildThenInsert stdSort 2 (examplePoints.map F64.ofInt) [])
        (F64.ofInt exampleTarget) 3 = .ok res ∧
      List.Perm (res ++ rest) (examplePoints.map F64.ofInt ++ []) ∧
      (∀ p ∈ res, ∀ q ∈ rest, distance 2 p (F64.ofInt exampleTarget) ≤
        distance 2 q (F64.ofInt exampleTarget)) ∧
      res.map (fun p => distance 2 p (F64.ofInt exampleTarget)) =
        bruteForceKDistances 2 (examplePoints.map F64.ofInt ++ [])
          (F64.ofInt exampleTarget) (3 : Int).toNat :=
  ⟨rfl, findKNearestNeighbors_k_smallest_computed stdSort stdSort_isSort 64 2 (by decide)
    (fun pos => pos) (examplePoints.map F64.ofInt) [] (F64.ofInt exampleTarget) 3
    (by decide) (by decide)⟩

/-- C3. For every tree, target and `k ≥ 1` (an `int`, so below `2 ^ w` for the width `w`
of `size_t`), `findKNearestNeighbors` returns exactly
`min k n` points, `n` the number of stored points: all the stored points when `k ≥ n`,
and the empty list on the empty tree. -/
theorem findKNearestNeighbors_length (w d : Nat) (hd : 0 < d) (addr : Nat → Nat)
    (t : KDNode ℤ) (target : Point ℤ) (k : Int) (hk : 1 ≤ k) (hkw : k < 2 ^ w) :
    ∃ res, findKNearestNeighbors w d addr t target k = .ok res ∧
      res.length = min k.toNat t.size ∧
      (t.size ≤ k.toNat → List.Perm res t.toList) ∧
      (t = .null → res = []) := by
  have hU : toSizeT w k = k.toNat := toSizeT_of_nonneg w k (by omega) hkw
  obtain ⟨res, rest, e, hl, _, hp, _⟩ := findKNearestNeighbors_spec w d hd addr t target k
    (by omega)
  rw [hU] at hl
  refine ⟨res, e, hl, ?_, ?_⟩
  · intro hle
    have h1 := hp.length_eq
    rw [List.length_append, ← size_eq_length_toList] at h1
    have hrest : rest = [] := List.length_eq_zero.1 (by omega)
    subst hrest
    simpa using hp
  · intro ht
    subst ht
    apply List.length_eq_zero.1
    rw [hl]
    simp [KDNode.size]

/-- C3 on the example of the spec with `k = 10`: all six points are returned. -/
theorem findKNearestNeighbors_length_witness :
    ∃ res, findKNearestNeighbors 64 2 (fun pos => pos)
        (build stdSort 2 (examplePoints.map F64.ofInt)) (F64.ofInt exampleTarget) 10 = .ok res ∧
      res.length = min (10 : Int).toNat (build stdSort 2 (examplePoints.map F64.ofInt)).size ∧
      ((build stdSort 2 (examplePoints.map F64.ofInt)).size ≤ (10 : Int).toNat →
        List.Perm res (build stdSort 2 (examplePoints.map F64.ofInt)).toList) ∧
      ((build stdSort 2 (examplePoints.map F64.ofInt)) = .null → res = []) :=
  findKNearestNeighbors_length 64 2 (by decide) (fun pos => pos)
    (build stdSort 2 (examplePoints.map F64.ofInt)) (F64.ofInt exampleTarget) 10 (by decide) (by decide)

/-- C4. For every tree, target and `k ≥ 1` (an `int`, so below `2 ^ w` for the width `w`
of `size_t`), the list returned by `findKNearestNeighbors` is in non-decreasing order of
`distance(p, target)`, the value `KDTree::distance` computes in `double`: every earlier
result is at most as far as every later one, in particular consecutive ones. -/
theorem findKNearestNeighbors_sorted_computed (w d : Nat) (hd : 0 < d) (addr : Nat → Nat)
    (t : KDNode ℤ) (target : Point ℤ) (k : Int) (hk : 1 ≤ k) (hkw : k < 2 ^ w) :
    ∃ res, findKNearestNeighbors w d addr t target k = .ok res ∧
      List.Sorted (fun a b => distance d a target ≤ distance d b target) res := by
  have hU : toSizeT w k = k.toNat := toSizeT_of_nonneg w k (by omega) hkw
  obtain ⟨res, _, e, _, hs, _, _⟩ := findKNearestNeighbors_spec w d hd addr t target k
    (by omega)
  exact ⟨res, e, hs⟩

/-- C4 on the tree built from `(1, 0)` and `(1, 2 ^ (-30))` with target `(0, 0)` and
`k = 2`: both computed distances are `1.0`, the node with the lower address comes first. -/
theorem findKNearestNeighbors_sorted_computed_witness :
    findKNearestNeighbors 64 2 (fun pos => pos)
        (build stdSort 2 [⟨[F64.dbl 1 0, 0]⟩, ⟨[F64.dbl 1 0, F64.dbl 1 (-30)]⟩]) ⟨[0, 0]⟩ 2 =
      .ok [⟨[F64.dbl 1 0, F64.dbl 1 (-30)]⟩, ⟨[F64.dbl 1 0, 0]⟩] ∧
    distance 2 ⟨[F64.dbl 1 0, F64.dbl 1 (-30)]⟩ ⟨[0, 0]⟩ = F64.dbl 1 0 ∧
    distance 2 ⟨[F64.dbl 1 0, 0]⟩ ⟨[0, 0]⟩ = F64.dbl 1 0 ∧
    ∃ res, findKNearestNeighbors 64 2 (fun pos => pos)
        (build stdSort 2 [⟨[F64.dbl 1 0, 0]⟩, ⟨[F64.dbl 1 0, F64.dbl 1 (-30)]⟩]) ⟨[0, 0]⟩ 2 =
          .ok res ∧
      List.Sorted (fun a b => distance 2 a ⟨[0, 0]⟩ ≤ distance 2 b ⟨[0, 0]⟩) res :=
  ⟨rfl, by decide, by decide, findKNearestNeighbors_sorted_computed 64 2 (by decide)
    (fun pos => pos)
    (build stdSort 2 [⟨[F64.dbl 1 0, 0]⟩, ⟨[F64.dbl 1 0, F64.dbl 1 (-30)]⟩]) ⟨[0, 0]⟩ 2
    (by decide) (by decide)⟩

/-- C5. For `dimensions ≥ 1` and a batch of points of length `dimensions`, the in-order
traversal of `buildTree(points, 0)` is a permutation of the batch: no point is lost and
none is duplicated. -/
theorem buildTree_preserves_points (sort : Nat → List (Point α) → List (Point α))
    (hsort : IsSort sort) (d : Nat) (_hd : 0 < d) (points : List (Point α))
    (_hpts : ∀ p ∈ points, p.coords.length = d) :
    List.Perm (buildTree sort d points 0).toList points :=
  buildTree_toList sort hsort d points 0

/-- C5 on the example batch. -/
theorem buildTree_preserves_points_witness :
    (buildTree stdSort 2 examplePoints 0).toList =
        [⟨[2, 3]⟩, ⟨[5, 4]⟩, ⟨[4, 7]⟩, ⟨[7, 2]⟩, ⟨[8, 1]⟩, ⟨[9, 6]⟩] ∧
      List.Perm (buildTree stdSort 2 examplePoints 0).toList examplePoints :=
  ⟨rfl, buildTree_preserves_points stdSort stdSort_isSort 2 (by decide) examplePoints
    (by decide)⟩

/-- C6, refuted as stated: built from the batch `(1), (1)` with `dimensions = 1`, the
tree has the node `(1)` with `(1)` in its left subtree, which is not strictly less. -/
theorem build_not_strict :
    ¬ StrictInv 1 0 (buildThenInsert stdSort 1 [(⟨[1]⟩ : Point ℤ), ⟨[1]⟩] []) := by
  decide

/-- C6, amended. For every tree produced by build followed by inserts, at every node and
on that node's axis, every point of the left subtree is less than or equal to the node and
every point of the right subtree is greater or equal; for a tree grown from the empty tree
by inserts alone the left inequality is strict. -/
theorem partition_invariant (sort : Nat → List (Point α) → List (Point α))
    (hsort : IsSort sort) (d : Nat) (_hd : 0 < d) (points inserted : List (Point α))
    (_hpts : ∀ p ∈ points ++ inserted, p.coords.length = d) :
    WeakInv d 0 (buildThenInsert sort d points inserted) ∧
      StrictInv d 0 (buildThenInsert sort d [] inserted) := by
  refine ⟨buildThenInsert_weakInv sort hsort d points inserted, ?_⟩
  apply foldl_insert_strictInv
  unfold build
  rw [buildTree_nil]
  trivial

/-- C6 amended, on the example: the six points built, then `(6, 5)` and `(7, 0)` inserted. -/
theorem partition_invariant_witness :
    WeakInv 2 0 (buildThenInsert stdSort 2 examplePoints [⟨[6, 5]⟩, ⟨[7, 0]⟩]) ∧
      StrictInv 2 0 (buildThenInsert stdSort 2 [] [(⟨[6, 5]⟩ : Point ℤ), ⟨[7, 0]⟩]) :=
  partition_invariant stdSort stdSort_isSort 2 (by decide) examplePoints
    [⟨[6, 5]⟩, ⟨[7, 0]⟩] (by decide)

/-- C7. For every tree `t` and point `p` of the tree's dimensionality, `insert(p)` adds
one node, the stored multiset becomes that of `t` plus `p`, and there is one position,
absent in `t`, such that the new tree holds `p` there as a leaf and at every other position
holds exactly what `t` holds. -/
theorem insert_adds_one_leaf (d : Nat) (_hd : 0 < d) (t : KDNode α) (p : Point α)
    (_hp : p.coords.length = d) (_ht : ∀ q ∈ t.toList, q.coords.length = d) :
    (insert d t p).size = t.size + 1 ∧
      List.Perm (insert d t p).toList (p :: t.toList) ∧
      ∃ path, t.get? path = none ∧
        (∀ path2, (insert d t p).get? path2 = if path2 = path then some p else t.get? path2) ∧
        (∀ b, (insert d t p).get? (path ++ [b]) = none) := by
  refine ⟨insertUtil_size d p t 0, insertUtil_toList d p t 0, insertPath d t p 0,
    insertPath_get? d p t 0, insertUtil_get? d p t 0, ?_⟩
  intro b
  unfold insert
  rw [insertUtil_get?, if_neg (by simp)]
  exact get?_append_none t _ _ (insertPath_get? d p t 0)

/-- C7 on the example tree: `(6, 5)` becomes the right child of `(4, 7)`. -/
theorem insert_adds_one_leaf_witness :
    (insert 2 (build stdSort 2 examplePoints) ⟨[6, 5]⟩).get? [false, true, true]
        = some ⟨[6, 5]⟩ ∧
    ((insert 2 (build stdSort 2 examplePoints) ⟨[6, 5]⟩).size
        = (build stdSort 2 examplePoints).size + 1 ∧
      List.Perm (insert 2 (build stdSort 2 examplePoints) ⟨[6, 5]⟩).toList
        (⟨[6, 5]⟩ :: (build stdSort 2 examplePoints).toList) ∧
      ∃ path, (build stdSort 2 examplePoints).get? path = none ∧
        (∀ path2, (insert 2 (build stdSort 2 examplePoints) ⟨[6, 5]⟩).get? path2 =
          if path2 = path then some ⟨[6, 5]⟩ else (build stdSort 2 examplePoints).get? path2) ∧
        (∀ b, (insert 2 (build stdSort 2 examplePoints) ⟨[6, 5]⟩).get? (path ++ [b]) = none)) :=
  ⟨rfl, insert_adds_one_leaf 2 (by decide) (build stdSort 2 examplePoints) ⟨[6, 5]⟩ rfl
    (by decide)⟩

/-- C8 (code defect). On the empty tree `findNearestNeighbor` reports nothing: `nearest`
is still null when `nearest->point` is read (kdtree.cpp:101), an invalid access. -/
theorem findNearestNeighbor_empty_faults (d : Nat) (target : Point ℤ) :
    findNearestNeighbor d (.null : KDNode ℤ) target = .error .nullDereference :=
  rfl

/-- C9, refuted as stated: on the example tree `k = -1` returns a list, all six points. -/
theorem findKNearestNeighbors_negative_k_returns :
    findKNearestNeighbors 64 2 (fun pos => pos) (build stdSort 2 (examplePoints.map F64.ofInt))
        (F64.ofInt exampleTarget) (-1) =
      .ok ([⟨[8, 1]⟩, ⟨[7, 2]⟩, ⟨[9, 6]⟩, ⟨[5, 4]⟩, ⟨[2, 3]⟩, ⟨[4, 7]⟩].map F64.ofInt) :=
  rfl

/-- C9, amended. `findKNearestNeighbors` does not validate `k` and reports no usage error:
on the empty tree it returns the empty list for every `k`, and for every negative `k`
(converted to the unsigned size type of `w` bits, `k > -2 ^ w`) it returns a list of stored
points. -/
theorem findKNearestNeighbors_nonpositive_k (w d : Nat) (hd : 0 < d) (addr : Nat → Nat)
    (t : KDNode ℤ) (target : Point ℤ) (k : Int) :
    findKNearestNeighbors w d addr (.null : KDNode ℤ) target k = .ok [] ∧
      (k < 0 → -(2 ^ w) < k →
        ∃ res rest, findKNearestNeighbors w d addr t target k = .ok res ∧
          List.Perm (res ++ rest) t.toList) := by
  refine ⟨rfl, ?_⟩
  intro hk hkw
  have hU : toSizeT w k = (2 ^ w + k).toNat := toSizeT_of_neg w k hk hkw
  obtain ⟨res, rest, e, _, _, hp, _⟩ := findKNearestNeighbors_spec w d hd addr t target k
    (by omega)
  exact ⟨res, rest, e, hp⟩

/-- C9 amended, with a 64-bit size type: `k = 0` on the empty tree, `k = -1` on the
example tree. -/
theorem findKNearestNeighbors_nonpositive_k_witness :
    findKNearestNeighbors 64 2 (fun pos => pos) (.null : KDNode ℤ) (F64.ofInt exampleTarget) 0
        = .ok [] ∧
      ∃ res rest, findKNearestNeighbors 64 2 (fun pos => pos)
          (build stdSort 2 (examplePoints.map F64.ofInt)) (F64.ofInt exampleTarget) (-1) = .ok res ∧
        List.Perm (res ++ rest) (build stdSort 2 (examplePoints.map F64.ofInt)).toList :=
  ⟨(findKNearestNeighbors_nonpositive_k 64 2 (by decide) (fun pos => pos)
      (build stdSort 2 (examplePoints.map F64.ofInt)) (F64.ofInt exampleTarget) 0).1,
    (findKNearestNeighbors_nonpositive_k 64 2 (by decide) (fun pos => pos)
      (build stdSort 2 (examplePoints.map F64.ofInt)) (F64.ofInt exampleTarget) (-1)).2 (by decide) (by decide)⟩

/-- C10, refuted as stated: with `dimensions = 2`, inserting the three-coordinate point
`(1, 2, 3)` changes the tree; the point is stored, whole, as the left child of `(2, 3)`. -/
theorem insert_three_coordinates_accepted :
    insert 2 (build stdSort 2 examplePoints) ⟨[1, 2, 3]⟩ ≠ build stdSort 2 examplePoints ∧
      (insert 2 (build stdSort 2 examplePoints) ⟨[1, 2, 3]⟩).get? [false, false, false]
        = some ⟨[1, 2, 3]⟩ := by
  decide

/-- C10, amended. `insert` makes no dimension check and reports no error: a point with at
least `dimensions` coordinates is stored whole in a new leaf (one node more), at the
position that its first `dimensions` coordinates alone determine. -/
theorem insert_ignores_extra_coordinates (d : Nat) (hd : 0 < d) (t : KDNode α) (p : Point α)
    (_hp : d ≤ p.coords.length) :
    (insert d t p).size = t.size + 1 ∧
      ∃ path, t.get? path = none ∧ (insert d t p).get? path = some p ∧
        (insert d t ⟨p.coords.take d⟩).get? path = some ⟨p.coords.take d⟩ := by
  refine ⟨insertUtil_size d p t 0, insertPath d t p 0, insertPath_get? d p t 0, ?_, ?_⟩
  · unfold insert
    rw [insertUtil_get?, if_pos rfl]
  · unfold insert
    rw [insertUtil_get?, if_pos]
    exact insertPath_congr d hd p ⟨p.coords.take d⟩ (fun i hi => coord_take d p hi) t 0

/-- C10 amended, on the example tree and the point `(1, 2, 3)`. -/
theorem insert_ignores_extra_coordinates_witness :
    (insert 2 (build stdSort 2 examplePoints) ⟨[1, 2, 3]⟩).size
        = (build stdSort 2 examplePoints).size + 1 ∧
      ∃ path, (build stdSort 2 examplePoints).get? path = none ∧
        (insert 2 (build stdSort 2 examplePoints) ⟨[1, 2, 3]⟩).get? path
          = some ⟨[1, 2, 3]⟩ ∧
        (insert 2 (build stdSort 2 examplePoints)
            ⟨(⟨[1, 2, 3]⟩ : Point ℤ).coords.take 2⟩).get? path
          = some ⟨(⟨[1, 2, 3]⟩ : Point ℤ).coords.take 2⟩ :=
  insert_ignores_extra_coordinates 2 (by decide) (build stdSort 2 examplePoints)
    ⟨[1, 2, 3]⟩ (by decide)

/-- C11, refuted as stated: the point returned on the example of the spec is at a computed
distance below `2`, which is not the `double` that `std::sqrt` gives for `5`. -/
theorem example_distance_not_five :
    ∃ p, findNearestNeighbor 2 (build stdSort 2 (examplePoints.map F64.ofInt)) (F64.ofInt exampleTarget) = .ok p ∧
      distance 2 p (F64.ofInt exampleTarget) < F64.dbl 2 0 ∧
      distance 2 p (F64.ofInt exampleTarget) ≠ ((F64.sqrt (F64.dbl 5 0).toNat : Nat) : Int) :=
  ⟨F64.ofInt ⟨[8, 1]⟩, rfl, by decide, by decide⟩

/-- C11, amended. In the example of the spec (`dimensions = 2`, the six points, target
`(9, 2)`), whatever order `std::sort` leaves equal keys in, `findNearestNeighbor` returns
`(8, 1)`; the sum of squared per-axis differences that `KDTree::distance` accumulates for
it is exactly `2`, and the distance it returns is `sqrt 2` rounded to the nearest `double`,
`6369051672525773 * 2 ^ (-52)`. -/
theorem example_nearest_distance (sort : Nat → List (Point ℤ) → List (Point ℤ))
    (hsort : IsSort sort) :
    findNearestNeighbor 2 (build sort 2 (examplePoints.map F64.ofInt)) (F64.ofInt exampleTarget) =
        .ok (F64.ofInt ⟨[8, 1]⟩) ∧
      F64.add (F64.add 0 (F64.square (F64.absSub (F64.dbl 8 0) (F64.dbl 9 0))))
          (F64.square (F64.absSub (F64.dbl 1 0) (F64.dbl 2 0))) = (F64.dbl 2 0).toNat ∧
      distance 2 (F64.ofInt ⟨[8, 1]⟩) (F64.ofInt exampleTarget) = F64.dbl 6369051672525773 (-52) ∧
      F64.IsRound (Real.sqrt 2 * 2 ^ 1074)
        (distance 2 (F64.ofInt ⟨[8, 1]⟩) (F64.ofInt exampleTarget)).toNat := by
  refine ⟨?_, by decide, by decide, ?_⟩
  · have hinv : WeakInv 2 0 (build sort 2 (examplePoints.map F64.ofInt)) :=
      buildThenInsert_weakInv sort hsort 2 (examplePoints.map F64.ofInt) []
    have hperm : List.Perm (build sort 2 (examplePoints.map F64.ofInt)).toList
        (examplePoints.map F64.ofInt) := by
      simpa using buildThenInsert_toList sort hsort 2 (examplePoints.map F64.ofInt) []
    obtain ⟨p, e, hp, hmin⟩ := findNearestNeighbor_of_weakInv 2 (by decide)
      (F64.ofInt exampleTarget) _ hinv
      ⟨F64.ofInt ⟨[8, 1]⟩, hperm.mem_iff.2 (by decide), by decide⟩
    have h81 := hmin (F64.ofInt ⟨[8, 1]⟩) (hperm.mem_iff.2 (by decide))
    have hp2 := hperm.mem_iff.1 hp
    simp only [examplePoints, List.map_cons, List.map_nil, List.mem_cons, List.mem_singleton,
      List.not_mem_nil, or_false] at hp2
    rcases hp2 with rfl | rfl | rfl | rfl | rfl | rfl
    · exact absurd h81 (by decide)
    · exact absurd h81 (by decide)
    · exact absurd h81 (by decide)
    · exact absurd h81 (by decide)
    · exact e
    · exact absurd h81 (by decide)
  · have hd : (distance 2 (F64.ofInt ⟨[8, 1]⟩) (F64.ofInt exampleTarget)).toNat =
        F64.sqrt (F64.dbl 2 0).toNat := by decide
    have hsp := f64_sqrt_spec (F64.dbl 2 0).toNat (by decide)
    rw [hd]
    have hT : (0 : ℝ) ≤ 2 ^ 1074 := le_of_lt (two_pow_pos_real 1074)
    have e : Real.sqrt ((((F64.dbl 2 0).toNat : Nat) : ℝ) * 2 ^ 1074) =
        Real.sqrt 2 * 2 ^ 1074 := by
      rw [f64_dbl_two, Nat.cast_mul, cast_two_pow, Nat.cast_ofNat]
      generalize (2 : ℝ) ^ 1074 = T at hT
      rw [mul_assoc, Real.sqrt_mul (by norm_num), Real.sqrt_mul_self hT]
    rw [e] at hsp
    exact hsp

/-- C11 amended, with the insertion sort standing for `std::sort`. -/
theorem example_nearest_distance_witness :
    findNearestNeighbor 2 (build stdSort 2 (examplePoints.map F64.ofInt)) (F64.ofInt exampleTarget) =
        .ok (F64.ofInt ⟨[8, 1]⟩) ∧
      F64.add (F64.add 0 (F64.square (F64.absSub (F64.dbl 8 0) (F64.dbl 9 0))))
          (F64.square (F64.absSub (F64.dbl 1 0) (F64.dbl 2 0))) = (F64.dbl 2 0).toNat ∧
      distance 2 (F64.ofInt ⟨[8, 1]⟩) (F64.ofInt exampleTarget) = F64.dbl 6369051672525773 (-52) ∧
      F64.IsRound (Real.sqrt 2 * 2 ^ 1074)
        (distance 2 (F64.ofInt ⟨[8, 1]⟩) (F64.ofInt exampleTarget)).toNat :=
  example_nearest_distance stdSort stdSort_isSort

/-- C12 (counterexample). In `double` the point returned for a stored target need not be
the target or a duplicate of it.  On the tree built from `(2 ^ (-600))` and `(2 ^ (-599))`
with the stored target `(2 ^ (-600))`, `findNearestNeighbor` returns `(2 ^ (-599))`: the
square of the difference underflows to `0`, so the root, visited first, is at computed
distance `0` and is kept. -/
theorem findNearestNeighbor_stored_target_returns_other :
    F64.AllDouble [⟨[F64.dbl 1 (-600)]⟩, ⟨[F64.dbl 1 (-599)]⟩] ∧
    (⟨[F64.dbl 1 (-600)]⟩ : Point ℤ) ∈
      (build stdSort 1 [⟨[F64.dbl 1 (-600)]⟩, ⟨[F64.dbl 1 (-599)]⟩]).toList ∧
    findNearestNeighbor 1
        (build stdSort 1 [⟨[F64.dbl 1 (-600)]⟩, ⟨[F64.dbl 1 (-599)]⟩])
        ⟨[F64.dbl 1 (-600)]⟩ = .ok ⟨[F64.dbl 1 (-599)]⟩ ∧
    (⟨[F64.dbl 1 (-599)]⟩ : Point ℤ) ≠ ⟨[F64.dbl 1 (-600)]⟩ ∧
    distance 1 ⟨[F64.dbl 1 (-599)]⟩ ⟨[F64.dbl 1 (-600)]⟩ = 0 :=
  ⟨by decide, by decide, rfl, by decide, by decide⟩

/-- C12 (corrected). In `double`, for `dimensions ≥ 1`, a tree built and then inserted into
and a target equal to a stored point, `findNearestNeighbor` returns a stored point whose
computed distance to the target is `0`.  Where the stored point sits in the tree plays no
part. -/
theorem findNearestNeighbor_stored_target_computed
    (sort : Nat → List (Point ℤ) → List (Point ℤ)) (hsort : IsSort sort) (d : Nat)
    (hd : 0 < d) (points inserted : List (Point ℤ)) (target : Point ℤ)
    (htarget : target ∈ points ++ inserted) :
    ∃ p, findNearestNeighbor d (buildThenInsert sort d points inserted) target = .ok p ∧
      p ∈ points ++ inserted ∧ distance d p target = 0 := by
  have hperm := buildThenInsert_toList sort hsort d points inserted
  obtain ⟨p, e, hp, h0⟩ := findNearestNeighbor_stored d hd target
    (buildThenInsert sort d points inserted)
    (buildThenInsert_weakInv sort hsort d points inserted) (hperm.symm.subset htarget)
  exact ⟨p, e, hperm.subset hp, h0⟩

/-- C12 on a tree in which the target `(1, 0)` is stored in the left subtree of the root
`(1, 5)`, with the same coordinate on the root's axis. -/
theorem findNearestNeighbor_stored_target_computed_witness :
    (buildThenInsert stdSort 2
        [F64.ofInt ⟨[1, 0]⟩, F64.ofInt ⟨[1, 5]⟩, F64.ofInt ⟨[1, 9]⟩] []).get? []
      = some (F64.ofInt ⟨[1, 5]⟩) ∧
    (buildThenInsert stdSort 2
        [F64.ofInt ⟨[1, 0]⟩, F64.ofInt ⟨[1, 5]⟩, F64.ofInt ⟨[1, 9]⟩] []).get? [false]
      = some (F64.ofInt ⟨[1, 0]⟩) ∧
    findNearestNeighbor 2 (buildThenInsert stdSort 2
        [F64.ofInt ⟨[1, 0]⟩, F64.ofInt ⟨[1, 5]⟩, F64.ofInt ⟨[1, 9]⟩] []) (F64.ofInt ⟨[1, 0]⟩)
      = .ok (F64.ofInt ⟨[1, 0]⟩) ∧
    ∃ p, findNearestNeighbor 2 (buildThenInsert stdSort 2
          [F64.ofInt ⟨[1, 0]⟩, F64.ofInt ⟨[1, 5]⟩, F64.ofInt ⟨[1, 9]⟩] [])
          (F64.ofInt ⟨[1, 0]⟩) = .ok p ∧
      p ∈ [F64.ofInt ⟨[1, 0]⟩, F64.ofInt ⟨[1, 5]⟩, F64.ofInt ⟨[1, 9]⟩] ++ [] ∧
      distance 2 p (F64.ofInt ⟨[1, 0]⟩) = 0 :=
  ⟨rfl, rfl, rfl, findNearestNeighbor_stored_target_computed stdSort stdSort_isSort 2
    (by decide) [F64.ofInt ⟨[1, 0]⟩, F64.ofInt ⟨[1, 5]⟩, F64.ofInt ⟨[1, 9]⟩] []
    (F64.ofInt ⟨[1, 0]⟩) (by decide)⟩

/-- C13. For `dimensions ≥ 1` and a batch of `n ≥ 1` points of length `dimensions`, the
height `h` of the tree produced by `buildTree` satisfies `2 ^ (h - 1) ≤ n < 2 ^ h`, that
is `h = floor (log2 n) + 1`. -/
theorem buildTree_logarithmic_height (sort : Nat → List (Point α) → List (Point α))
    (hsort : IsSort sort) (d : Nat) (_hd : 0 < d) (points : List (Point α))
    (hne : points ≠ []) (_hpts : ∀ p ∈ points, p.coords.length = d) :
    2 ^ ((buildTree sort d points 0).height - 1) ≤ points.length ∧
      points.length < 2 ^ (buildTree sort d points 0).height ∧
      (buildTree sort d points 0).height = Nat.log 2 points.length + 1 := by
  have h := buildTree_height sort hsort d points 0 hne
  have hpos : points.length ≠ 0 := fun e => hne (List.length_eq_zero.1 e)
  rw [h, Nat.add_sub_cancel]
  exact ⟨Nat.pow_log_le_self 2 hpos, Nat.lt_pow_succ_log_self (by decide) _, rfl⟩

/-- C13 on the example batch: six points, height three. -/
theorem buildTree_logarithmic_height_witness :
    (buildTree stdSort 2 examplePoints 0).height = 3 ∧
    (2 ^ ((buildTree stdSort 2 examplePoints 0).height - 1) ≤ examplePoints.length ∧
      examplePoints.length < 2 ^ (buildTree stdSort 2 examplePoints 0).height ∧
      (buildTree stdSort 2 examplePoints 0).height = Nat.log 2 examplePoints.length + 1) :=
  ⟨rfl, buildTree_logarithmic_height stdSort stdSort_isSort 2 (by decide) examplePoints
    (by decide) (by decide)⟩

/-- C14, refuted as stated: no batch, with however many duplicate split-axis values,
builds a tree higher than `floor (log2 n) + 1`. -/
theorem build_height_never_degrades :
    ¬ ∃ (sort : Nat → List (Point ℝ) → List (Point ℝ)) (d : Nat) (points : List (Point ℝ)),
      IsSort sort ∧ points ≠ [] ∧
        Nat.log 2 points.length + 1 < (build sort d points).height := by
  rintro ⟨sort, d, points, hsort, hne, hlt⟩
  have h : (build sort d points).height = Nat.log 2 points.length + 1 :=
    buildTree_height sort hsort d points 0 hne
  omega

/-- C14, amended. Duplicate split-axis values do not degrade a built tree: for every
batch of `n ≥ 1` points the height of the tree produced by build is at most
`floor (log2 n) + 1`, and for the batch of `n` copies of one point it is exactly that. -/
theorem build_height_with_duplicates (sort : Nat → List (Point α) → List (Point α))
    (hsort : IsSort sort) (d : Nat) (_hd : 0 < d) :
    (∀ points : List (Point α), points ≠ [] →
      (build sort d points).height ≤ Nat.log 2 points.length + 1) ∧
    (∀ (p : Point α) (n : Nat), 1 ≤ n →
      (build sort d (List.replicate n p)).height = Nat.log 2 n + 1) := by
  refine ⟨fun points hne => le_of_eq (buildTree_height sort hsort d points 0 hne), ?_⟩
  intro p n hn
  have hne : List.replicate n p ≠ [] := by
    intro e
    have := congrArg List.length e
    simp at this
    omega
  have h := buildTree_height sort hsort d (List.replicate n p) 0 hne
  rw [List.length_replicate] at h
  exact h

/-- C14 amended, on seven copies of the point `(1, 1)`: height three. -/
theorem build_height_with_duplicates_witness :
    (build stdSort 2 (List.replicate 7 (⟨[1, 1]⟩ : Point ℤ))).height = 3 ∧
    ((∀ points : List (Point ℤ), points ≠ [] →
      (build stdSort 2 points).height ≤ Nat.log 2 points.length + 1) ∧
    (∀ (p : Point ℤ) (n : Nat), 1 ≤ n →
      (build stdSort 2 (List.replicate n p)).height = Nat.log 2 n + 1)) :=
  ⟨rfl, build_height_with_duplicates stdSort stdSort_isSort 2 (by decide)⟩

/-- C15. For `dimensions ≥ 1`: if a tree satisfies the strict partition invariant, then
after `insert(p)`, `p` of the tree's dimensionality, it still does; so every tree grown
from the empty tree by inserts alone satisfies it. -/
theorem insert_preserves_strictInv (d : Nat) (_hd : 0 < d) :
    (∀ (t : KDNode α) (p : Point α), p.coords.length = d →
      (∀ q ∈ t.toList, q.coords.length = d) →
      StrictInv d 0 t → StrictInv d 0 (insert d t p)) ∧
    (∀ ps : List (Point α), (∀ p ∈ ps, p.coords.length = d) →
      StrictInv d 0 (ps.foldl (insert d) .null)) :=
  ⟨fun t p _ _ h => insertUtil_strictInv d p t 0 h,
    fun ps _ => foldl_insert_strictInv d ps .null trivial⟩

/-- C15 on a tree grown by three inserts, and one insert more. -/
theorem insert_preserves_strictInv_witness :
    StrictInv 2 0 (insert 2
        ([(⟨[5, 4]⟩ : Point ℤ), ⟨[2, 3]⟩, ⟨[5, 1]⟩].foldl (insert 2) .null) ⟨[5, 4]⟩) ∧
      StrictInv 2 0 ([(⟨[5, 4]⟩ : Point ℤ), ⟨[2, 3]⟩, ⟨[5, 1]⟩].foldl (insert 2) .null) :=
  ⟨(insert_preserves_strictInv 2 (by decide)).1
      ([(⟨[5, 4]⟩ : Point ℤ), ⟨[2, 3]⟩, ⟨[5, 1]⟩].foldl (insert 2) .null) ⟨[5, 4]⟩ rfl
      (by decide) (by decide),
    (insert_preserves_strictInv 2 (by decide)).2 [⟨[5, 4]⟩, ⟨[2, 3]⟩, ⟨[5, 1]⟩] (by decide)⟩

/-- C16. For `dimensions ≥ 1`, a point `p` of length `dimensions` and `n ≥ 1`: inserting
`p` `n` times into the empty tree gives a tree of `n` nodes and height `n` in which every
node has an absent left child. -/
theorem insert_same_point_chain (d : Nat) (_hd : 0 < d) (p : Point α)
    (_hp : p.coords.length = d) (n : Nat) (_hn : 1 ≤ n) :
    ((List.replicate n p).foldl (insert d) .null).height = n ∧
      ((List.replicate n p).foldl (insert d) .null).leftAbsent ∧
      ((List.replicate n p).foldl (insert d) .null).size = n := by
  have h := foldl_insert_rightChain d p n 0
  rw [Nat.zero_add] at h
  have h0 : (List.replicate n p).foldl (insert d) .null = rightChain p n := h
  rw [h0]
  exact ⟨rightChain_height p n, rightChain_leftAbsent p n, rightChain_size p n⟩

/-- C16 with the point `(3, 4)` inserted four times. -/
theorem insert_same_point_chain_witness :
    ((List.replicate 4 (⟨[3, 4]⟩ : Point ℤ)).foldl (insert 2) .null).height = 4 ∧
      ((List.replicate 4 (⟨[3, 4]⟩ : Point ℤ)).foldl (insert 2) .null).leftAbsent ∧
      ((List.replicate 4 (⟨[3, 4]⟩ : Point ℤ)).foldl (insert 2) .null).size = 4 :=
  insert_same_point_chain 2 (by decide) ⟨[3, 4]⟩ rfl 4 (by decide)

/-- C17. For `dimensions ≥ 1`: every tree produced by `buildTree` has the weak partition
property (left descendants less or equal, right descendants greater or equal, on each
node's axis); `insertUtil` preserves it; and it is all the near/far choice and the pruning
tests of the two searches need, in the arithmetic of the source: on any tree with the weak
property `findNearestNeighbor` returns a stored point of least computed distance (when some
stored point has a computed distance below `DBL_MAX`) and `findKNearestNeighbors`,
`k ≥ 1`, leaves out no point of smaller computed distance than one it returns. -/
theorem weakInv_supports_searches_computed (sort : Nat → List (Point α) → List (Point α))
    (hsort : IsSort sort) (d : Nat) (hd : 0 < d) :
    (∀ (points : List (Point α)) (depth : Nat), WeakInv d depth (buildTree sort d points depth)) ∧
    (∀ (t : KDNode α) (p : Point α) (depth : Nat),
      WeakInv d depth t → WeakInv d depth (insertUtil d t p depth)) ∧
    (∀ (t : KDNode ℤ) (target : Point ℤ), WeakInv d 0 t →
      (∃ q ∈ t.toList, distance d q target < doubleMax) →
      ∃ p, findNearestNeighbor d t target = .ok p ∧ p ∈ t.toList ∧
        ∀ q ∈ t.toList, distance d p target ≤ distance d q target) ∧
    (∀ (w : Nat) (addr : Nat → Nat) (t : KDNode ℤ) (target : Point ℤ) (k : Int),
      1 ≤ k → k < 2 ^ w → WeakInv d 0 t →
      ∃ res rest, findKNearestNeighbors w d addr t target k = .ok res ∧
        List.Perm (res ++ rest) t.toList ∧
        ∀ p ∈ res, ∀ q ∈ rest, distance d p target ≤ distance d q target) := by
  refine ⟨fun points depth => buildTree_weakInv sort hsort d points depth,
    fun t p depth h => insertUtil_weakInv d p t depth h,
    fun t target h hc => findNearestNeighbor_of_weakInv d hd target t h hc, ?_⟩
  intro w addr t target k hk hkw hinv
  have hU : toSizeT w k = k.toNat := toSizeT_of_nonneg w k (by omega) hkw
  obtain ⟨res, rest, e, _, _, hp, hb⟩ := findKNearestNeighbors_spec w d hd addr t
    target k (by omega)
  exact ⟨res, rest, e, hp, hb hinv⟩

/-- C17 with the insertion sort standing for `std::sort` and `dimensions = 2`; the tree
built from the batch `(1, 0), (1, 0)` has the weak property and not the strict one. -/
theorem weakInv_supports_searches_computed_witness :
    ¬ StrictInv 2 0 (buildTree stdSort 2 [(⟨[1, 0]⟩ : Point ℤ), ⟨[1, 0]⟩] 0) ∧
    WeakInv 2 0 (buildTree stdSort 2 [(⟨[1, 0]⟩ : Point ℤ), ⟨[1, 0]⟩] 0) ∧
    ((∀ (points : List (Point ℤ)) (depth : Nat),
      WeakInv 2 depth (buildTree stdSort 2 points depth)) ∧
    (∀ (t : KDNode ℤ) (p : Point ℤ) (depth : Nat),
      WeakInv 2 depth t → WeakInv 2 depth (insertUtil 2 t p depth)) ∧
    (∀ (t : KDNode ℤ) (target : Point ℤ), WeakInv 2 0 t →
      (∃ q ∈ t.toList, distance 2 q target < doubleMax) →
      ∃ p, findNearestNeighbor 2 t target = .ok p ∧ p ∈ t.toList ∧
        ∀ q ∈ t.toList, distance 2 p target ≤ distance 2 q target) ∧
    (∀ (w : Nat) (addr : Nat → Nat) (t : KDNode ℤ) (target : Point ℤ) (k : Int),
      1 ≤ k → k < 2 ^ w → WeakInv 2 0 t →
      ∃ res rest, findKNearestNeighbors w 2 addr t target k = .ok res ∧
        List.Perm (res ++ rest) t.toList ∧
        ∀ p ∈ res, ∀ q ∈ rest, distance 2 p target ≤ distance 2 q target)) :=
  ⟨by decide, by decide, weakInv_supports_searches_computed stdSort stdSort_isSort 2
    (by decide)⟩

/-- C18. For `dimensions ≥ 1` and `k ≥ 1` (an `int`, so below `2 ^ w`): an offer to a queue
of at most `k` entries leaves between `1` and `k` entries and never fewer than before; a
traversal returns a queue no smaller than the one it started with and never reads
`pq.top()` on an empty queue; so `findKNearestNeighbors` returns normally.  With `k = 0`
on a non-empty tree the read of `pq.top()` is on an empty queue. -/
theorem top_read_on_nonempty_queue (w d : Nat) (hd : 0 < d) (addr : Nat → Nat)
    (target : Point ℤ) :
    (∀ k : Int, 1 ≤ k → k < 2 ^ w →
      (∀ (a : Nat) (p : Point ℤ) (pq : List (Entry ℤ)), pq.length ≤ k.toNat →
        1 ≤ (insertIntoQueue w d target k a p pq).length ∧
        (insertIntoQueue w d target k a p pq).length ≤ k.toNat ∧
        pq.length ≤ (insertIntoQueue w d target k a p pq).length) ∧
      (∀ (t : KDNode ℤ) (depth pos : Nat) (pq : List (Entry ℤ)),
        List.Sorted Entry.ge pq → pq.length ≤ k.toNat →
        ∃ pq2, traverse w d addr target k t depth pos pq = .ok pq2 ∧
          pq.length ≤ pq2.length ∧ pq2.length ≤ k.toNat) ∧
      (∀ t : KDNode ℤ, ∃ res, findKNearestNeighbors w d addr t target k = .ok res)) ∧
    (∀ t : KDNode ℤ, t ≠ .null →
      findKNearestNeighbors w d addr t target 0 = .error .emptyQueueTop) := by
  constructor
  · intro k hk hkw
    have hU : toSizeT w k = k.toNat := toSizeT_of_nonneg w k (by omega) hkw
    have hk1 : 1 ≤ k.toNat := by omega
    refine ⟨?_, ?_, ?_⟩
    · intro a p pq hl
      rw [insertIntoQueue_length, hU]
      split <;> omega
    · intro t depth pos pq hs hl
      obtain ⟨pq2, D, e, kp, _⟩ := traverse_spec w d hd addr target k (by omega) t depth pos
        pq hs (by omega)
      have h1 := kp.2.1
      rw [hU] at h1
      exact ⟨pq2, e, by omega, by omega⟩
    · intro t
      obtain ⟨res, _, e, _⟩ := findKNearestNeighbors_spec w d hd addr t target k (by omega)
      exact ⟨res, e⟩
  · intro t ht
    unfold findKNearestNeighbors
    rw [traverse_zero w d addr target 0 (by simp [toSizeT]) t 0 1 ht]

/-- C18 on the example: `k = 3` returns normally, `k = 0` reads the top of an empty
queue. -/
theorem top_read_on_nonempty_queue_witness :
    (∃ res, findKNearestNeighbors 64 2 (fun pos => pos) (build stdSort 2 (examplePoints.map F64.ofInt))
        (F64.ofInt exampleTarget) 3 = .ok res) ∧
      findKNearestNeighbors 64 2 (fun pos => pos) (build stdSort 2 (examplePoints.map F64.ofInt))
        (F64.ofInt exampleTarget) 0 = .error .emptyQueueTop :=
  ⟨((top_read_on_nonempty_queue 64 2 (by decide) (fun pos => pos) (F64.ofInt exampleTarget)).1 3
      (by decide) (by decide)).2.2 (build stdSort 2 (examplePoints.map F64.ofInt)),
    (top_read_on_nonempty_queue 64 2 (by decide) (fun pos => pos) (F64.ofInt exampleTarget)).2
      (build stdSort 2 (examplePoints.map F64.ofInt)) (by decide)⟩

/-- C19. For `dimensions ≥ 1`, a tree of `n` nodes and a negative `k` (an `int`, above
`-2 ^ w`): `k` is compared as `2 ^ w + k`; as long as the tree has no more nodes than
that, which the address space guarantees, nothing is evicted and nothing is skipped:
`findKNearestNeighbors` returns all `n` stored points, in non-decreasing order of the
distance `KDTree::distance` computes in `double`. -/
theorem findKNearestNeighbors_negative_k_all_computed (w d : Nat) (hd : 0 < d)
    (addr : Nat → Nat) (t : KDNode ℤ) (target : Point ℤ) (k : Int) (hk : k < 0)
    (hkw : -(2 ^ w) < k) (hn : (t.size : Int) ≤ 2 ^ w + k) :
    toSizeT w k = (2 ^ w + k).toNat ∧
    ∃ res, findKNearestNeighbors w d addr t target k = .ok res ∧
      List.Perm res t.toList ∧
      List.Sorted (fun a b => distance d a target ≤ distance d b target) res := by
  have hU : toSizeT w k = (2 ^ w + k).toNat := toSizeT_of_neg w k hk hkw
  refine ⟨hU, ?_⟩
  obtain ⟨res, rest, e, hl, hs, hp, _⟩ := findKNearestNeighbors_spec w d hd addr t
    target k (by omega)
  refine ⟨res, e, ?_, hs⟩
  have h1 := hp.length_eq
  rw [List.length_append, ← size_eq_length_toList] at h1
  have hrest : rest = [] := List.length_eq_zero.1 (by omega)
  subst hrest
  simpa using hp

/-- C19 on the example tree with `k = -2` and a 64-bit size type. -/
theorem findKNearestNeighbors_negative_k_all_computed_witness :
    findKNearestNeighbors 64 2 (fun pos => pos)
        (build stdSort 2 (examplePoints.map F64.ofInt)) (F64.ofInt exampleTarget) (-2) =
      .ok [F64.ofInt ⟨[8, 1]⟩, F64.ofInt ⟨[7, 2]⟩, F64.ofInt ⟨[9, 6]⟩, F64.ofInt ⟨[5, 4]⟩,
        F64.ofInt ⟨[2, 3]⟩, F64.ofInt ⟨[4, 7]⟩] ∧
    (toSizeT 64 (-2) = (2 ^ 64 + (-2 : Int)).toNat ∧
    ∃ res, findKNearestNeighbors 64 2 (fun pos => pos)
        (build stdSort 2 (examplePoints.map F64.ofInt)) (F64.ofInt exampleTarget) (-2)
          = .ok res ∧
      List.Perm res (build stdSort 2 (examplePoints.map F64.ofInt)).toList ∧
      List.Sorted (fun a b => distance 2 a (F64.ofInt exampleTarget) ≤
        distance 2 b (F64.ofInt exampleTarget)) res) :=
  ⟨rfl, findKNearestNeighbors_negative_k_all_computed 64 2 (by decide) (fun pos => pos)
    (build stdSort 2 (examplePoints.map F64.ofInt)) (F64.ofInt exampleTarget) (-2)
    (by decide) (by decide) (by decide)⟩

/-- C20 (code defect). The claim asks the two searches to agree in distance on every
non-empty tree.  In `double`, on the tree built from `(DBL_MAX, 0)` and `(DBL_MAX, 1)` with
target `(-DBL_MAX, 0)`, both computed distances are `+inf`, not below the initial
`bestDist = DBL_MAX`: `findNearestNeighbor` dereferences the null `nearest`, while
`findKNearestNeighbors` with `k = 1` returns one point.  The two queue entries tie on the
distance and the one at the higher address is evicted: with the nodes at increasing
addresses in the order of allocation (the root `(DBL_MAX, 1)` first) the point returned is
`(DBL_MAX, 1)`, with the addresses the other way round it is `(DBL_MAX, 0)`.
(`nearest_and_one_nearest_agree` proves the agreement whenever some stored point has a
computed distance below `DBL_MAX`.) -/
theorem nearest_faults_where_one_nearest_returns :
    F64.AllDouble [⟨[doubleMax, 0]⟩, ⟨[doubleMax, F64.dbl 1 0]⟩, ⟨[-doubleMax, 0]⟩] ∧
    (build stdSort 2 [⟨[doubleMax, 0]⟩, ⟨[doubleMax, F64.dbl 1 0]⟩]).get? [] =
      some ⟨[doubleMax, F64.dbl 1 0]⟩ ∧
    (build stdSort 2 [⟨[doubleMax, 0]⟩, ⟨[doubleMax, F64.dbl 1 0]⟩]).get? [false] =
      some ⟨[doubleMax, 0]⟩ ∧
    distance 2 ⟨[doubleMax, 0]⟩ ⟨[-doubleMax, 0]⟩ = F64.inf ∧
    distance 2 ⟨[doubleMax, F64.dbl 1 0]⟩ ⟨[-doubleMax, 0]⟩ = F64.inf ∧
    findNearestNeighbor 2
        (build stdSort 2 [⟨[doubleMax, 0]⟩, ⟨[doubleMax, F64.dbl 1 0]⟩])
        ⟨[-doubleMax, 0]⟩ = .error .nullDereference ∧
    findKNearestNeighbors 64 2 (fun pos => pos)
        (build stdSort 2 [⟨[doubleMax, 0]⟩, ⟨[doubleMax, F64.dbl 1 0]⟩])
        ⟨[-doubleMax, 0]⟩ 1 = .ok [⟨[doubleMax, F64.dbl 1 0]⟩] ∧
    findKNearestNeighbors 64 2 (fun pos => 3 - pos)
        (build stdSort 2 [⟨[doubleMax, 0]⟩, ⟨[doubleMax, F64.dbl 1 0]⟩])
        ⟨[-doubleMax, 0]⟩ 1 = .ok [⟨[doubleMax, 0]⟩] :=
  ⟨by decide, rfl, rfl, by decide, by decide, rfl, rfl, rfl⟩

end KDTree
